import Mathlib

/-!
# tagfmt: struct-tag parser and column alignment

A shallow embedding of `key_value.go` and of the alignment core of `tagfmt.go`
(`fieldsTagFormat`, `alignGormParts`, `alignGormValue`).

Modelling conventions

* A Go `string` is a sequence of bytes: `GoString := List Nat`, every element
  standing for one byte (`< 256`).  Indexing `tag[i]`, slicing `tag[a:b]` and
  `len(tag)` are byte operations in Go and list operations here.
* A Go function that can raise a run-time panic returns `Run α`:
  `Run.ret a` for a normal return, `Run.panic` for a panic.
* `ParseTag` returns the Go triple `(quote, keyValues, err)` as the record
  `ParseRet`.
* A batch of `*ast.Field` is the list of the `Tag.Value` literals of the fields;
  the fields are distinct AST nodes, so a field is identified by its position.
* A Go map is an association list in which a later binding of a key shadows an
  earlier one; `range` over a map is discussed at `classifyKeys`.
* The package globals `globalGormKeyOrder` and `globalIndexKeys` are written by
  `alignGormParts` and read by `alignGormValue`; here they are passed explicitly.
-/

namespace Tagfmt

/-- A Go string: its bytes. -/
abbrev GoString := List Nat

/-- Bytes of an ASCII text, used to write literals readably. -/
def str (s : String) : GoString := s.toList.map Char.toNat

/-- Outcome of running Go code that may panic. -/
inductive Run (α : Type) where
  | ret : α → Run α
  | panic : Run α
  deriving DecidableEq, Repr

/-- The only error value of the package (`ErrInvalidTag`); `none` is Go's `nil` error. -/
inductive GoError where
  | ErrInvalidTag : GoError
  deriving DecidableEq, Repr

/-! ## Library functions (`strings`, `unicode/utf8`) -/

/-- Byte `' '`. -/
def SP : Nat := 32
/-- Byte `':'`. -/
def COLON : Nat := 58
/-- Byte `'"'`. -/
def DQ : Nat := 34
/-- Byte `'\\'`. -/
def BSL : Nat := 92
/-- Byte `';'`. -/
def SEMI : Nat := 59
/-- Byte of the backtick. -/
def BT : Nat := 96

/-- Test `c == ' '`. -/
def isSP (c : Nat) : Bool := decide (c = SP)
/-- Test `c != '"'`. -/
def notDQ (c : Nat) : Bool := decide (c ≠ DQ)
/-- Test `c != ':'`. -/
def notColon (c : Nat) : Bool := decide (c ≠ COLON)

/-- `strings.Repeat(" ", n)`. -/
def spaces (n : Nat) : GoString := List.replicate n SP

/-- `strings.Join(parts, " ")`. -/
def joinSp : List GoString → GoString
  | [] => []
  | [p] => p
  | p :: q :: rest => p ++ SP :: joinSp (q :: rest)

/-- `strings.TrimRight(s, " ")`: drop the trailing spaces. -/
def trimRightSp (s : GoString) : GoString :=
  (s.reverse.dropWhile isSP).reverse

/-- `strings.Split(s, ";")`: the pieces between separators, empty pieces kept
(`n` separators give `n + 1` pieces). -/
def splitSemi : GoString → List GoString
  | [] => [[]]
  | c :: cs =>
    if c = SEMI then [] :: splitSemi cs
    else match splitSemi cs with
      | [] => [[c]]
      | p :: ps => (c :: p) :: ps

/-- Width in bytes of the white-space rune (`unicode.IsSpace`) whose UTF-8
encoding the string starts with, `0` when it starts with none.  The white-space
runes are U+0009..U+000D, U+0020, U+0085, U+00A0, U+1680, U+2000..U+200A,
U+2028, U+2029, U+202F, U+205F and U+3000. -/
def spaceRuneWidth : GoString → Nat
  | [] => 0
  | c :: t =>
    if (9 ≤ c ∧ c ≤ 13) ∨ c = 32 then 1
    else match t with
      | [] => 0
      | d :: t2 =>
        if c = 0xC2 ∧ (d = 0x85 ∨ d = 0xA0) then 2
        else match t2 with
          | [] => 0
          | e :: _ =>
            if c = 0xE1 ∧ d = 0x9A ∧ e = 0x80 then 3
            else if c = 0xE2 ∧ d = 0x80 ∧ ((0x80 ≤ e ∧ e ≤ 0x8A) ∨ e = 0xA8 ∨ e = 0xA9 ∨ e = 0xAF) then 3
            else if c = 0xE2 ∧ d = 0x81 ∧ e = 0x9F then 3
            else if c = 0xE3 ∧ d = 0x80 ∧ e = 0x80 then 3
            else 0

/-- Width in bytes of the white-space rune the string ends with (`0` for none);
the argument is the string reversed. -/
def spaceRuneWidthRev : GoString → Nat
  | [] => 0
  | c :: t =>
    if (9 ≤ c ∧ c ≤ 13) ∨ c = 32 then 1
    else match t with
      | [] => 0
      | d :: t2 =>
        if d = 0xC2 ∧ (c = 0x85 ∨ c = 0xA0) then 2
        else match t2 with
          | [] => 0
          | e :: _ =>
            if e = 0xE1 ∧ d = 0x9A ∧ c = 0x80 then 3
            else if e = 0xE2 ∧ d = 0x80 ∧ ((0x80 ≤ c ∧ c ≤ 0x8A) ∨ c = 0xA8 ∨ c = 0xA9 ∨ c = 0xAF) then 3
            else if e = 0xE2 ∧ d = 0x81 ∧ c = 0x9F then 3
            else if e = 0xE3 ∧ d = 0x80 ∧ c = 0x80 then 3
            else 0

/-- Repeatedly drop the rune at the head while `w` reports one (`w s` is its
width, `0` for none); the first argument bounds the number of runes dropped. -/
def stripRunes (w : GoString → Nat) : Nat → GoString → GoString
  | 0, s => s
  | n + 1, s => if w s = 0 then s else stripRunes w n (s.drop (w s))

/-- `strings.TrimSpace`: leading, then trailing, white-space runes removed
(`TrimRightFunc(TrimLeftFunc(s, unicode.IsSpace), unicode.IsSpace)`, of which the
ASCII loops of the library are a fast path).  A byte that is not part of a
complete white-space encoding is kept: it decodes to a rune that is not white
space. -/
def TrimSpace (s : GoString) : GoString :=
  let l := stripRunes spaceRuneWidth s.length s
  (stripRunes spaceRuneWidthRev l.length l.reverse).reverse

/-- Number of bytes `utf8.DecodeRuneInString` consumes at the head of a
non-empty string: the length of a well-formed UTF-8 sequence (table `first` and
`acceptRanges` of `unicode/utf8`), `1` for a byte that starts none. -/
def runeWidth : GoString → Nat
  | [] => 0
  | c :: t =>
    if c < 0x80 then 1
    else if c < 0xC2 ∨ 0xF4 < c then 1
    else
      let size := if c < 0xE0 then 2 else if c < 0xF0 then 3 else 4
      let lo := if c = 0xE0 then 0xA0 else if c = 0xF0 then 0x90 else 0x80
      let hi := if c = 0xED then 0x9F else if c = 0xF4 then 0x8F else 0xBF
      if t.length + 1 < size then 1
      else
        let c1 := t.getD 0 0
        if c1 < lo ∨ hi < c1 then 1
        else if size = 2 then 2
        else
          let c2 := t.getD 1 0
          if c2 < 0x80 ∨ 0xBF < c2 then 1
          else if size = 3 then 3
          else
            let c3 := t.getD 2 0
            if c3 < 0x80 ∨ 0xBF < c3 then 1 else 4

/-- Loop of `utf8.RuneCountInString`; the first argument bounds the number of runes. -/
def runeCountFuel : Nat → GoString → Nat
  | 0, _ => 0
  | n + 1, s =>
    match s with
    | [] => 0
    | c :: t => 1 + runeCountFuel n ((c :: t).drop (runeWidth (c :: t)))

/-- `utf8.RuneCountInString`: the number of runes, every byte that is not part
of a well-formed sequence counting as one rune. -/
def RuneCountInString (s : GoString) : Nat := runeCountFuel s.length s

/-- `strings.Index(s, ":") != -1`. -/
def hasColon (s : GoString) : Bool := decide (COLON ∈ s)

/-- `s[:strings.Index(s, ":")]`, for a string that has a colon. -/
def beforeColon (s : GoString) : GoString := s.takeWhile notColon

/-! ## key_value.go -/

/-- The Go struct `KeyValue`. -/
structure KeyValue where
  Key : GoString
  quote : GoString
  Value : GoString
  GormParts : List GoString
  deriving DecidableEq, Repr

/-- Key of the designated multi-clause tag, `"gorm"`. -/
def gormKey : GoString := [103, 111, 114, 109]

/-- `KeyValue.StringWithGormAlign`: the segment of an entry with the given value
text.  The raw Go literal of the second branch holds a colon, two backslashes and
a double quote; it is used both before and after the value. -/
def KeyValue.StringWithGormAlign (kv : KeyValue) (alignedValue : GoString) : Run GoString :=
  if kv.quote = [BT] then
    Run.ret (kv.Key ++ [COLON, DQ] ++ alignedValue ++ [DQ])
  else if kv.quote = [DQ] then
    Run.ret (kv.Key ++ [COLON, BSL, BSL, DQ] ++ alignedValue ++ [COLON, BSL, BSL, DQ])
  else
    Run.panic

/-- `KeyValue.String`: same text as `StringWithGormAlign` on the raw value. -/
def KeyValue.String (kv : KeyValue) : Run GoString :=
  if kv.quote = [BT] then
    Run.ret (kv.Key ++ [COLON, DQ] ++ kv.Value ++ [DQ])
  else if kv.quote = [DQ] then
    Run.ret (kv.Key ++ [COLON, BSL, BSL, DQ] ++ kv.Value ++ [COLON, BSL, BSL, DQ])
  else
    Run.panic

/-- `KeyValue.ParseGormParts`: for the key `gorm`, the value split at `;` with
every piece trimmed; other entries are left as they are. -/
def KeyValue.ParseGormParts (kv : KeyValue) : KeyValue :=
  if kv.Key = gormKey then
    { kv with GormParts := (splitSemi kv.Value).map TrimSpace }
  else kv

/-- The three results of `ParseTag`. -/
structure ParseRet where
  quote : GoString
  keyValues : List KeyValue
  err : Option GoError
  deriving DecidableEq, Repr

/-- A byte that may continue a key: `> ' '`, not `':'`, not `'"'`, not `0x7f`. -/
def isKeyByte (c : Nat) : Bool :=
  decide (SP < c) && decide (c ≠ COLON) && decide (c ≠ DQ) && decide (c ≠ 0x7f)

/-- What one iteration of the `for tag != ""` loop of `ParseTag` does. -/
inductive Scan where
  /-- The loop is left: `tag` is empty, before or after the leading spaces. -/
  | stop : Scan
  /-- The statement `return "", nil, ErrInvalidTag`. -/
  | invalid : Scan
  /-- An index expression out of range: a run-time panic. -/
  | outOfRange : Scan
  /-- An entry `name`, `value` is appended and the loop goes on with `next`. -/
  | pair : GoString → GoString → GoString → Scan
  deriving DecidableEq, Repr

/-- Body of the `for tag != ""` loop of `ParseTag` on the text `tag` still to scan. -/
def scanPair (tag : GoString) : Scan :=
  -- skip leading space; `break` on the empty rest
  let tag1 := tag.dropWhile isSP
  if tag1 = [] then Scan.stop
  else
    -- scan to colon: `name := tag[:i]`, `rest` is `tag[i:]`
    let name := tag1.takeWhile isKeyByte
    let rest := tag1.dropWhile isKeyByte
    match rest with
    | [] => Scan.invalid                                     -- `i >= len(tag)`
    | c :: afterColon =>
      if name = [] ∨ c ≠ COLON then Scan.invalid
      else
        -- `i++`; `afterColon` is `tag[i:]`
        match afterColon with
        | [] => Scan.outOfRange                              -- `tag[i]` with `i == len(tag)`
        | q :: body1 =>
          if q = DQ then
            -- `quoteLen = 1`: `tag[1:i]` is the value, `tag[i]` the closing quote
            match body1.dropWhile notDQ with
            | [] => Scan.invalid                             -- `i >= len(tag)`
            | _ :: next => Scan.pair name (body1.takeWhile notDQ) next
          else
            match body1 with
            | [] => Scan.invalid                             -- `i+1 >= len(tag)`
            | q2 :: body2 =>
              if q ≠ BSL ∨ q2 ≠ DQ then Scan.invalid
              else
                -- `quoteLen = 2`: scan from index 2; `run` is `tag[2:i]`
                let run := body2.takeWhile notDQ
                -- `tag[i-1]`: the last byte of `run`, or `tag[1]` (a quote) when `i == 2`
                if run.getLast? ≠ some BSL then Scan.invalid
                else
                  match body2.dropWhile notDQ with
                  | [] => Scan.invalid                       -- `i >= len(tag)`
                  | _ :: next => Scan.pair name run.dropLast next   -- `value := tag[2 : i-1]`

/-- The `for tag != ""` loop of `ParseTag`.  `tag` is the text still to scan,
`keyValues` the entries appended so far.  Every iteration that goes on consumes
at least one byte, so `tag.length + 1` iterations are enough; the first argument
bounds the number of iterations (see `parseLoop_fuel`: beyond `tag.length` the
bound has no influence on the result). -/
def parseLoop (quote : GoString) : Nat → GoString → List KeyValue → Run ParseRet
  | 0, _, _ => Run.panic
  | n + 1, tag, keyValues =>
    match scanPair tag with
    | Scan.stop => Run.ret ⟨quote, keyValues, none⟩
    | Scan.invalid => Run.ret ⟨[], [], some GoError.ErrInvalidTag⟩
    | Scan.outOfRange => Run.panic
    | Scan.pair name value next =>
      -- `kv.ParseGormParts()` and `append`
      parseLoop quote n next (keyValues ++ [KeyValue.ParseGormParts ⟨name, quote, value, []⟩])

/-- `ParseTag`: the quote (first byte of the literal), the entries of the body
(the literal without its first and last byte) and the error. -/
def ParseTag (tag : GoString) : Run ParseRet :=
  if tag.length < 2 then Run.ret ⟨[], [], some GoError.ErrInvalidTag⟩
  else parseLoop (tag.take 1) (tag.length + 1) (tag.drop 1).dropLast []

/-! ## tagfmt.go -/

/-- A Go `map[string]β`: the newest binding first. -/
abbrev GoMap (β : Type) := List (GoString × β)

/-- `v, exists := m[k]`. -/
def GoMap.get? {β : Type} (m : GoMap β) (k : GoString) : Option β :=
  (m.find? (fun e => decide (e.1 = k))).map Prod.snd

/-- `m[k] = v`. -/
def GoMap.set {β : Type} (m : GoMap β) (k : GoString) (v : β) : GoMap β := (k, v) :: m

/-- `m[k]` for an `int` map: the zero value for a missing key. -/
def GoMap.getInt (m : GoMap Nat) (k : GoString) : Nat := (m.get? k).getD 0

/-- The map `currentTags` of a field: `currentTags[kv.Key] = kv` for each entry in
turn, so the last entry of a key is the one kept. -/
def currentTags (keyWords : List KeyValue) (key : GoString) : Option KeyValue :=
  keyWords.reverse.find? (fun kv => decide (kv.Key = key))

/-- One step of the construction of `orderedKeys`: the inner `found` loop and the
conditional `append`. -/
def addKey (orderedKeys : List GoString) (key : GoString) : List GoString :=
  if key ∈ orderedKeys then orderedKeys else orderedKeys ++ [key]

/-- The list `orderedKeys`: fields top to bottom, entries left to right. -/
def collectKeys (fieldTags : List (List KeyValue)) : List GoString :=
  fieldTags.foldl (fun acc kvs => kvs.foldl (fun acc kv => addKey acc kv.Key) acc) []

/-- The key of a sub-clause: the trimmed text before the first colon, or the whole
clause when it has no colon. -/
def partKey (part : GoString) : GoString :=
  if hasColon part then TrimSpace (beforeColon part) else part

/-- The map `currentGormTags` built from clauses that are already trimmed: the
empty ones are skipped and the last clause of a sub-key is the one kept. -/
def gormTagOf (parts : List GoString) (key : GoString) : Option GoString :=
  parts.reverse.find? (fun p => decide (p ≠ []) && decide (partKey p = key))

/-- The set `indexRelatedKeys` (`globalIndexKeys`):
`PRIMARY KEY`, `index`, `unique`, `uniqueIndex`, `UNIQUE`. -/
def indexRelatedKeys : List GoString :=
  [[80, 82, 73, 77, 65, 82, 89, 32, 75, 69, 89],
   [105, 110, 100, 101, 120],
   [117, 110, 105, 113, 117, 101],
   [117, 110, 105, 113, 117, 101, 73, 110, 100, 101, 120],
   [85, 78, 73, 81, 85, 69]]

/-- The sub-key `comment`. -/
def commentKey : GoString := [99, 111, 109, 109, 101, 110, 116]

/-- The entry of a field that `alignGormParts` looks at: the first one with key
`gorm` and a non-empty `GormParts` (the loops `break` after it). -/
def firstGorm (keyValues : List KeyValue) : Option KeyValue :=
  keyValues.find? (fun kv => decide (kv.Key = gormKey) && decide (0 < kv.GormParts.length))

/-- State of the first pass of `alignGormParts`: the keys of `allGormKeys` in the
order they were inserted, the map `keyFirstAppearance` and `appearanceCounter`. -/
structure GormScan where
  allGormKeys : List GoString
  keyFirstAppearance : GoMap Nat
  appearanceCounter : Nat
  deriving DecidableEq, Repr

/-- Body of the loop over the parts of one `gorm` value in the first pass. -/
def scanPart (st : GormScan) (part : GoString) : GormScan :=
  let cleanPart := TrimSpace part
  if cleanPart = [] then st
  else
    let key := partKey cleanPart
    if key ∈ st.allGormKeys then st
    else
      { allGormKeys := st.allGormKeys ++ [key]
        keyFirstAppearance := st.keyFirstAppearance.set key st.appearanceCounter
        appearanceCounter := st.appearanceCounter + 1 }

/-- First pass of `alignGormParts` over the parsed fields (`none`: the literal
did not parse and the field is skipped). -/
def scanFields (parsed : List (Option (List KeyValue))) : GormScan :=
  parsed.foldl
    (fun st okv =>
      match okv with
      | none => st
      | some kvs =>
        match firstGorm kvs with
        | none => st
        | some kv => kv.GormParts.foldl scanPart st)
    ⟨[], [], 0⟩

/-- Second pass of `alignGormParts`: the map `gormFields`, as the list of its
values by field index (`none`: the index is not a key of the map). -/
def gormFieldsOf (parsed : List (Option (List KeyValue))) : List (Option (List GoString)) :=
  parsed.map (fun okv =>
    match okv with
    | none => none
    | some kvs => (firstGorm kvs).map (fun kv => kv.GormParts.map TrimSpace))

/-- The three classes of sub-keys, filled in the order in which the keys are
enumerated. -/
structure KeyClasses where
  normalKeys : List GoString
  indexKeys : List GoString
  commentKeys : List GoString
  deriving DecidableEq, Repr

/-- The loop `for key := range allGormKeys` over an enumeration `keys` of the
map's keys.  Go leaves the enumeration order of a map unspecified; every
permutation of the key set is a possible `keys`. -/
def classifyKeys (keys : List GoString) : KeyClasses :=
  keys.foldl
    (fun cl key =>
      if key = commentKey then { cl with commentKeys := cl.commentKeys ++ [key] }
      else if key ∈ indexRelatedKeys then { cl with indexKeys := cl.indexKeys ++ [key] }
      else { cl with normalKeys := cl.normalKeys ++ [key] })
    ⟨[], [], []⟩

/-- The conditional swap `keys[i], keys[j] = keys[j], keys[i]` of the exchange sort. -/
def swapIfLater (first : GoMap Nat) (keys : List GoString) (i j : Nat) : List GoString :=
  if first.getInt (keys.getD j []) < first.getInt (keys.getD i []) then
    (keys.set i (keys.getD j [])).set j (keys.getD i [])
  else keys

/-- The closure `sortKeysByAppearance`: for `i` from `0` to `len-2`, for `j` from
`i+1` to `len-1`, swap when `keys[i]` appeared later than `keys[j]`. -/
def sortKeysByAppearance (first : GoMap Nat) (keys : List GoString) : List GoString :=
  (List.range (keys.length - 1)).foldl
    (fun ks i =>
      (List.range' (i + 1) (keys.length - (i + 1))).foldl (fun ks j => swapIfLater first ks i j) ks)
    keys

/-- The list `orderedGormKeys` for an enumeration `keys` of `allGormKeys`:
plain keys, then index keys, then `comment`, each class sorted. -/
def orderGormKeys (first : GoMap Nat) (keys : List GoString) : List GoString :=
  let cl := classifyKeys keys
  sortKeysByAppearance first cl.normalKeys ++ sortKeysByAppearance first cl.indexKeys
    ++ sortKeysByAppearance first cl.commentKeys

/-- The slice `keyMaxLengths`: for every position of `orderedGormKeys` the
largest `len(value)` (a byte count) among the fields that have the sub-key.
The fields of `gormFields` are visited one after the other; the result does not
depend on the order since each step takes a maximum. -/
def keyMaxLengthsOf (orderedGormKeys : List GoString)
    (gormFields : List (Option (List GoString))) : List Nat :=
  gormFields.foldl
    (fun lens oparts =>
      match oparts with
      | none => lens
      | some parts =>
        List.zipWith
          (fun key cur =>
            match gormTagOf parts key with
            | some value => if cur < value.length then value.length else cur
            | none => cur)
          orderedGormKeys lens)
    (List.replicate orderedGormKeys.length 0)

/-- What `alignGormParts` returns and stores: `gormFields`, `keyMaxLengths` and
the global `globalGormKeyOrder`. -/
structure GormAlign where
  gormFields : List (Option (List GoString))
  keyMaxLengths : List Nat
  globalGormKeyOrder : List GoString
  deriving DecidableEq, Repr

/-- `alignGormParts` on the parse results of the fields, the keys of
`allGormKeys` being enumerated in the order `enum` maps the insertion order to. -/
def alignGormPartsWith (enum : List GoString → List GoString)
    (parsed : List (Option (List KeyValue))) : GormAlign :=
  let st := scanFields parsed
  let gormFields := gormFieldsOf parsed
  let ordered := orderGormKeys st.keyFirstAppearance (enum st.allGormKeys)
  ⟨gormFields, keyMaxLengthsOf ordered gormFields, ordered⟩

/-- Parse results as `alignGormParts` uses them: a literal with a parse error is
skipped (`continue`); a panic of `ParseTag` ends the run. -/
def parseForGorm : List GoString → Run (List (Option (List KeyValue)))
  | [] => Run.ret []
  | lit :: rest =>
    match ParseTag lit with
    | Run.panic => Run.panic
    | Run.ret r =>
      match parseForGorm rest with
      | Run.panic => Run.panic
      | Run.ret l => Run.ret ((if r.err = none then some r.keyValues else none) :: l)

/-- `alignGormParts`, the map being enumerated in insertion order. -/
def alignGormParts (fields : List GoString) : Run GormAlign :=
  match parseForGorm fields with
  | Run.panic => Run.panic
  | Run.ret parsed => Run.ret (alignGormPartsWith id parsed)

/-- The text appended to `result` for position `i` of `globalGormKeyOrder` in
`alignGormValue`; `notLast` is `i < len(globalGormKeyOrder)-1` and `width` is
`maxLengths[i]`. -/
def gormSegment (tags : GoString → Option GoString) (key : GoString) (width : Nat)
    (notLast : Bool) : GoString :=
  match tags key with
  | some value =>
    if key ∈ indexRelatedKeys then value ++ [SEMI]
    else if notLast then
      if value.length < width then value ++ [SEMI] ++ spaces (width - value.length)
      else value ++ [SEMI]
    else value
  | none =>
    if key ∈ indexRelatedKeys then spaces (width + 1)
    else if notLast then spaces (width + 1)
    else spaces width

/-- The loop of `alignGormValue` over `globalGormKeyOrder` from position `i` on:
`keys` are the keys from `i`, `lens` is `maxLengths[i:]`; the loop stops
(`break`) when `maxLengths` is exhausted. -/
def gormSegments (tags : GoString → Option GoString) : List GoString → List Nat → List GoString
  | [], _ => []
  | _ :: _, [] => []
  | key :: keys, width :: lens =>
    gormSegment tags key width (!keys.isEmpty) :: gormSegments tags keys lens

/-- `alignGormValue(parts, maxLengths)` with the global `globalGormKeyOrder`. -/
def alignGormValue (globalGormKeyOrder : List GoString) (parts : List GoString)
    (maxLengths : List Nat) : GoString :=
  if parts.length = 0 then []
  else
    trimRightSp (joinSp
      (gormSegments (gormTagOf (parts.map TrimSpace)) globalGormKeyOrder maxLengths))

/-- First loop of `fieldsTagFormat`: `fieldTags`, or the error of the first
literal that does not parse (`Sum.inl`). -/
def parseFields : List GoString → Run (GoError ⊕ List (List KeyValue))
  | [] => Run.ret (Sum.inr [])
  | lit :: rest =>
    match ParseTag lit with
    | Run.panic => Run.panic
    | Run.ret r =>
      match r.err with
      | some e => Run.ret (Sum.inl e)
      | none =>
        match parseFields rest with
        | Run.panic => Run.panic
        | Run.ret (Sum.inl e) => Run.ret (Sum.inl e)
        | Run.ret (Sum.inr l) => Run.ret (Sum.inr (r.keyValues :: l))

/-- `hasGorm := allTagKeys["gorm"]`. -/
def hasGormKey (fieldTags : List (List KeyValue)) : Bool :=
  fieldTags.any (fun kvs => kvs.any (fun kv => decide (kv.Key = gormKey)))

/-- What the loops of `fieldsTagFormat` read after the analysis: `orderedKeys`,
`hasGorm`, the results of `alignGormParts` and the map `tagMaxLengths`. -/
structure Layout where
  orderedKeys : List GoString
  hasGorm : Bool
  gorm : GormAlign
  tagMaxLengths : GoMap Nat

/-- `kvLen` in the loop that fills `tagMaxLengths`, for the entry `kv` of field
`i`.  For the `gorm` entry of a field of `gormFields` the segment is written
out with the delimiters of the backtick convention, whatever `kv.quote` is. -/
def widthLen (hasGorm : Bool) (gorm : GormAlign) (i : Nat) (kv : KeyValue) : Run Nat :=
  if kv.Key = gormKey ∧ hasGorm = true then
    match gorm.gormFields.getD i none with
    | some parts =>
      Run.ret (RuneCountInString
        (kv.Key ++ [COLON, DQ] ++ alignGormValue gorm.globalGormKeyOrder parts gorm.keyMaxLengths
          ++ [DQ]))
    | none =>
      match kv.String with
      | Run.panic => Run.panic
      | Run.ret t => Run.ret (RuneCountInString t)
  else
    match kv.String with
    | Run.panic => Run.panic
    | Run.ret t => Run.ret (RuneCountInString t)

/-- The inner loop that fills `tagMaxLengths`, over the entries of field `i`. -/
def widthsEntries (hasGorm : Bool) (gorm : GormAlign) (i : Nat) :
    List KeyValue → GoMap Nat → Run (GoMap Nat)
  | [], m => Run.ret m
  | kv :: kvs, m =>
    match widthLen hasGorm gorm i kv with
    | Run.panic => Run.panic
    | Run.ret kvLen =>
      widthsEntries hasGorm gorm i kvs
        (if m.getInt kv.Key < kvLen then m.set kv.Key kvLen else m)

/-- The outer loop that fills `tagMaxLengths`, over the fields from index `i` on. -/
def widthsFields (hasGorm : Bool) (gorm : GormAlign) :
    Nat → List (List KeyValue) → GoMap Nat → Run (GoMap Nat)
  | _, [], m => Run.ret m
  | i, kvs :: rest, m =>
    match widthsEntries hasGorm gorm i kvs m with
    | Run.panic => Run.panic
    | Run.ret m2 => widthsFields hasGorm gorm (i + 1) rest m2

/-- `kvStr` before padding, for the entry `kv` of field `fieldIdx`. -/
def segmentOf (L : Layout) (fieldIdx : Nat) (kv : KeyValue) : Run GoString :=
  if kv.Key = gormKey ∧ L.hasGorm = true then
    match L.gorm.gormFields.getD fieldIdx none with
    | some parts =>
      kv.StringWithGormAlign (alignGormValue L.gorm.globalGormKeyOrder parts L.gorm.keyMaxLengths)
    | none => kv.String
  else kv.String

/-- `kvStr` after the padding step: spaces are added up to `tagMaxLengths[key]`
runes unless the key is the last of `orderedKeys`. -/
def padSegment (L : Layout) (key : GoString) (notLast : Bool) (kvStr : GoString) : GoString :=
  if notLast ∧ RuneCountInString kvStr < L.tagMaxLengths.getInt key then
    kvStr ++ spaces (L.tagMaxLengths.getInt key - RuneCountInString kvStr)
  else kvStr

/-- The loop over `orderedKeys` that builds `alignedParts` for one field; `keys`
are the keys still to visit, so `i < len(orderedKeys)-1` holds exactly when
further keys follow the current one. -/
def alignedPartsOf (L : Layout) (fieldIdx : Nat) (tags : GoString → Option KeyValue) :
    List GoString → Run (List GoString)
  | [] => Run.ret []
  | key :: keys =>
    match tags key with
    | some kv =>
      match segmentOf L fieldIdx kv with
      | Run.panic => Run.panic
      | Run.ret kvStr =>
        match alignedPartsOf L fieldIdx tags keys with
        | Run.panic => Run.panic
        | Run.ret ps => Run.ret (padSegment L key (!keys.isEmpty) kvStr :: ps)
    | none =>
      match alignedPartsOf L fieldIdx tags keys with
      | Run.panic => Run.panic
      | Run.ret ps =>
        if !keys.isEmpty then Run.ret (spaces (L.tagMaxLengths.getInt key) :: ps)
        else Run.ret ps

/-- The new `field.Tag.Value` of field `fieldIdx`. -/
def renderField (L : Layout) (fieldIdx : Nat) (quote : GoString) (keyWords : List KeyValue) :
    Run GoString :=
  match alignedPartsOf L fieldIdx (currentTags keyWords) L.orderedKeys with
  | Run.panic => Run.panic
  | Run.ret alignedParts => Run.ret (quote ++ trimRightSp (joinSp alignedParts) ++ quote)

/-- The last loop of `fieldsTagFormat` from field `fieldIdx` on: every field is
parsed again and its literal replaced.  The result is the literals of the
fields when the loop is left and how it is left (`Run.ret none`: it ran to the
end). -/
def applyAlign (L : Layout) : Nat → List GoString → List GoString × Run (Option GoError)
  | _, [] => ([], Run.ret none)
  | fieldIdx, lit :: rest =>
    match ParseTag lit with
    | Run.panic => (lit :: rest, Run.panic)
    | Run.ret r =>
      match r.err with
      | some e => (lit :: rest, Run.ret (some e))
      | none =>
        match renderField L fieldIdx r.quote r.keyValues with
        | Run.panic => (lit :: rest, Run.panic)
        | Run.ret out =>
          ((out :: (applyAlign L (fieldIdx + 1) rest).1), (applyAlign L (fieldIdx + 1) rest).2)

/-- The analysis part of `fieldsTagFormat` on the parsed fields: `orderedKeys`,
`hasGorm`, `alignGormParts` (only when `hasGorm`) and `tagMaxLengths`. -/
def layoutOf (fields : List GoString) (fieldTags : List (List KeyValue)) : Run Layout :=
  let orderedKeys := collectKeys fieldTags
  let hasGorm := hasGormKey fieldTags
  match (if hasGorm then alignGormParts fields else Run.ret ⟨[], [], []⟩) with
  | Run.panic => Run.panic
  | Run.ret gorm =>
    match widthsFields hasGorm gorm 0 fieldTags [] with
    | Run.panic => Run.panic
    | Run.ret m => Run.ret ⟨orderedKeys, hasGorm, gorm, m⟩

/-- `fieldsTagFormat` on the literals of a batch: the literals of the fields
afterwards, and the returned error (`Run.ret none` is the return of `nil`) or
a panic. -/
def fieldsTagFormat (fields : List GoString) : List GoString × Run (Option GoError) :=
  match parseFields fields with
  | Run.panic => (fields, Run.panic)
  | Run.ret (Sum.inl e) => (fields, Run.ret (some e))
  | Run.ret (Sum.inr fieldTags) =>
    match layoutOf fields fieldTags with
    | Run.panic => (fields, Run.panic)
    | Run.ret L => applyAlign L 0 fields

/-! ## Definitions used by the statements -/

/-- What `ParseTag` guarantees of an entry it returns with quote `q`. -/
def WellParsed (q : GoString) (kv : KeyValue) : Prop :=
  kv.quote = q ∧ kv.Key ≠ [] ∧ (∀ c ∈ kv.Key, isKeyByte c = true) ∧ DQ ∉ kv.Value ∧
    kv.GormParts = (if kv.Key = gormKey then (splitSemi kv.Value).map TrimSpace else [])

/-- A row: every segment preceded by a run of spaces of the given length. -/
def rowOf : List (Nat × GoString) → GoString
  | [] => []
  | (n, seg) :: rest => spaces n ++ seg ++ rowOf rest

/-- The segment `name:"value"`. -/
def plainSeg (name value : GoString) : GoString := name ++ [COLON, DQ] ++ value ++ [DQ]

/-- The segment `name:\"value\"`. -/
def escapedSeg (name value : GoString) : GoString :=
  name ++ [COLON, BSL, DQ] ++ value ++ [BSL, DQ]

/-- A key as `ParseTag` accepts it, with a value that has no double quote. -/
def ValidPair (name value : GoString) : Prop :=
  name ≠ [] ∧ (∀ c ∈ name, isKeyByte c = true) ∧ DQ ∉ value

instance (name value : GoString) : Decidable (ValidPair name value) := by
  unfold ValidPair; infer_instance

/-- The segment of a pair in the convention chosen by `esc`. -/
def pairSeg (esc : Bool) (name value : GoString) : GoString :=
  if esc then escapedSeg name value else plainSeg name value

/-- A row item: the pad, the convention, the key and the value. -/
abbrev RowItem := Nat × Bool × GoString × GoString

/-- The pad and the segment of a row item. -/
def RowItem.cell (it : RowItem) : Nat × GoString := (it.1, pairSeg it.2.1 it.2.2.1 it.2.2.2)

/-- The entry `ParseTag` builds for a row item under quote `q`. -/
def RowItem.entry (q : GoString) (it : RowItem) : KeyValue :=
  KeyValue.ParseGormParts ⟨it.2.2.1, q, it.2.2.2, []⟩

/-- Pads of `strings.Join(_, " ")`: none before the first part, one space before
each of the others. -/
def joinPads : List GoString → List (Nat × GoString)
  | [] => []
  | s :: rest => (0, s) :: rest.map (fun x => (1, x))

/-- Row items of a list of pairs joined by single spaces. -/
def pairItems (esc : Bool) : List (GoString × GoString) → List RowItem
  | [] => []
  | p :: rest => (0, esc, p.1, p.2) :: rest.map (fun p => (1, esc, p.1, p.2))

/-- The outputs `out` are the renderings of the literals `fs`, which are the
fields from index `i` on. -/
def Rendered (L : Layout) : Nat → List GoString → List GoString → Prop
  | _, [], [] => True
  | i, lit :: fs, o :: os =>
    (∃ r, ParseTag lit = Run.ret r ∧ r.err = none ∧
      renderField L i r.quote r.keyValues = Run.ret o) ∧ Rendered L (i + 1) fs os
  | _, _, _ => False

/-- The parse results of the fields, as the first loop collects them. -/
def ParsedAs : List GoString → List (List KeyValue) → Prop
  | [], [] => True
  | lit :: fs, kvs :: rest =>
    (∃ r, ParseTag lit = Run.ret r ∧ r.err = none ∧ r.keyValues = kvs) ∧ ParsedAs fs rest
  | _, _ => False

/-- The quote of an entry is one of the two that `KeyValue.String` renders. -/
def GoodQuote (kv : KeyValue) : Prop := kv.quote = [BT] ∨ kv.quote = [DQ]

/-- `ParseTag` returns entries and no error for the literal. -/
def Parses (lit : GoString) : Prop := ∃ r, ParseTag lit = Run.ret r ∧ r.err = none

/-- The column width `tagMaxLengths[key]` that `fieldsTagFormat` computes for a
batch (`none` when the batch does not reach that point). -/
def columnWidth (batch : List GoString) (key : GoString) : Option Nat :=
  match parseFields batch with
  | Run.ret (Sum.inr fieldTags) =>
    match layoutOf batch fieldTags with
    | Run.ret L => some (L.tagMaxLengths.getInt key)
    | Run.panic => none
  | _ => none

/-- Position of the first occurrence of `k` in `l` (`l.length` when there is none). -/
def firstIndex (k : GoString) : List GoString → Nat
  | [] => 0
  | x :: l => if x = k then 0 else firstIndex k l + 1

/-- Segments each followed by a run of spaces of the given length. -/
def rowAfter : List (GoString × Nat) → GoString
  | [] => []
  | (seg, p) :: rest => seg ++ spaces p ++ rowAfter rest

/-- The same row with the pads counted before the segments: `n` spaces come
first and the pad after the last segment is dropped. -/
def shiftPads : Nat → List (GoString × Nat) → List (Nat × GoString)
  | _, [] => []
  | n, (seg, p) :: rest => (n, seg) :: shiftPads p rest

/-- The text `KeyValue.StringWithGormAlign` writes for an entry of quote `q`
(a backtick or a double quote) and key `key` around the value text `v`. -/
def segText (q key v : GoString) : GoString :=
  if q = [BT] then key ++ [COLON, DQ] ++ v ++ [DQ]
  else key ++ [COLON, BSL, BSL, DQ] ++ v ++ [COLON, BSL, BSL, DQ]

/-- No clause stored in `gormFields` holds a double quote. -/
def GormClean (g : GormAlign) : Prop :=
  ∀ parts, some parts ∈ g.gormFields → ∀ p ∈ parts, DQ ∉ p

/-- The entries of a literal (none when `ParseTag` panics). -/
def entriesOf (lit : GoString) : List KeyValue :=
  match ParseTag lit with
  | Run.ret r => r.keyValues
  | Run.panic => []

/-- The list `orderedKeys` (KeyOrder) that `fieldsTagFormat` builds for a batch. -/
def keyOrderOf (batch : List GoString) : List GoString := collectKeys (batch.map entriesOf)

/-- The keys of all entries of a batch: fields top to bottom, entries left to right. -/
def keysInScanOrder (batch : List GoString) : List GoString :=
  (batch.map entriesOf).flatten.map KeyValue.Key

/-- The keys of `KeyOrder` that the field with literal `lit` has, in that order. -/
def keysOfField (batch : List GoString) (lit : GoString) : List GoString :=
  (keyOrderOf batch).filter (fun k => decide (k ∈ (entriesOf lit).map KeyValue.Key))

/-- Rank of the class of a sub-key: `0` plain, `1` index-like, `2` `comment`. -/
def classRank (k : GoString) : Nat :=
  if k = commentKey then 2 else if k ∈ indexRelatedKeys then 1 else 0

/-- The clauses `alignGormParts` takes from a field: the non-empty trimmed parts
of its first entry with key `gorm`. -/
def gormClausesOf (kvs : List KeyValue) : List GoString :=
  match firstGorm kvs with
  | none => []
  | some kv => (kv.GormParts.map TrimSpace).filter (fun p => decide (p ≠ []))

/-- The sub-keys of the clauses `alignGormParts` takes from the fields, in scan
order: fields top to bottom, clauses left to right. -/
def subKeysInScanOrder (parsed : List (Option (List KeyValue))) : List GoString :=
  (parsed.map (fun okv =>
    match okv with
    | none => []
    | some kvs => (gormClausesOf kvs).map partKey)).flatten

/-- One insertion into `allGormKeys` and `keyFirstAppearance`. -/
def addScan (st : GormScan) (key : GoString) : GormScan :=
  if key ∈ st.allGormKeys then st
  else
    { allGormKeys := st.allGormKeys ++ [key]
      keyFirstAppearance := st.keyFirstAppearance.set key st.appearanceCounter
      appearanceCounter := st.appearanceCounter + 1 }

/-- One step of the width loop of `alignGormParts` at one sub-key: the larger of
the width so far and `len` of the field's clause for the sub-key, if it has one. -/
def widthStep (key : GoString) (cur : Nat) (oparts : Option (List GoString)) : Nat :=
  match oparts with
  | none => cur
  | some parts =>
    match gormTagOf parts key with
    | some value => if cur < value.length then value.length else cur
    | none => cur

/-! ## The parser: invariants of its results -/

theorem wellParsed_parseGormParts (q name value : GoString) (h1 : name ≠ [])
    (h2 : ∀ c ∈ name, isKeyByte c = true) (h3 : DQ ∉ value) :
    WellParsed q (KeyValue.ParseGormParts ⟨name, q, value, []⟩) := by
  unfold KeyValue.ParseGormParts WellParsed
  by_cases hk : name = gormKey
  · subst hk; simp [h3]; exact ⟨by decide, h2⟩
  · simp [hk, h3]; exact ⟨h1, h2⟩

theorem dq_not_mem_takeWhile (l : GoString) : DQ ∉ l.takeWhile notDQ := by
  intro h
  have := List.mem_takeWhile_imp h
  simp [notDQ] at this

theorem length_dropWhile_le (p : Nat → Bool) (l : GoString) :
    (l.dropWhile p).length ≤ l.length :=
  (List.dropWhile_suffix p).length_le

/-- An iteration that appends an entry: its key is a non-empty run of key bytes,
its value has no double quote, and the rest of the text is strictly shorter. -/
theorem scanPair_pair {tag name value next : GoString}
    (h : scanPair tag = Scan.pair name value next) :
    name ≠ [] ∧ (∀ c ∈ name, isKeyByte c = true) ∧ DQ ∉ value ∧ next.length < tag.length := by
  unfold scanPair at h
  simp only at h
  have hlen1 := length_dropWhile_le isSP tag
  have hlen2 := length_dropWhile_le isKeyByte (List.dropWhile isSP tag)
  split at h
  · cases h
  · split at h
    · cases h
    · rename_i c afterColon hrest
      rw [hrest] at hlen2
      split at h
      · cases h
      · rename_i hcond
        have hn : List.takeWhile isKeyByte (List.dropWhile isSP tag) ≠ [] :=
          fun h0 => hcond (Or.inl h0)
        have hk : ∀ c ∈ List.takeWhile isKeyByte (List.dropWhile isSP tag),
            isKeyByte c = true := fun c hc => List.mem_takeWhile_imp hc
        split at h
        · cases h
        · rename_i q body1
          split at h
          · split at h
            · cases h
            · rename_i x nx hd
              have hlen3 := length_dropWhile_le notDQ body1
              rw [hd] at hlen3
              cases h
              refine ⟨hn, hk, dq_not_mem_takeWhile _, ?_⟩
              simp only [List.length_cons] at hlen2 hlen3
              omega
          · split at h
            · cases h
            · rename_i q2 body2
              split at h
              · cases h
              · split at h
                · cases h
                · split at h
                  · cases h
                  · rename_i x nx hd
                    have hlen3 := length_dropWhile_le notDQ body2
                    rw [hd] at hlen3
                    cases h
                    refine ⟨hn, hk, ?_, ?_⟩
                    · intro hm
                      exact dq_not_mem_takeWhile _ (List.mem_of_mem_dropLast hm)
                    · simp only [List.length_cons] at hlen2 hlen3
                      omega

/-- Beyond `tag.length` the iteration bound of `parseLoop` has no influence. -/
theorem parseLoop_fuel (q : GoString) :
    ∀ (n m : Nat) (tag : GoString) (acc : List KeyValue),
      tag.length < n → tag.length < m → parseLoop q n tag acc = parseLoop q m tag acc := by
  intro n
  induction n with
  | zero => intro m tag acc h; omega
  | succ n ih =>
    intro m tag acc hn hm
    cases m with
    | zero => omega
    | succ m =>
      unfold parseLoop
      cases hs : scanPair tag with
      | stop => rfl
      | invalid => rfl
      | outOfRange => rfl
      | pair name value next =>
        have := (scanPair_pair hs).2.2.2
        exact ih m next _ (by omega) (by omega)

theorem parseLoop_ok (q : GoString) :
    ∀ (n : Nat) (tag : GoString) (acc : List KeyValue) (r : ParseRet),
      parseLoop q n tag acc = Run.ret r → r.err = none →
      r.quote = q ∧ ∃ new, r.keyValues = acc ++ new ∧ ∀ kv ∈ new, WellParsed q kv := by
  intro n
  induction n with
  | zero => intro tag acc r h; simp [parseLoop] at h
  | succ n ih =>
    intro tag acc r h he
    unfold parseLoop at h
    cases hs : scanPair tag with
    | stop => rw [hs] at h; cases h; exact ⟨rfl, [], by simp, by simp⟩
    | invalid => rw [hs] at h; cases h; simp at he
    | outOfRange => rw [hs] at h; cases h
    | pair name value next =>
      rw [hs] at h
      obtain ⟨h1, h2, h3, _⟩ := scanPair_pair hs
      obtain ⟨hq, new, hnew, hall⟩ := ih _ _ _ h he
      refine ⟨hq, _ :: new, by simpa using hnew, ?_⟩
      intro kv hkv
      rcases List.mem_cons.1 hkv with rfl | hkv
      · exact wellParsed_parseGormParts q _ _ h1 h2 h3
      · exact hall kv hkv

theorem parseLoop_err (q : GoString) :
    ∀ (n : Nat) (tag : GoString) (acc : List KeyValue) (r : ParseRet),
      parseLoop q n tag acc = Run.ret r → r.err ≠ none →
      r = ⟨[], [], some GoError.ErrInvalidTag⟩ := by
  intro n
  induction n with
  | zero => intro tag acc r h; simp [parseLoop] at h
  | succ n ih =>
    intro tag acc r h he
    unfold parseLoop at h
    cases hs : scanPair tag with
    | stop => rw [hs] at h; cases h; simp at he
    | invalid => rw [hs] at h; cases h; rfl
    | outOfRange => rw [hs] at h; cases h
    | pair name value next => rw [hs] at h; exact ih _ _ _ h he

/-- A successful `ParseTag`: the literal has at least two bytes, the quote is its
first byte and every entry is well parsed. -/
theorem parseTag_ok {tag : GoString} {r : ParseRet} (h : ParseTag tag = Run.ret r)
    (he : r.err = none) :
    2 ≤ tag.length ∧ r.quote = tag.take 1 ∧ ∀ kv ∈ r.keyValues, WellParsed r.quote kv := by
  unfold ParseTag at h
  split at h
  · cases h; simp at he
  · obtain ⟨hq, new, hnew, hall⟩ := parseLoop_ok _ _ _ _ _ h he
    refine ⟨by omega, hq, ?_⟩
    intro kv hkv
    rw [hnew] at hkv
    rw [hq]
    exact hall kv (by simpa using hkv)

theorem parseTag_err {tag : GoString} {r : ParseRet} (h : ParseTag tag = Run.ret r)
    (he : r.err ≠ none) : r = ⟨[], [], some GoError.ErrInvalidTag⟩ := by
  unfold ParseTag at h
  split at h
  · cases h; rfl
  · exact parseLoop_err _ _ _ _ _ h he

theorem dropWhile_isSP_spaces (k : Nat) (t : GoString) :
    (spaces k ++ t).dropWhile isSP = t.dropWhile isSP := by
  induction k with
  | zero => rfl
  | succ k ih =>
    show List.dropWhile isSP (SP :: (spaces k ++ t)) = _
    rw [List.dropWhile_cons_of_pos (by decide)]
    exact ih

/-- Leading spaces are skipped. -/
theorem scanPair_spaces (k : Nat) (t : GoString) : scanPair (spaces k ++ t) = scanPair t := by
  unfold scanPair
  rw [dropWhile_isSP_spaces]

theorem parseLoop_spaces (q : GoString) (n k : Nat) (t : GoString) (acc : List KeyValue) :
    parseLoop q (n + 1) (spaces k ++ t) acc = parseLoop q (n + 1) t acc := by
  unfold parseLoop
  rw [scanPair_spaces]

theorem takeWhile_append_stop (p : Nat → Bool) (a : GoString) (c : Nat) (t : GoString)
    (ha : ∀ x ∈ a, p x = true) (hc : p c = false) :
    (a ++ c :: t).takeWhile p = a ∧ (a ++ c :: t).dropWhile p = c :: t := by
  induction a with
  | nil => simp [List.takeWhile, List.dropWhile, hc]
  | cons x a ih =>
    have hx : p x = true := ha x (List.mem_cons_self _ _)
    have := ih (fun y hy => ha y (List.mem_cons_of_mem _ hy))
    simp [List.takeWhile, List.dropWhile, hx, this]

theorem notDQ_of_not_mem {v : GoString} (hv : DQ ∉ v) : ∀ x ∈ v, notDQ x = true := by
  intro x hx
  simp only [notDQ, decide_eq_true_eq]
  rintro rfl
  exact hv hx

theorem isSP_of_isKeyByte {c : Nat} (h : isKeyByte c = true) : isSP c = false := by
  simp only [isKeyByte, SP, COLON, DQ, Bool.and_eq_true, decide_eq_true_eq] at h
  simp only [isSP, SP, decide_eq_false_iff_not]
  omega

/-- One well-formed pair in the backtick convention is scanned as such. -/
theorem scanPair_plain (name v tail : GoString) (h1 : name ≠ [])
    (h2 : ∀ c ∈ name, isKeyByte c = true) (h3 : DQ ∉ v) :
    scanPair (name ++ COLON :: DQ :: (v ++ DQ :: tail)) = Scan.pair name v tail := by
  obtain ⟨c, name', rfl⟩ := List.exists_cons_of_ne_nil h1
  have hsp : isSP c = false := isSP_of_isKeyByte (h2 c (List.mem_cons_self _ _))
  have hk := takeWhile_append_stop isKeyByte (c :: name') COLON (DQ :: (v ++ DQ :: tail)) h2
    (by decide)
  have hv := takeWhile_append_stop notDQ v DQ tail (notDQ_of_not_mem h3) (by decide)
  unfold scanPair
  have hd : List.dropWhile isSP (c :: name' ++ COLON :: DQ :: (v ++ DQ :: tail))
      = c :: name' ++ COLON :: DQ :: (v ++ DQ :: tail) := by
    simp [List.dropWhile, hsp]
  simp only [hd, hk.1, hk.2, hv.1, hv.2]
  simp

/-- One well-formed pair in the escaped convention is scanned as such. -/
theorem scanPair_escaped (name v tail : GoString) (h1 : name ≠ [])
    (h2 : ∀ c ∈ name, isKeyByte c = true) (h3 : DQ ∉ v) :
    scanPair (name ++ COLON :: BSL :: DQ :: (v ++ BSL :: DQ :: tail)) = Scan.pair name v tail := by
  obtain ⟨c, name', rfl⟩ := List.exists_cons_of_ne_nil h1
  have hsp : isSP c = false := isSP_of_isKeyByte (h2 c (List.mem_cons_self _ _))
  have hk := takeWhile_append_stop isKeyByte (c :: name') COLON
    (BSL :: DQ :: (v ++ BSL :: DQ :: tail)) h2 (by decide)
  have hv : List.takeWhile notDQ (v ++ BSL :: DQ :: tail) = v ++ [BSL] ∧
      List.dropWhile notDQ (v ++ BSL :: DQ :: tail) = DQ :: tail := by
    have hv1 : v ++ BSL :: DQ :: tail = (v ++ [BSL]) ++ DQ :: tail := by simp
    rw [hv1]
    refine takeWhile_append_stop notDQ (v ++ [BSL]) DQ tail ?_ (by decide)
    intro x hx
    rcases List.mem_append.1 hx with hx | hx
    · exact notDQ_of_not_mem h3 x hx
    · simp at hx; subst hx; decide
  unfold scanPair
  have hd : List.dropWhile isSP (c :: name' ++ COLON :: BSL :: DQ :: (v ++ BSL :: DQ :: tail))
      = c :: name' ++ COLON :: BSL :: DQ :: (v ++ BSL :: DQ :: tail) := by
    simp [List.dropWhile, hsp]
  simp only [hd, hk.1, hk.2, hv.1, hv.2]
  simp [BSL, DQ]

/-! ## Rows of segments -/

theorem parseLoop_stop (q : GoString) (n : Nat) (acc : List KeyValue) :
    parseLoop q (n + 1) [] acc = Run.ret ⟨q, acc, none⟩ := by
  unfold parseLoop
  rfl

theorem parseLoop_pair (q : GoString) (n : Nat) (tag : GoString) (acc : List KeyValue)
    (name value next : GoString) (h : scanPair tag = Scan.pair name value next) :
    parseLoop q (n + 1) tag acc
      = parseLoop q n next (acc ++ [KeyValue.ParseGormParts ⟨name, q, value, []⟩]) := by
  rw [parseLoop, h]

theorem parseLoop_pairSeg (q : GoString) (n pad : Nat) (esc : Bool) (name value tl : GoString)
    (acc : List KeyValue) (h : ValidPair name value) :
    parseLoop q (n + 1) (spaces pad ++ (pairSeg esc name value ++ tl)) acc
      = parseLoop q n tl (acc ++ [KeyValue.ParseGormParts ⟨name, q, value, []⟩]) := by
  rw [parseLoop_spaces]
  cases esc with
  | false =>
    have hs := scanPair_plain name value tl h.1 h.2.1 h.2.2
    simp only [pairSeg, plainSeg, List.append_assoc, List.cons_append, List.nil_append,
      Bool.false_eq_true, if_false]
    exact parseLoop_pair q n _ acc name value tl hs
  | true =>
    have hs := scanPair_escaped name value tl h.1 h.2.1 h.2.2
    simp only [pairSeg, escapedSeg, List.append_assoc, List.cons_append, List.nil_append,
      if_true]
    exact parseLoop_pair q n _ acc name value tl hs

theorem length_pairSeg_pos (esc : Bool) (name value : GoString) :
    0 < (pairSeg esc name value).length := by
  cases esc <;> simp [pairSeg, plainSeg, escapedSeg]

/-- Parsing a row of well-formed segments (either convention for each) yields
their entries in order. -/
theorem parseLoop_row (q : GoString) :
    ∀ (items : List RowItem), (∀ it ∈ items, ValidPair it.2.2.1 it.2.2.2) →
      ∀ (n : Nat) (acc : List KeyValue) (tl : GoString),
        (rowOf (items.map RowItem.cell) ++ tl).length < n →
        parseLoop q n (rowOf (items.map RowItem.cell) ++ tl) acc
          = parseLoop q (n - (rowOf (items.map RowItem.cell)).length) tl
              (acc ++ items.map (RowItem.entry q)) := by
  intro items
  induction items with
  | nil => intro _ n acc tl _; simp [rowOf]
  | cons it items ih =>
    intro hv n acc tl hn
    obtain ⟨pad, esc, name, value⟩ := it
    have hit : ValidPair name value := hv _ (List.mem_cons_self _ _)
    have hrest : ∀ it ∈ items, ValidPair it.2.2.1 it.2.2.2 :=
      fun x hx => hv x (List.mem_cons_of_mem _ hx)
    have hpos := length_pairSeg_pos esc name value
    cases n with
    | zero => omega
    | succ n =>
      simp only [List.map_cons, rowOf, RowItem.cell, List.append_assoc] at hn ⊢
      rw [parseLoop_pairSeg q n pad esc name value _ acc hit]
      simp only [List.length_append] at hn
      rw [ih hrest n _ tl (by simp only [List.length_append]; omega)]
      have hlen : (rowOf (List.map RowItem.cell items) ++ tl).length
          = (rowOf (List.map RowItem.cell items)).length + tl.length := List.length_append _ _
      rw [parseLoop_fuel q (n - (rowOf (List.map RowItem.cell items)).length)
        (n + 1 - (spaces pad ++ (pairSeg esc name value
          ++ rowOf (List.map RowItem.cell items))).length) tl _
        (by omega) (by simp only [List.length_append]; omega)]
      simp [RowItem.entry]

/-- Parsing a whole row. -/
theorem parseLoop_row_all (q : GoString) (items : List RowItem)
    (hv : ∀ it ∈ items, ValidPair it.2.2.1 it.2.2.2) (n : Nat)
    (hn : (rowOf (items.map RowItem.cell)).length < n) :
    parseLoop q n (rowOf (items.map RowItem.cell)) []
      = Run.ret ⟨q, items.map (RowItem.entry q), none⟩ := by
  have h := parseLoop_row q items hv n [] [] (by simpa using hn)
  simp only [List.append_nil, List.nil_append] at h
  rw [h]
  obtain ⟨k, hk⟩ : ∃ k, n - (rowOf (items.map RowItem.cell)).length = k + 1 :=
    ⟨n - (rowOf (items.map RowItem.cell)).length - 1, by omega⟩
  rw [hk, parseLoop_stop]

theorem rowOf_ones (l : List GoString) (a : GoString) :
    a ++ rowOf (l.map (fun x => (1, x))) = joinSp (a :: l) := by
  induction l generalizing a with
  | nil => simp [rowOf, joinSp]
  | cons b l ih =>
    simp only [List.map_cons, rowOf, joinSp]
    rw [List.append_assoc, ih b]
    simp [spaces, List.replicate]

theorem joinSp_eq_rowOf (l : List GoString) : joinSp l = rowOf (joinPads l) := by
  cases l with
  | nil => rfl
  | cons a l =>
    simp only [joinPads, rowOf]
    rw [← rowOf_ones]
    simp [spaces]

theorem parseGormParts_key (kv : KeyValue) : kv.ParseGormParts.Key = kv.Key := by
  unfold KeyValue.ParseGormParts; split <;> rfl

theorem parseGormParts_value (kv : KeyValue) : kv.ParseGormParts.Value = kv.Value := by
  unfold KeyValue.ParseGormParts; split <;> rfl

theorem parseGormParts_quote (kv : KeyValue) : kv.ParseGormParts.quote = kv.quote := by
  unfold KeyValue.ParseGormParts; split <;> rfl

/-- `ParseTag` on a literal whose body is given: the loop runs on the body. -/
theorem parseTag_wrap (a z : Nat) (body : GoString) :
    ParseTag (a :: (body ++ [z])) = parseLoop [a] (body.length + 3) body [] := by
  unfold ParseTag
  have h1 : ¬ (a :: (body ++ [z])).length < 2 := by simp
  rw [if_neg h1]
  simp

theorem pairItems_cells (esc : Bool) (pairs : List (GoString × GoString)) :
    (pairItems esc pairs).map RowItem.cell
      = joinPads (pairs.map (fun p => pairSeg esc p.1 p.2)) := by
  cases pairs with
  | nil => rfl
  | cons p rest => simp [pairItems, joinPads, RowItem.cell, Function.comp_def]

theorem pairItems_entries (esc : Bool) (q : GoString) (pairs : List (GoString × GoString)) :
    ((pairItems esc pairs).map (RowItem.entry q)).map (fun kv => (kv.Key, kv.Value)) = pairs := by
  cases pairs with
  | nil => rfl
  | cons p rest =>
    simp [pairItems, RowItem.entry, parseGormParts_key, parseGormParts_value,
      Function.comp_def]

theorem pairItems_valid (esc : Bool) (pairs : List (GoString × GoString))
    (h : ∀ p ∈ pairs, ValidPair p.1 p.2) :
    ∀ it ∈ pairItems esc pairs, ValidPair it.2.2.1 it.2.2.2 := by
  cases pairs with
  | nil => intro it hit; simp [pairItems] at hit
  | cons p rest =>
    intro it hit
    simp only [pairItems, List.mem_cons, List.mem_map] at hit
    rcases hit with rfl | ⟨p', hp', rfl⟩
    · exact h p (List.mem_cons_self _ _)
    · exact h p' (List.mem_cons_of_mem _ hp')

theorem parseTag_joined (esc : Bool) (a z : Nat) (pairs : List (GoString × GoString))
    (h : ∀ p ∈ pairs, ValidPair p.1 p.2) :
    ∃ kvs, ParseTag (a :: (joinSp (pairs.map (fun p => pairSeg esc p.1 p.2)) ++ [z]))
        = Run.ret ⟨[a], kvs, none⟩ ∧ kvs.map (fun kv => (kv.Key, kv.Value)) = pairs := by
  refine ⟨(pairItems esc pairs).map (RowItem.entry [a]), ?_, pairItems_entries esc [a] pairs⟩
  rw [parseTag_wrap, joinSp_eq_rowOf, ← pairItems_cells]
  exact parseLoop_row_all [a] _ (pairItems_valid esc pairs h) _ (by omega)

theorem isKeyByte_iff (c : Nat) :
    isKeyByte c = true ↔ (0x20 < c ∧ c ≠ COLON ∧ c ≠ DQ ∧ c ≠ 0x7f) := by
  simp [isKeyByte, SP, and_assoc]

/-- C3. `ParseTag` recovers the pairs of a well-formed literal in source order:
for pairs whose keys are non-empty runs of bytes above `0x20` other than `':'`,
`'"'` and `0x7f` and whose values hold no `'"'`, the backtick literal of the
segments `k:"v"` joined by single spaces parses to the quote "`" and the pairs
in order, and the double-quoted literal of the segments `k:\"v\"` parses to the
quote `"` and the same pairs, both without error. -/
theorem parseTag_recovers_pairs (pairs : List (GoString × GoString))
    (h : ∀ p ∈ pairs, p.1 ≠ [] ∧ (∀ c ∈ p.1, 0x20 < c ∧ c ≠ COLON ∧ c ≠ DQ ∧ c ≠ 0x7f)
      ∧ DQ ∉ p.2) :
    (∃ kvs, ParseTag ([BT] ++ joinSp (pairs.map (fun p => p.1 ++ [COLON, DQ] ++ p.2 ++ [DQ]))
          ++ [BT]) = Run.ret ⟨[BT], kvs, none⟩
        ∧ kvs.map (fun kv => (kv.Key, kv.Value)) = pairs) ∧
    (∃ kvs, ParseTag ([DQ] ++ joinSp (pairs.map (fun p =>
            p.1 ++ [COLON, BSL, DQ] ++ p.2 ++ [BSL, DQ])) ++ [DQ]) = Run.ret ⟨[DQ], kvs, none⟩
        ∧ kvs.map (fun kv => (kv.Key, kv.Value)) = pairs) := by
  have hv : ∀ p ∈ pairs, ValidPair p.1 p.2 := fun p hp =>
    ⟨(h p hp).1, fun c hc => (isKeyByte_iff c).2 ((h p hp).2.1 c hc), (h p hp).2.2⟩
  exact ⟨parseTag_joined false BT BT pairs hv, parseTag_joined true DQ DQ pairs hv⟩

/-- C3 at the pairs `json`/`id` and `gorm`/`column:id;unique`. -/
theorem parseTag_recovers_pairs_witness :
    (∃ kvs, ParseTag (str "`json:\"id\" gorm:\"column:id;unique\"`")
        = Run.ret ⟨[BT], kvs, none⟩
      ∧ kvs.map (fun kv => (kv.Key, kv.Value))
        = [(str "json", str "id"), (str "gorm", str "column:id;unique")]) ∧
    (∃ kvs, ParseTag (str "\"json:\\\"id\\\" gorm:\\\"column:id;unique\\\"\"")
        = Run.ret ⟨[DQ], kvs, none⟩
      ∧ kvs.map (fun kv => (kv.Key, kv.Value))
        = [(str "json", str "id"), (str "gorm", str "column:id;unique")]) :=
  parseTag_recovers_pairs [(str "json", str "id"), (str "gorm", str "column:id;unique")]
    (by decide)

theorem scanPair_invalid_key (rest : GoString) (h1 : rest ≠ []) (h2 : rest.head? ≠ some SP)
    (h3 : rest.takeWhile isKeyByte = [] ∨ (rest.dropWhile isKeyByte).head? ≠ some COLON) :
    scanPair rest = Scan.invalid := by
  obtain ⟨c, t, rfl⟩ := List.exists_cons_of_ne_nil h1
  have hc : isSP c = false := by
    simp only [List.head?_cons, ne_eq, Option.some.injEq] at h2
    simp [isSP, h2]
  have hd : List.dropWhile isSP (c :: t) = c :: t := by simp [List.dropWhile, hc]
  unfold scanPair
  simp only [hd]
  rw [if_neg (by simp)]
  split
  · rfl
  · rename_i x y hxy
    rw [hxy] at h3
    simp only [List.head?_cons, ne_eq, Option.some.injEq] at h3
    rw [if_pos h3]

/-- C7. `ParseTag` rejects malformed literals without a partial result: a literal
shorter than two bytes is an error; a literal whose body, after any number of
well-formed pairs and after the spaces that follow them, has a zero-length key or
a key run that is not followed by `':'` is an error; and whenever `ParseTag`
returns an error the returned entry list (and quote) is empty. -/
theorem parseTag_rejects_malformed (tag : GoString) :
    (tag.length < 2 → ParseTag tag = Run.ret ⟨[], [], some GoError.ErrInvalidTag⟩) ∧
    (∀ (a z k : Nat) (items : List RowItem) (rest : GoString),
      tag = a :: (rowOf (items.map RowItem.cell) ++ (spaces k ++ rest) ++ [z]) →
      (∀ it ∈ items, ValidPair it.2.2.1 it.2.2.2) →
      rest ≠ [] → rest.head? ≠ some SP →
      (rest.takeWhile isKeyByte = [] ∨ (rest.dropWhile isKeyByte).head? ≠ some COLON) →
      ParseTag tag = Run.ret ⟨[], [], some GoError.ErrInvalidTag⟩) ∧
    (∀ r, ParseTag tag = Run.ret r → r.err ≠ none → r.keyValues = [] ∧ r.quote = []) := by
  refine ⟨?_, ?_, ?_⟩
  · intro h
    unfold ParseTag
    rw [if_pos h]
  · intro a z k items rest htag hv h1 h2 h3
    subst htag
    rw [parseTag_wrap, parseLoop_row [a] items hv _ [] _ (by omega)]
    obtain ⟨m, hm⟩ : ∃ m, (rowOf (items.map RowItem.cell) ++ (spaces k ++ rest)).length + 3
        - (rowOf (items.map RowItem.cell)).length = m + 1 :=
      ⟨_, (Nat.succ_pred_eq_of_pos (by simp only [List.length_append]; omega)).symm⟩
    rw [hm, parseLoop_spaces, parseLoop, scanPair_invalid_key rest h1 h2 h3]
  · intro r h he
    have := parseTag_err h he
    subst this
    exact ⟨rfl, rfl⟩

/-- C7 at a one-byte literal, at the literal of the spec and after a well-formed pair. -/
theorem parseTag_rejects_malformed_witness :
    ParseTag (str "`") = Run.ret ⟨[], [], some GoError.ErrInvalidTag⟩ ∧
    ParseTag (str "`json\"id\"`") = Run.ret ⟨[], [], some GoError.ErrInvalidTag⟩ ∧
    ParseTag (str "`xml:\"ID\"  json\"id\"`") = Run.ret ⟨[], [], some GoError.ErrInvalidTag⟩ :=
  ⟨(parseTag_rejects_malformed (str "`")).1 (by decide),
   (parseTag_rejects_malformed (str "`json\"id\"`")).2.1 96 96 0 [] (str "json\"id\"") (by decide)
     (by decide) (by decide) (by decide) (by decide),
   (parseTag_rejects_malformed (str "`xml:\"ID\"  json\"id\"`")).2.1 96 96 2
     [(0, false, str "xml", str "ID")] (str "json\"id\"") (by decide)
     (by decide) (by decide) (by decide) (by decide)⟩

/-! ## The structure of a successful run of `fieldsTagFormat` -/

theorem applyAlign_ok (L : Layout) :
    ∀ (fs : List GoString) (i : Nat) (out : List GoString),
      applyAlign L i fs = (out, Run.ret none) → Rendered L i fs out := by
  intro fs
  induction fs with
  | nil =>
    intro i out h
    simp only [applyAlign, Prod.mk.injEq] at h
    rw [← h.1]
    trivial
  | cons lit fs ih =>
    intro i out h
    unfold applyAlign at h
    cases hp : ParseTag lit with
    | panic => rw [hp] at h; simp at h
    | ret r =>
      rw [hp] at h
      simp only at h
      cases he : r.err with
      | some e => rw [he] at h; simp at h
      | none =>
        rw [he] at h
        simp only at h
        cases hr : renderField L i r.quote r.keyValues with
        | panic => rw [hr] at h; simp at h
        | ret o =>
          rw [hr] at h
          simp only [Prod.mk.injEq] at h
          obtain ⟨h1, h2⟩ := h
          subst h1
          exact ⟨⟨r, hp, he, hr⟩, ih (i + 1) _ (Prod.ext rfl h2)⟩

theorem parseFields_ok :
    ∀ (fs : List GoString) (fieldTags : List (List KeyValue)),
      parseFields fs = Run.ret (Sum.inr fieldTags) → ParsedAs fs fieldTags := by
  intro fs
  induction fs with
  | nil =>
    intro fieldTags h
    simp only [parseFields, Run.ret.injEq, Sum.inr.injEq] at h
    subst h
    trivial
  | cons lit fs ih =>
    intro fieldTags h
    unfold parseFields at h
    cases hp : ParseTag lit with
    | panic => rw [hp] at h; simp at h
    | ret r =>
      rw [hp] at h
      simp only at h
      cases he : r.err with
      | some e => rw [he] at h; simp at h
      | none =>
        rw [he] at h
        simp only at h
        cases hr : parseFields fs with
        | panic => rw [hr] at h; simp at h
        | ret x =>
          rw [hr] at h
          cases x with
          | inl e => simp at h
          | inr l =>
            simp only [Run.ret.injEq, Sum.inr.injEq] at h
            subst h
            exact ⟨⟨r, hp, he, rfl⟩, ih l hr⟩

/-- A run of `fieldsTagFormat` that returns `nil`: the fields parse, the analysis
yields a layout and the outputs are the renderings under it. -/
theorem fieldsTagFormat_ok {batch out : List GoString}
    (h : fieldsTagFormat batch = (out, Run.ret none)) :
    ∃ fieldTags L, parseFields batch = Run.ret (Sum.inr fieldTags) ∧
      layoutOf batch fieldTags = Run.ret L ∧ Rendered L 0 batch out := by
  unfold fieldsTagFormat at h
  cases hp : parseFields batch with
  | panic => rw [hp] at h; simp at h
  | ret x =>
    rw [hp] at h
    cases x with
    | inl e => simp at h
    | inr fieldTags =>
      simp only at h
      cases hl : layoutOf batch fieldTags with
      | panic => rw [hl] at h; simp at h
      | ret L =>
        rw [hl] at h
        exact ⟨fieldTags, L, rfl, hl, applyAlign_ok L batch 0 out h⟩

theorem rendered_mem (L : Layout) :
    ∀ (fs : List GoString) (i : Nat) (out : List GoString), Rendered L i fs out →
      ∀ o ∈ out, ∃ lit ∈ fs, ∃ j r, ParseTag lit = Run.ret r ∧ r.err = none ∧
        renderField L j r.quote r.keyValues = Run.ret o := by
  intro fs
  induction fs with
  | nil =>
    intro i out h o ho
    cases out with
    | nil => simp at ho
    | cons _ _ => exact h.elim
  | cons lit fs ih =>
    intro i out h o ho
    cases out with
    | nil => exact h.elim
    | cons o' os =>
      obtain ⟨⟨r, h1, h2, h3⟩, hrest⟩ := h
      rcases List.mem_cons.1 ho with rfl | ho
      · exact ⟨lit, List.mem_cons_self _ _, i, r, h1, h2, h3⟩
      · obtain ⟨lit', hl, rest⟩ := ih (i + 1) os hrest o ho
        exact ⟨lit', List.mem_cons_of_mem _ hl, rest⟩

theorem renderField_ok {L : Layout} {i : Nat} {q : GoString} {kvs : List KeyValue}
    {o : GoString} (h : renderField L i q kvs = Run.ret o) :
    ∃ parts, alignedPartsOf L i (currentTags kvs) L.orderedKeys = Run.ret parts ∧
      o = q ++ trimRightSp (joinSp parts) ++ q := by
  unfold renderField at h
  cases hp : alignedPartsOf L i (currentTags kvs) L.orderedKeys with
  | panic => rw [hp] at h; simp at h
  | ret parts =>
    rw [hp] at h
    simp only [Run.ret.injEq] at h
    exact ⟨parts, rfl, h.symm⟩

theorem getLast?_trimRightSp (s : GoString) : (trimRightSp s).getLast? ≠ some SP := by
  unfold trimRightSp
  rw [List.getLast?_reverse]
  generalize s.reverse = l
  induction l with
  | nil => simp
  | cons c l ih =>
    by_cases hc : isSP c = true
    · rw [List.dropWhile_cons_of_pos hc]; exact ih
    · rw [List.dropWhile_cons_of_neg hc]
      simp only [List.head?_cons, ne_eq, Option.some.injEq]
      intro h
      subst h
      exact hc (by decide)

/-- C10. No trailing padding: in every output literal of a successful run, the
text between the two outer quote bytes ends with a byte that is not a space (or
is empty). -/
theorem no_trailing_padding (batch out : List GoString)
    (h : fieldsTagFormat batch = (out, Run.ret none)) :
    ∀ o ∈ out, 2 ≤ o.length ∧ ((o.drop 1).dropLast).getLast? ≠ some SP := by
  intro o ho
  obtain ⟨fieldTags, L, _, _, hr⟩ := fieldsTagFormat_ok h
  obtain ⟨lit, _, j, r, hp, he, hrf⟩ := rendered_mem L batch 0 out hr o ho
  obtain ⟨parts, _, rfl⟩ := renderField_ok hrf
  obtain ⟨hlen, hq, _⟩ := parseTag_ok hp he
  obtain ⟨a, t, rfl⟩ : ∃ a t, lit = a :: t := by
    cases lit with
    | nil => simp at hlen
    | cons a t => exact ⟨a, t, rfl⟩
  have hq' : r.quote = [a] := by simpa using hq
  rw [hq']
  refine ⟨by simp, ?_⟩
  have : (([a] ++ trimRightSp (joinSp parts) ++ [a]).drop 1).dropLast
      = trimRightSp (joinSp parts) := by simp
  rw [this]
  exact getLast?_trimRightSp _

/-- C10 at a batch of three fields, for the field that lacks the last keys. -/
theorem no_trailing_padding_witness :
    fieldsTagFormat [str "`a:\"1\" b:\"2\"`", str "`a:\"12\"`", str "`b:\"3\" c:\"1\"`"]
      = ([str "`a:\"1\"  b:\"2\"`", str "`a:\"12\"`", str "`       b:\"3\" c:\"1\"`"],
          Run.ret none) ∧
    2 ≤ (str "`a:\"12\"`").length ∧
    (((str "`a:\"12\"`").drop 1).dropLast).getLast? ≠ some SP :=
  ⟨by decide,
   no_trailing_padding
     [str "`a:\"1\" b:\"2\"`", str "`a:\"12\"`", str "`b:\"3\" c:\"1\"`"]
     [str "`a:\"1\"  b:\"2\"`", str "`a:\"12\"`", str "`       b:\"3\" c:\"1\"`"]
     (by decide) (str "`a:\"12\"`") (by decide)⟩

/-! ## Absence of panics for the two quote conventions -/

theorem string_ok {kv : KeyValue} (h : GoodQuote kv) : ∃ t, kv.String = Run.ret t := by
  unfold KeyValue.String
  rcases h with h | h
  · rw [if_pos h]; exact ⟨_, rfl⟩
  · rw [if_neg (by rw [h]; decide), if_pos h]; exact ⟨_, rfl⟩

theorem stringWithGormAlign_ok {kv : KeyValue} (h : GoodQuote kv) (v : GoString) :
    ∃ t, kv.StringWithGormAlign v = Run.ret t := by
  unfold KeyValue.StringWithGormAlign
  rcases h with h | h
  · rw [if_pos h]; exact ⟨_, rfl⟩
  · rw [if_neg (by rw [h]; decide), if_pos h]; exact ⟨_, rfl⟩

theorem widthLen_ok (hasGorm : Bool) (gorm : GormAlign) (i : Nat) {kv : KeyValue}
    (h : GoodQuote kv) : ∃ n, widthLen hasGorm gorm i kv = Run.ret n := by
  obtain ⟨t, ht⟩ := string_ok h
  unfold widthLen
  split
  · split
    · exact ⟨_, rfl⟩
    · rw [ht]; exact ⟨_, rfl⟩
  · rw [ht]; exact ⟨_, rfl⟩

theorem widthsEntries_ok (hasGorm : Bool) (gorm : GormAlign) (i : Nat) :
    ∀ (kvs : List KeyValue) (m : GoMap Nat), (∀ kv ∈ kvs, GoodQuote kv) →
      ∃ m2, widthsEntries hasGorm gorm i kvs m = Run.ret m2 := by
  intro kvs
  induction kvs with
  | nil => intro m _; exact ⟨m, rfl⟩
  | cons kv kvs ih =>
    intro m h
    obtain ⟨n, hn⟩ := widthLen_ok hasGorm gorm i (h kv (List.mem_cons_self _ _))
    unfold widthsEntries
    rw [hn]
    exact ih _ (fun x hx => h x (List.mem_cons_of_mem _ hx))

theorem widthsFields_ok (hasGorm : Bool) (gorm : GormAlign) :
    ∀ (fieldTags : List (List KeyValue)) (i : Nat) (m : GoMap Nat),
      (∀ kvs ∈ fieldTags, ∀ kv ∈ kvs, GoodQuote kv) →
      ∃ m2, widthsFields hasGorm gorm i fieldTags m = Run.ret m2 := by
  intro fieldTags
  induction fieldTags with
  | nil => intro i m _; exact ⟨m, rfl⟩
  | cons kvs rest ih =>
    intro i m h
    obtain ⟨m1, hm1⟩ := widthsEntries_ok hasGorm gorm i kvs m (h kvs (List.mem_cons_self _ _))
    unfold widthsFields
    rw [hm1]
    exact ih _ _ (fun x hx => h x (List.mem_cons_of_mem _ hx))

theorem segmentOf_ok (L : Layout) (i : Nat) {kv : KeyValue} (h : GoodQuote kv) :
    ∃ t, segmentOf L i kv = Run.ret t := by
  unfold segmentOf
  split
  · split
    · exact stringWithGormAlign_ok h _
    · exact string_ok h
  · exact string_ok h

theorem alignedPartsOf_ok (L : Layout) (i : Nat) (tags : GoString → Option KeyValue)
    (h : ∀ key kv, tags key = some kv → GoodQuote kv) :
    ∀ keys : List GoString, ∃ ps, alignedPartsOf L i tags keys = Run.ret ps := by
  intro keys
  induction keys with
  | nil => exact ⟨[], rfl⟩
  | cons key keys ih =>
    obtain ⟨ps, hps⟩ := ih
    unfold alignedPartsOf
    cases ht : tags key with
    | none =>
      simp only [hps]
      split
      · exact ⟨_, rfl⟩
      · exact ⟨_, rfl⟩
    | some kv =>
      obtain ⟨t, hs⟩ := segmentOf_ok L i (h key kv ht)
      simp only [hs, hps]
      exact ⟨_, rfl⟩

theorem currentTags_mem {kvs : List KeyValue} {key : GoString} {kv : KeyValue}
    (h : currentTags kvs key = some kv) : kv ∈ kvs ∧ kv.Key = key := by
  unfold currentTags at h
  have h1 := List.mem_of_find?_eq_some h
  have h2 := List.find?_some h
  exact ⟨List.mem_reverse.1 h1, by simpa using h2⟩

theorem renderField_total (L : Layout) (i : Nat) (q : GoString) (kvs : List KeyValue)
    (h : ∀ kv ∈ kvs, GoodQuote kv) : ∃ o, renderField L i q kvs = Run.ret o := by
  obtain ⟨ps, hps⟩ := alignedPartsOf_ok L i (currentTags kvs)
    (fun key kv hk => h kv (currentTags_mem hk).1) L.orderedKeys
  unfold renderField
  rw [hps]
  exact ⟨_, rfl⟩

/-- The entries of a literal that parses and begins with a backtick or a double
quote all carry that quote. -/
theorem goodQuote_of_head {lit : GoString} {r : ParseRet}
    (hq : lit.head? = some BT ∨ lit.head? = some DQ) (hp : ParseTag lit = Run.ret r)
    (he : r.err = none) : ∀ kv ∈ r.keyValues, GoodQuote kv := by
  obtain ⟨hlen, hquote, hall⟩ := parseTag_ok hp he
  intro kv hkv
  have hk := (hall kv hkv).1
  unfold GoodQuote
  rw [hk, hquote]
  cases lit with
  | nil => simp at hlen
  | cons a t =>
    simp only [List.head?_cons, Option.some.injEq] at hq
    rcases hq with rfl | rfl
    · left; rfl
    · right; rfl

theorem applyAlign_total (L : Layout) :
    ∀ (fs : List GoString) (i : Nat),
      (∀ lit ∈ fs, lit.head? = some BT ∨ lit.head? = some DQ) → (∀ lit ∈ fs, Parses lit) →
      ∃ out, applyAlign L i fs = (out, Run.ret none) ∧ out.length = fs.length := by
  intro fs
  induction fs with
  | nil => intro i _ _; exact ⟨[], rfl, rfl⟩
  | cons lit fs ih =>
    intro i hq hp
    obtain ⟨r, hr, he⟩ := hp lit (List.mem_cons_self _ _)
    obtain ⟨o, ho⟩ := renderField_total L i r.quote r.keyValues
      (goodQuote_of_head (hq lit (List.mem_cons_self _ _)) hr he)
    obtain ⟨out, hout, hlen⟩ := ih (i + 1) (fun x hx => hq x (List.mem_cons_of_mem _ hx))
      (fun x hx => hp x (List.mem_cons_of_mem _ hx))
    refine ⟨o :: out, ?_, by simp [hlen]⟩
    unfold applyAlign
    rw [hr]
    simp only [he, ho, hout]

theorem parseFields_total :
    ∀ fs : List GoString, (∀ lit ∈ fs, Parses lit) →
      ∃ fieldTags, parseFields fs = Run.ret (Sum.inr fieldTags) := by
  intro fs
  induction fs with
  | nil => intro _; exact ⟨[], rfl⟩
  | cons lit fs ih =>
    intro hp
    obtain ⟨r, hr, he⟩ := hp lit (List.mem_cons_self _ _)
    obtain ⟨l, hl⟩ := ih (fun x hx => hp x (List.mem_cons_of_mem _ hx))
    refine ⟨r.keyValues :: l, ?_⟩
    unfold parseFields
    rw [hr]
    simp only [he, hl]

theorem parseForGorm_total :
    ∀ fs : List GoString, (∀ lit ∈ fs, ∃ r, ParseTag lit = Run.ret r) →
      ∃ l, parseForGorm fs = Run.ret l := by
  intro fs
  induction fs with
  | nil => intro _; exact ⟨[], rfl⟩
  | cons lit fs ih =>
    intro hp
    obtain ⟨r, hr⟩ := hp lit (List.mem_cons_self _ _)
    obtain ⟨l, hl⟩ := ih (fun x hx => hp x (List.mem_cons_of_mem _ hx))
    unfold parseForGorm
    rw [hr]
    simp only [hl]
    exact ⟨_, rfl⟩

theorem parsedAs_mem :
    ∀ (fs : List GoString) (fieldTags : List (List KeyValue)), ParsedAs fs fieldTags →
      (∀ lit ∈ fs, Parses lit) ∧
      ∀ kvs ∈ fieldTags, ∃ lit ∈ fs, ∃ r, ParseTag lit = Run.ret r ∧ r.err = none ∧
        r.keyValues = kvs := by
  intro fs
  induction fs with
  | nil =>
    intro fieldTags h
    cases fieldTags with
    | nil => simp
    | cons _ _ => exact h.elim
  | cons lit fs ih =>
    intro fieldTags h
    cases fieldTags with
    | nil => exact h.elim
    | cons kvs rest =>
      obtain ⟨⟨r, h1, h2, h3⟩, hrest⟩ := h
      obtain ⟨ih1, ih2⟩ := ih rest hrest
      constructor
      · intro x hx
        rcases List.mem_cons.1 hx with rfl | hx
        · exact ⟨r, h1, h2⟩
        · exact ih1 x hx
      · intro x hx
        rcases List.mem_cons.1 hx with rfl | hx
        · exact ⟨lit, List.mem_cons_self _ _, r, h1, h2, h3⟩
        · obtain ⟨l, hl, rest'⟩ := ih2 x hx
          exact ⟨l, List.mem_cons_of_mem _ hl, rest'⟩

theorem layoutOf_total (batch : List GoString) (fieldTags : List (List KeyValue))
    (hq : ∀ lit ∈ batch, lit.head? = some BT ∨ lit.head? = some DQ)
    (hp : ParsedAs batch fieldTags) : ∃ L, layoutOf batch fieldTags = Run.ret L := by
  obtain ⟨h1, h2⟩ := parsedAs_mem batch fieldTags hp
  have hgood : ∀ kvs ∈ fieldTags, ∀ kv ∈ kvs, GoodQuote kv := by
    intro kvs hkvs kv hkv
    obtain ⟨lit, hl, r, hr, he, rfl⟩ := h2 kvs hkvs
    exact goodQuote_of_head (hq lit hl) hr he kv hkv
  obtain ⟨l, hl⟩ := parseForGorm_total batch
    (fun lit hlit => (h1 lit hlit).imp (fun r hr => hr.1))
  unfold layoutOf
  simp only
  cases hg : hasGormKey fieldTags with
  | false =>
    simp only [Bool.false_eq_true, if_false]
    obtain ⟨m, hm⟩ := widthsFields_ok false ⟨[], [], []⟩ fieldTags 0 [] hgood
    rw [hm]
    exact ⟨_, rfl⟩
  | true =>
    simp only [if_true, alignGormParts, hl]
    obtain ⟨m, hm⟩ := widthsFields_ok true (alignGormPartsWith id l) fieldTags 0 [] hgood
    rw [hm]
    exact ⟨_, rfl⟩

theorem parseFields_first_error :
    ∀ (pre : List GoString) (lit : GoString) (post : List GoString) (r : ParseRet)
      (e : GoError), (∀ l ∈ pre, Parses l) → ParseTag lit = Run.ret r → r.err = some e →
      parseFields (pre ++ lit :: post) = Run.ret (Sum.inl e) := by
  intro pre
  induction pre with
  | nil =>
    intro lit post r e _ hr he
    simp only [List.nil_append]
    unfold parseFields
    rw [hr]
    simp only [he]
  | cons p pre ih =>
    intro lit post r e hp hr he
    obtain ⟨r0, hr0, he0⟩ := hp p (List.mem_cons_self _ _)
    have := ih lit post r e (fun x hx => hp x (List.mem_cons_of_mem _ hx)) hr he
    simp only [List.cons_append]
    unfold parseFields
    rw [hr0]
    simp only [he0, this]

theorem rendered_length (L : Layout) :
    ∀ (fs : List GoString) (i : Nat) (out : List GoString), Rendered L i fs out →
      out.length = fs.length := by
  intro fs
  induction fs with
  | nil =>
    intro i out h
    cases out with
    | nil => rfl
    | cons _ _ => exact h.elim
  | cons lit fs ih =>
    intro i out h
    cases out with
    | nil => exact h.elim
    | cons o os => simp [ih (i + 1) os h.2]

/-- Outcomes of a run in which `ParseTag` returns.  For a batch whose literals
each begin with a backtick or a double quote: `fieldsTagFormat` returns `nil`, with one rewritten literal per
field, exactly when `ParseTag` accepts every literal; and when the first literal
that is not accepted makes `ParseTag` return an error, `fieldsTagFormat` returns
that error and every field keeps its original literal. -/
theorem align_fails_only_on_parse_errors (batch : List GoString)
    (hq : ∀ lit ∈ batch, lit.head? = some BT ∨ lit.head? = some DQ) :
    ((∃ out, fieldsTagFormat batch = (out, Run.ret none) ∧ out.length = batch.length)
      ↔ ∀ lit ∈ batch, Parses lit) ∧
    (∀ (pre : List GoString) (lit : GoString) (post : List GoString) (r : ParseRet)
      (e : GoError), batch = pre ++ lit :: post → (∀ l ∈ pre, Parses l) →
      ParseTag lit = Run.ret r → r.err = some e →
      fieldsTagFormat batch = (batch, Run.ret (some e))) := by
  constructor
  · constructor
    · rintro ⟨out, h, _⟩
      obtain ⟨fieldTags, L, hp, _, _⟩ := fieldsTagFormat_ok h
      exact (parsedAs_mem batch fieldTags (parseFields_ok batch fieldTags hp)).1
    · intro hp
      obtain ⟨fieldTags, hf⟩ := parseFields_total batch hp
      obtain ⟨L, hL⟩ := layoutOf_total batch fieldTags hq (parseFields_ok batch fieldTags hf)
      obtain ⟨out, hout, hlen⟩ := applyAlign_total L batch 0 hq hp
      refine ⟨out, ?_, hlen⟩
      unfold fieldsTagFormat
      rw [hf]
      simp only [hL, hout]
  · intro pre lit post r e hb hpre hr he
    have := parseFields_first_error pre lit post r e hpre hr he
    unfold fieldsTagFormat
    rw [hb, this]

/-- The outcomes of a run at a batch whose second literal has no colon. -/
theorem align_fails_only_on_parse_errors_witness :
    ((∃ out, fieldsTagFormat [str "`a:\"1\" b:\"2\"`", str "`json\"id\"`"]
          = (out, Run.ret none) ∧ out.length = 2)
      ↔ ∀ lit ∈ [str "`a:\"1\" b:\"2\"`", str "`json\"id\"`"], Parses lit) ∧
    fieldsTagFormat [str "`a:\"1\" b:\"2\"`", str "`json\"id\"`"]
      = ([str "`a:\"1\" b:\"2\"`", str "`json\"id\"`"],
          Run.ret (some GoError.ErrInvalidTag)) :=
  ⟨(align_fails_only_on_parse_errors [str "`a:\"1\" b:\"2\"`", str "`json\"id\"`"]
      (by decide)).1,
   (align_fails_only_on_parse_errors [str "`a:\"1\" b:\"2\"`", str "`json\"id\"`"]
      (by decide)).2 [str "`a:\"1\" b:\"2\"`"] (str "`json\"id\"`") []
      ⟨[], [], some GoError.ErrInvalidTag⟩ GoError.ErrInvalidTag rfl
      (by intro l hl; simp only [List.mem_singleton] at hl; subst hl; exact ⟨_, rfl, rfl⟩)
      (by decide) rfl⟩

/-- The guard of `KeyValue.String` on the quote.  The string `xa:"1"x`, which
begins with neither a backtick nor a double quote, is accepted by `ParseTag`,
with quote `x`, and `fieldsTagFormat` panics on the batch made of it. -/
theorem align_panics_on_invalid_quote :
    (∃ r, ParseTag (str "xa:\"1\"x") = Run.ret r ∧ r.err = none) ∧
    fieldsTagFormat [str "xa:\"1\"x"] = ([str "xa:\"1\"x"], Run.panic) :=
  ⟨⟨_, rfl, rfl⟩, by decide⟩

/-- C4. The batch of the backtick literals `a:"1" b:"2"` and `json:`: `ParseTag`
accepts the first literal and panics on the second (index out of range after the
colon), so `fieldsTagFormat` panics: it returns neither rewritten literals nor
the error of the literal that does not parse. -/
theorem align_panics_on_colon_last :
    (∃ r, ParseTag (str "`a:\"1\" b:\"2\"`") = Run.ret r ∧ r.err = none) ∧
    ParseTag (str "`json:`") = Run.panic ∧
    fieldsTagFormat [str "`a:\"1\" b:\"2\"`", str "`json:`"]
      = ([str "`a:\"1\" b:\"2\"`", str "`json:`"], Run.panic) :=
  ⟨⟨_, rfl, rfl⟩, by decide, by decide⟩

/-! ## The key order -/

theorem collectKeys_foldl (fieldTags : List (List KeyValue)) (acc : List GoString) :
    fieldTags.foldl (fun acc kvs => kvs.foldl (fun acc kv => addKey acc kv.Key) acc) acc
      = (fieldTags.flatten.map KeyValue.Key).foldl addKey acc := by
  induction fieldTags generalizing acc with
  | nil => rfl
  | cons kvs rest ih =>
    rw [List.foldl_cons, ih, List.flatten_cons, List.map_append, List.foldl_append]
    simp only [List.foldl_map]

theorem collectKeys_eq (fieldTags : List (List KeyValue)) :
    collectKeys fieldTags = (fieldTags.flatten.map KeyValue.Key).foldl addKey [] :=
  collectKeys_foldl fieldTags []

theorem firstIndex_append_of_mem {k : GoString} {l₁ : List GoString} (l₂ : List GoString)
    (h : k ∈ l₁) : firstIndex k (l₁ ++ l₂) = firstIndex k l₁ := by
  induction l₁ with
  | nil => simp at h
  | cons x l ih =>
    show firstIndex k (x :: (l ++ l₂)) = firstIndex k (x :: l)
    unfold firstIndex
    by_cases hx : x = k
    · simp [hx]
    · rw [if_neg hx, if_neg hx, ih ((List.mem_cons.1 h).resolve_left (fun e => hx e.symm))]

theorem firstIndex_append_of_not_mem {k : GoString} {l₁ : List GoString}
    (l₂ : List GoString) (h : k ∉ l₁) :
    firstIndex k (l₁ ++ l₂) = l₁.length + firstIndex k l₂ := by
  induction l₁ with
  | nil => simp
  | cons x l ih =>
    have hx : ¬ x = k := fun e => h (e ▸ List.mem_cons_self _ _)
    show firstIndex k (x :: (l ++ l₂)) = (x :: l).length + firstIndex k l₂
    rw [firstIndex, if_neg hx, ih (fun hm => h (List.mem_cons_of_mem _ hm)), List.length_cons]
    omega

theorem firstIndex_lt_length {k : GoString} {l : List GoString} (h : k ∈ l) :
    firstIndex k l < l.length := by
  induction l with
  | nil => simp at h
  | cons x l ih =>
    simp only [firstIndex, List.length_cons]
    by_cases hx : x = k
    · simp [hx]
    · rw [if_neg hx]
      have := ih ((List.mem_cons.1 h).resolve_left (fun e => hx e.symm))
      omega

/-- The invariant of the construction of `orderedKeys`: after the keys `seen`
have been visited, `acc` holds exactly the keys of `seen`, ordered by their first
position in `seen`. -/
theorem addKey_invariant (l : List GoString) :
    ∀ (seen acc : List GoString),
      (∀ k, k ∈ acc ↔ k ∈ seen) →
      acc.Pairwise (fun a b => firstIndex a seen < firstIndex b seen) →
      (∀ k, k ∈ l.foldl addKey acc ↔ k ∈ seen ++ l) ∧
      (l.foldl addKey acc).Pairwise
        (fun a b => firstIndex a (seen ++ l) < firstIndex b (seen ++ l)) := by
  induction l with
  | nil => intro seen acc h1 h2; simpa using ⟨h1, h2⟩
  | cons x l ih =>
    intro seen acc h1 h2
    have key : (∀ k, k ∈ addKey acc x ↔ k ∈ seen ++ [x]) ∧
        (addKey acc x).Pairwise
          (fun a b => firstIndex a (seen ++ [x]) < firstIndex b (seen ++ [x])) := by
      unfold addKey
      by_cases hx : x ∈ acc
      · rw [if_pos hx]
        constructor
        · intro k
          rw [h1 k, List.mem_append, List.mem_singleton]
          constructor
          · exact Or.inl
          · rintro (h | rfl)
            · exact h
            · exact (h1 _).1 hx
        · refine h2.imp_of_mem ?_
          intro a b ha hb hab
          rw [firstIndex_append_of_mem _ ((h1 a).1 ha),
            firstIndex_append_of_mem _ ((h1 b).1 hb)]
          exact hab
      · rw [if_neg hx]
        have hxs : x ∉ seen := fun h => hx ((h1 x).2 h)
        constructor
        · intro k
          simp only [List.mem_append, List.mem_singleton, h1 k]
        · rw [List.pairwise_append]
          refine ⟨?_, List.pairwise_singleton _ _, ?_⟩
          · refine h2.imp_of_mem ?_
            intro a b ha hb hab
            rw [firstIndex_append_of_mem _ ((h1 a).1 ha),
              firstIndex_append_of_mem _ ((h1 b).1 hb)]
            exact hab
          · intro a ha b hb
            rw [List.mem_singleton] at hb
            subst hb
            rw [firstIndex_append_of_mem _ ((h1 a).1 ha),
              firstIndex_append_of_not_mem _ hxs]
            have := firstIndex_lt_length ((h1 a).1 ha)
            simp only [firstIndex, if_true]
            omega
    have := ih (seen ++ [x]) (addKey acc x) key.1 key.2
    simpa using this

/-- The list `orderedKeys` holds exactly the keys of the entries, without
repetition, ordered by first appearance. -/
theorem collectKeys_spec (fieldTags : List (List KeyValue)) :
    (collectKeys fieldTags).Nodup ∧
    (∀ k, k ∈ collectKeys fieldTags ↔ k ∈ fieldTags.flatten.map KeyValue.Key) ∧
    (collectKeys fieldTags).Pairwise (fun a b =>
      firstIndex a (fieldTags.flatten.map KeyValue.Key)
        < firstIndex b (fieldTags.flatten.map KeyValue.Key)) := by
  rw [collectKeys_eq]
  have h := addKey_invariant (fieldTags.flatten.map KeyValue.Key) [] [] (by simp)
    List.Pairwise.nil
  simp only [List.nil_append] at h
  refine ⟨?_, h.1, h.2⟩
  exact h.2.imp (fun {a b} hab heq => by subst heq; exact Nat.lt_irrefl _ hab)

/-! ## The text of a rendered field -/

theorem spaces_add (a b : Nat) : spaces a ++ spaces b = spaces (a + b) := by
  unfold spaces
  rw [List.replicate_add]

theorem joinSp_cons (a : GoString) (ps : List GoString) :
    ∃ d, joinSp (a :: ps) = a ++ spaces d ++ joinSp ps := by
  cases ps with
  | nil => exact ⟨0, by simp [joinSp, spaces]⟩
  | cons b ps => exact ⟨1, by simp [joinSp, spaces]⟩

theorem padSegment_eq (L : Layout) (key : GoString) (notLast : Bool) (kvStr : GoString) :
    ∃ p, padSegment L key notLast kvStr = kvStr ++ spaces p := by
  unfold padSegment
  split
  · exact ⟨_, rfl⟩
  · exact ⟨0, by simp [spaces]⟩

/-- The parts built for a field, joined: leading blanks, then the segments of the
keys the field has, in the order of `keys`, each followed by blanks. -/
theorem alignedPartsOf_row (L : Layout) (i : Nat) (tags : GoString → Option KeyValue) :
    ∀ (keys : List GoString) (parts : List GoString),
      alignedPartsOf L i tags keys = Run.ret parts →
      ∃ (n0 : Nat) (segs : List (GoString × Nat)),
        joinSp parts = spaces n0 ++ rowAfter segs ∧
        List.Forall₂ (fun key sp => ∃ kv, tags key = some kv ∧ segmentOf L i kv = Run.ret sp.1)
          (keys.filter (fun k => (tags k).isSome)) segs := by
  intro keys
  induction keys with
  | nil =>
    intro parts h
    simp only [alignedPartsOf, Run.ret.injEq] at h
    subst h
    exact ⟨0, [], rfl, List.Forall₂.nil⟩
  | cons key keys ih =>
    intro parts h
    unfold alignedPartsOf at h
    cases ht : tags key with
    | some kv =>
      rw [ht] at h
      simp only at h
      cases hs : segmentOf L i kv with
      | panic => rw [hs] at h; simp at h
      | ret kvStr =>
        rw [hs] at h
        simp only at h
        cases hr : alignedPartsOf L i tags keys with
        | panic => rw [hr] at h; simp at h
        | ret ps =>
          rw [hr] at h
          simp only [Run.ret.injEq] at h
          subst h
          obtain ⟨n0, segs, hj, hf⟩ := ih ps hr
          obtain ⟨p, hp⟩ := padSegment_eq L key (!keys.isEmpty) kvStr
          obtain ⟨d, hd⟩ := joinSp_cons (padSegment L key (!keys.isEmpty) kvStr) ps
          refine ⟨0, (kvStr, p + d + n0) :: segs, ?_, ?_⟩
          · rw [hd, hp, hj]
            simp only [rowAfter, List.append_assoc, ← spaces_add]
            simp [spaces]
          · rw [List.filter_cons_of_pos (by simp [ht])]
            exact List.Forall₂.cons ⟨kv, ht, hs⟩ hf
    | none =>
      rw [ht] at h
      simp only at h
      cases hr : alignedPartsOf L i tags keys with
      | panic => rw [hr] at h; simp at h
      | ret ps =>
        rw [hr] at h
        simp only at h
        obtain ⟨n0, segs, hj, hf⟩ := ih ps hr
        rw [List.filter_cons_of_neg (by simp [ht])]
        split at h
        · simp only [Run.ret.injEq] at h
          subst h
          obtain ⟨d, hd⟩ := joinSp_cons (spaces (L.tagMaxLengths.getInt key)) ps
          refine ⟨L.tagMaxLengths.getInt key + d + n0, segs, ?_, hf⟩
          rw [hd, hj]
          simp only [List.append_assoc, ← spaces_add]
        · simp only [Run.ret.injEq] at h
          subst h
          exact ⟨n0, segs, hj, hf⟩

theorem trimRightSp_spaces (n : Nat) : trimRightSp (spaces n) = [] := by
  unfold trimRightSp spaces
  rw [List.reverse_replicate, List.reverse_eq_nil_iff, List.dropWhile_eq_nil_iff]
  intro x hx
  rw [List.eq_of_mem_replicate hx]
  decide

theorem trimRightSp_append_of_last (a b : GoString) (h : a.getLast? = some DQ) :
    trimRightSp (a ++ b) = a ++ trimRightSp b := by
  unfold trimRightSp
  rw [List.reverse_append, List.dropWhile_append]
  have ha : List.dropWhile isSP a.reverse = a.reverse := by
    have hh : a.reverse.head? = some DQ := by rw [List.head?_reverse]; exact h
    cases hr : a.reverse with
    | nil => rw [hr] at hh; simp at hh
    | cons c t =>
      rw [hr] at hh
      simp only [List.head?_cons, Option.some.injEq] at hh
      subst hh
      rw [List.dropWhile_cons_of_neg (by decide)]
  split
  · rename_i he
    rw [List.isEmpty_iff] at he
    rw [he, ha]
    simp
  · simp

theorem getLast?_append_of_last (a b : GoString) (h : b.getLast? = some DQ) :
    (a ++ b).getLast? = some DQ := by
  rw [List.getLast?_append, h]
  rfl

/-- Trimming a row: the leading blanks stay, the pads move before the segments
and the blanks after the last segment go. -/
theorem trimRightSp_row :
    ∀ (segs : List (GoString × Nat)) (n0 : Nat),
      (∀ sp ∈ segs, sp.1.getLast? = some DQ) →
      trimRightSp (spaces n0 ++ rowAfter segs) = rowOf (shiftPads n0 segs) := by
  intro segs
  induction segs with
  | nil => intro n0 _; simpa [rowAfter, shiftPads, rowOf] using trimRightSp_spaces n0
  | cons sp segs ih =>
    intro n0 h
    obtain ⟨seg, p⟩ := sp
    have hseg : seg.getLast? = some DQ := h (seg, p) (List.mem_cons_self _ _)
    have := trimRightSp_append_of_last (spaces n0 ++ seg) (spaces p ++ rowAfter segs)
      (getLast?_append_of_last _ _ hseg)
    simp only [rowAfter, shiftPads, rowOf, List.append_assoc] at this ⊢
    rw [this, ih p (fun x hx => h x (List.mem_cons_of_mem _ hx))]

/-! ## The text of a segment -/

theorem stringWithGormAlign_text {kv : KeyValue} {v seg : GoString}
    (h : kv.StringWithGormAlign v = Run.ret seg) : seg = segText kv.quote kv.Key v := by
  unfold KeyValue.StringWithGormAlign at h
  unfold segText
  split at h
  · rename_i hq
    rw [if_pos hq]
    simpa using h.symm
  · rename_i hq
    rw [if_neg hq]
    split at h
    · simpa using h.symm
    · cases h

theorem string_text {kv : KeyValue} {seg : GoString} (h : kv.String = Run.ret seg) :
    seg = segText kv.quote kv.Key kv.Value :=
  stringWithGormAlign_text (v := kv.Value) h

theorem segText_last (q key v : GoString) : (segText q key v).getLast? = some DQ := by
  unfold segText
  split
  · exact List.getLast?_concat _
  · have : key ++ [COLON, BSL, BSL, DQ] ++ v ++ [COLON, BSL, BSL, DQ]
        = (key ++ [COLON, BSL, BSL, DQ] ++ v ++ [COLON, BSL, BSL]) ++ [DQ] := by simp
    rw [this]
    exact List.getLast?_concat _

theorem stripRunes_suffix (w : GoString → Nat) :
    ∀ (n : Nat) (s : GoString), stripRunes w n s <:+ s := by
  intro n
  induction n with
  | zero => intro s; exact List.suffix_refl s
  | succ n ih =>
    intro s
    unfold stripRunes
    split
    · exact List.suffix_refl s
    · exact (ih _).trans (List.drop_suffix _ _)

theorem mem_trimSpace {c : Nat} {s : GoString} (h : c ∈ TrimSpace s) : c ∈ s := by
  unfold TrimSpace at h
  simp only [List.mem_reverse] at h
  have h1 := (stripRunes_suffix spaceRuneWidthRev _ _).subset h
  rw [List.mem_reverse] at h1
  exact (stripRunes_suffix spaceRuneWidth _ _).subset h1

theorem mem_splitSemi {c : Nat} :
    ∀ (s : GoString) (p : GoString), p ∈ splitSemi s → c ∈ p → c ∈ s := by
  intro s
  induction s with
  | nil =>
    intro p hp hc
    simp only [splitSemi, List.mem_singleton] at hp
    subst hp
    exact hc
  | cons x s ih =>
    intro p hp hc
    unfold splitSemi at hp
    split at hp
    · rcases List.mem_cons.1 hp with rfl | hp
      · simp at hc
      · exact List.mem_cons_of_mem _ (ih p hp hc)
    · split at hp
      · simp only [List.mem_singleton] at hp
        subst hp
        simp only [List.mem_singleton] at hc
        subst hc
        exact List.mem_cons_self _ _
      · rename_i q qs hq
        rcases List.mem_cons.1 hp with rfl | hp
        · rcases List.mem_cons.1 hc with rfl | hc
          · exact List.mem_cons_self _ _
          · exact List.mem_cons_of_mem _ (ih q (by rw [hq]; exact List.mem_cons_self _ _) hc)
        · exact List.mem_cons_of_mem _
            (ih p (by rw [hq]; exact List.mem_cons_of_mem _ hp) hc)

theorem mem_trimRightSp {c : Nat} {s : GoString} (h : c ∈ trimRightSp s) : c ∈ s := by
  unfold trimRightSp at h
  rw [List.mem_reverse] at h
  exact List.mem_reverse.1 ((List.dropWhile_suffix isSP).subset h)

theorem mem_joinSp {c : Nat} :
    ∀ l : List GoString, c ∈ joinSp l → c = SP ∨ ∃ p ∈ l, c ∈ p := by
  intro l
  induction l with
  | nil => intro h; simp [joinSp] at h
  | cons a l ih =>
    intro h
    obtain ⟨d, hd⟩ := joinSp_cons a l
    rw [hd] at h
    simp only [List.mem_append] at h
    rcases h with (h | h) | h
    · exact Or.inr ⟨a, List.mem_cons_self _ _, h⟩
    · exact Or.inl (List.eq_of_mem_replicate h)
    · rcases ih h with h | ⟨p, hp, hc⟩
      · exact Or.inl h
      · exact Or.inr ⟨p, List.mem_cons_of_mem _ hp, hc⟩

theorem mem_gormSegment {c : Nat} {tags : GoString → Option GoString} {key : GoString}
    {width : Nat} {notLast : Bool} (h : c ∈ gormSegment tags key width notLast) :
    c = SP ∨ c = SEMI ∨ ∃ v, tags key = some v ∧ c ∈ v := by
  unfold gormSegment at h
  cases ht : tags key with
  | none =>
    rw [ht] at h
    simp only at h
    split at h
    · exact Or.inl (List.eq_of_mem_replicate h)
    · split at h <;> exact Or.inl (List.eq_of_mem_replicate h)
  | some v =>
    rw [ht] at h
    simp only at h
    have key3 : ∀ n, c ∈ v ++ [SEMI] ++ spaces n → c = SP ∨ c = SEMI ∨ ∃ v', some v = some v' ∧ c ∈ v' := by
      intro n hn
      simp only [List.mem_append, List.mem_singleton] at hn
      rcases hn with (hn | hn) | hn
      · exact Or.inr (Or.inr ⟨v, rfl, hn⟩)
      · exact Or.inr (Or.inl hn)
      · exact Or.inl (List.eq_of_mem_replicate hn)
    split at h
    · exact key3 0 (by simpa [spaces] using h)
    · split at h
      · split at h
        · exact key3 _ h
        · exact key3 0 (by simpa [spaces] using h)
      · exact Or.inr (Or.inr ⟨v, rfl, h⟩)

theorem mem_gormSegments {c : Nat} (tags : GoString → Option GoString) :
    ∀ (keys : List GoString) (lens : List Nat), ∀ s ∈ gormSegments tags keys lens, c ∈ s →
      c = SP ∨ c = SEMI ∨ ∃ key v, tags key = some v ∧ c ∈ v := by
  intro keys
  induction keys with
  | nil => intro lens s hs; simp [gormSegments] at hs
  | cons key keys ih =>
    intro lens s hs hc
    cases lens with
    | nil => simp [gormSegments] at hs
    | cons w lens =>
      simp only [gormSegments, List.mem_cons] at hs
      rcases hs with rfl | hs
      · rcases mem_gormSegment hc with h | h | ⟨v, hv, hcv⟩
        · exact Or.inl h
        · exact Or.inr (Or.inl h)
        · exact Or.inr (Or.inr ⟨key, v, hv, hcv⟩)
      · exact ih lens s hs hc

theorem gormTagOf_mem {parts : List GoString} {key v : GoString}
    (h : gormTagOf parts key = some v) : v ∈ parts := by
  unfold gormTagOf at h
  exact List.mem_reverse.1 (List.mem_of_find?_eq_some h)

/-- An aligned `gorm` value has no double quote when the clauses have none. -/
theorem dq_not_mem_alignGormValue (order : List GoString) (parts : List GoString)
    (lens : List Nat) (h : ∀ p ∈ parts, DQ ∉ p) : DQ ∉ alignGormValue order parts lens := by
  unfold alignGormValue
  split
  · simp
  · intro hm
    rcases mem_joinSp _ (mem_trimRightSp hm) with h1 | ⟨s, hs, hc⟩
    · exact absurd h1 (by decide)
    · rcases mem_gormSegments _ order lens s hs hc with h1 | h1 | ⟨key, v, hv, hcv⟩
      · exact absurd h1 (by decide)
      · exact absurd h1 (by decide)
      · have hvm := gormTagOf_mem hv
        rw [List.mem_map] at hvm
        obtain ⟨p, hp, rfl⟩ := hvm
        exact h p hp (mem_trimSpace hcv)

theorem parseForGorm_mem :
    ∀ (fs : List GoString) (parsed : List (Option (List KeyValue))),
      parseForGorm fs = Run.ret parsed →
      ∀ kvs, some kvs ∈ parsed →
        ∃ lit ∈ fs, ∃ r, ParseTag lit = Run.ret r ∧ r.err = none ∧ r.keyValues = kvs := by
  intro fs
  induction fs with
  | nil =>
    intro parsed h kvs hk
    simp only [parseForGorm, Run.ret.injEq] at h
    subst h
    simp at hk
  | cons lit fs ih =>
    intro parsed h kvs hk
    unfold parseForGorm at h
    cases hp : ParseTag lit with
    | panic => rw [hp] at h; simp at h
    | ret r =>
      rw [hp] at h
      simp only at h
      cases hr : parseForGorm fs with
      | panic => rw [hr] at h; simp at h
      | ret l =>
        rw [hr] at h
        simp only [Run.ret.injEq] at h
        subst h
        rcases List.mem_cons.1 hk with hk | hk
        · by_cases he : r.err = none
          · rw [if_pos he] at hk
            simp only [Option.some.injEq] at hk
            exact ⟨lit, List.mem_cons_self _ _, r, hp, he, hk.symm⟩
          · rw [if_neg he] at hk
            cases hk
        · obtain ⟨lit', hl, rest⟩ := ih l hr kvs hk
          exact ⟨lit', List.mem_cons_of_mem _ hl, rest⟩

theorem firstGorm_mem {kvs : List KeyValue} {kv : KeyValue} (h : firstGorm kvs = some kv) :
    kv ∈ kvs ∧ kv.Key = gormKey := by
  unfold firstGorm at h
  have h2 := List.find?_some h
  simp only [Bool.and_eq_true, decide_eq_true_eq] at h2
  exact ⟨List.mem_of_find?_eq_some h, h2.1⟩

theorem gormFieldsOf_clean (parsed : List (Option (List KeyValue)))
    (h : ∀ kvs, some kvs ∈ parsed → ∀ kv ∈ kvs, ∃ q, WellParsed q kv)
    (lens : List Nat) (order : List GoString) :
    GormClean ⟨gormFieldsOf parsed, lens, order⟩ := by
  intro parts hparts p hp
  simp only [gormFieldsOf, List.mem_map] at hparts
  obtain ⟨okv, hokv, heq⟩ := hparts
  cases okv with
  | none => simp at heq
  | some kvs =>
    simp only [Option.map_eq_some'] at heq
    obtain ⟨kv, hkv, rfl⟩ := heq
    obtain ⟨hmem, hkey⟩ := firstGorm_mem hkv
    obtain ⟨q, _, _, _, hv, hg⟩ := h kvs hokv kv hmem
    rw [if_pos hkey] at hg
    rw [hg, List.map_map, List.mem_map] at hp
    obtain ⟨piece, hpiece, rfl⟩ := hp
    intro hdq
    exact hv (mem_splitSemi _ piece hpiece (mem_trimSpace (mem_trimSpace hdq)))

/-- The layout of a batch: its key order is `collectKeys` of the parsed fields
and its `gorm` clauses hold no double quote. -/
theorem layoutOf_spec {batch : List GoString} {fieldTags : List (List KeyValue)} {L : Layout}
    (h : layoutOf batch fieldTags = Run.ret L) :
    L.orderedKeys = collectKeys fieldTags ∧ GormClean L.gorm := by
  unfold layoutOf at h
  simp only at h
  cases hg : hasGormKey fieldTags with
  | false =>
    rw [hg] at h
    simp only [Bool.false_eq_true, if_false] at h
    cases hw : widthsFields false ⟨[], [], []⟩ 0 fieldTags [] with
    | panic => rw [hw] at h; simp at h
    | ret m =>
      rw [hw] at h
      simp only [Run.ret.injEq] at h
      subst h
      exact ⟨rfl, fun parts hp => by simp at hp⟩
  | true =>
    rw [hg] at h
    simp only [if_true] at h
    cases ha : alignGormParts batch with
    | panic => rw [ha] at h; simp at h
    | ret g =>
      rw [ha] at h
      simp only at h
      cases hw : widthsFields true g 0 fieldTags [] with
      | panic => rw [hw] at h; simp at h
      | ret m =>
        rw [hw] at h
        simp only [Run.ret.injEq] at h
        subst h
        refine ⟨rfl, ?_⟩
        unfold alignGormParts at ha
        cases hp : parseForGorm batch with
        | panic => rw [hp] at ha; simp at ha
        | ret parsed =>
          rw [hp] at ha
          simp only [Run.ret.injEq] at ha
          subst ha
          refine gormFieldsOf_clean parsed ?_ _ _
          intro kvs hk kv hkv
          obtain ⟨lit, _, r, hr, he, rfl⟩ := parseForGorm_mem batch parsed hp kvs hk
          exact ⟨r.quote, (parseTag_ok hr he).2.2 kv hkv⟩

theorem getD_mem {α : Type} (l : List (Option α)) (i : Nat) (a : α)
    (h : l.getD i none = some a) : some a ∈ l := by
  induction l generalizing i with
  | nil => simp at h
  | cons x l ih =>
    cases i with
    | zero =>
      simp only [List.getD_cons_zero] at h
      rw [h]
      exact List.mem_cons_self _ _
    | succ i =>
      simp only [List.getD_cons_succ] at h
      exact List.mem_cons_of_mem _ (ih i h)

/-- The segment of a well-parsed entry: its key, the delimiters of its quote and a
value text that has no double quote. -/
theorem segmentOf_text {L : Layout} (hL : GormClean L.gorm) {q : GoString} {kv : KeyValue}
    (hkv : WellParsed q kv) {i : Nat} {seg : GoString} (h : segmentOf L i kv = Run.ret seg) :
    ∃ v, DQ ∉ v ∧ seg = segText q kv.Key v := by
  obtain ⟨hq, _, _, hv, _⟩ := hkv
  unfold segmentOf at h
  split at h
  · split at h
    · rename_i parts hparts
      refine ⟨_, ?_, hq ▸ stringWithGormAlign_text h⟩
      exact dq_not_mem_alignGormValue _ _ _ (hL parts (getD_mem _ _ _ hparts))
    · exact ⟨kv.Value, hv, hq ▸ string_text h⟩
  · exact ⟨kv.Value, hv, hq ▸ string_text h⟩

/-! ## Order preservation -/

theorem parsedAs_entries :
    ∀ (fs : List GoString) (fieldTags : List (List KeyValue)), ParsedAs fs fieldTags →
      fieldTags = fs.map entriesOf := by
  intro fs
  induction fs with
  | nil =>
    intro fieldTags h
    cases fieldTags with
    | nil => rfl
    | cons _ _ => exact h.elim
  | cons lit fs ih =>
    intro fieldTags h
    cases fieldTags with
    | nil => exact h.elim
    | cons kvs rest =>
      obtain ⟨⟨r, h1, _, h3⟩, hrest⟩ := h
      rw [List.map_cons, ← ih rest hrest]
      simp only [entriesOf, h1, h3]

theorem rendered_zip (L : Layout) :
    ∀ (fs : List GoString) (i : Nat) (out : List GoString), Rendered L i fs out →
      ∀ p ∈ fs.zip out, ∃ j r, ParseTag p.1 = Run.ret r ∧ r.err = none ∧
        renderField L j r.quote r.keyValues = Run.ret p.2 := by
  intro fs
  induction fs with
  | nil => intro i out _ p hp; simp at hp
  | cons lit fs ih =>
    intro i out h p hp
    cases out with
    | nil => exact h.elim
    | cons o os =>
      obtain ⟨⟨r, h1, h2, h3⟩, hrest⟩ := h
      rw [List.zip_cons_cons] at hp
      rcases List.mem_cons.1 hp with rfl | hp
      · exact ⟨i, r, h1, h2, h3⟩
      · exact ih (i + 1) os hrest p hp

theorem currentTags_isSome (kvs : List KeyValue) (k : GoString) :
    (currentTags kvs k).isSome = decide (k ∈ kvs.map KeyValue.Key) := by
  unfold currentTags
  rw [Bool.eq_iff_iff]
  simp only [List.find?_isSome, List.mem_reverse, decide_eq_true_eq, List.mem_map]

theorem forall₂_mem_right {α β : Type} {R : α → β → Prop} :
    ∀ {l₁ : List α} {l₂ : List β}, List.Forall₂ R l₁ l₂ → ∀ b ∈ l₂, ∃ a ∈ l₁, R a b := by
  intro l₁
  induction l₁ with
  | nil => intro l₂ h b hb; cases h; simp at hb
  | cons x l ih =>
    intro l₂ h b hb
    cases h with
    | cons hx hrest =>
      rcases List.mem_cons.1 hb with rfl | hb
      · exact ⟨x, List.mem_cons_self _ _, hx⟩
      · obtain ⟨a, ha, hr⟩ := ih hrest b hb
        exact ⟨a, List.mem_cons_of_mem _ ha, hr⟩

/-- Items of a row from the segments of the keys a field has. -/
theorem items_of_segments (q : GoString) :
    ∀ (ks : List GoString) (segs : List (GoString × Nat)),
      List.Forall₂ (fun key sp => ∃ v, ValidPair key v ∧ sp.1 = segText q key v) ks segs →
      ∀ n0 : Nat, ∃ items : List (Nat × GoString × GoString),
        items.map (fun it => it.2.1) = ks ∧
        (∀ it ∈ items, ValidPair it.2.1 it.2.2) ∧
        shiftPads n0 segs = items.map (fun it => (it.1, segText q it.2.1 it.2.2)) := by
  intro ks
  induction ks with
  | nil =>
    intro segs h n0
    cases h
    exact ⟨[], rfl, by simp, rfl⟩
  | cons key ks ih =>
    intro segs h n0
    cases h with
    | cons hhead hrest =>
      rename_i sp segs'
      obtain ⟨v, hv, hs⟩ := hhead
      obtain ⟨seg, p⟩ := sp
      obtain ⟨items, h1, h2, h3⟩ := ih segs' hrest p
      refine ⟨(n0, key, v) :: items, by simp [h1], ?_, ?_⟩
      · intro it hit
        rcases List.mem_cons.1 hit with rfl | hit
        · exact hv
        · exact h2 it hit
      · simp only at hs
        simp only [shiftPads, List.map_cons, h3, hs]

theorem segText_backtick (key v : GoString) : segText [BT] key v = pairSeg false key v := by
  simp [segText, pairSeg, plainSeg]

/-- A row of backtick segments between two bytes parses to its keys in order. -/
theorem parseTag_items (a z : Nat) (items : List (Nat × GoString × GoString))
    (hv : ∀ it ∈ items, ValidPair it.2.1 it.2.2) :
    ∃ kvs, ParseTag ([a] ++ rowOf (items.map (fun it => (it.1, segText [BT] it.2.1 it.2.2)))
          ++ [z]) = Run.ret ⟨[a], kvs, none⟩ ∧
      kvs.map KeyValue.Key = items.map (fun it => it.2.1) := by
  have hcells : items.map (fun it => (it.1, segText [BT] it.2.1 it.2.2))
      = (items.map (fun it => ((it.1, false, it.2.1, it.2.2) : RowItem))).map RowItem.cell := by
    rw [List.map_map]
    apply List.map_congr_left
    intro it _
    simp [RowItem.cell, segText_backtick]
  refine ⟨(items.map (fun it => ((it.1, false, it.2.1, it.2.2) : RowItem))).map
    (RowItem.entry [a]), ?_, ?_⟩
  · have := parseTag_wrap a z (rowOf (items.map (fun it => (it.1, segText [BT] it.2.1 it.2.2))))
    have e : [a] ++ rowOf (items.map (fun it => (it.1, segText [BT] it.2.1 it.2.2))) ++ [z]
        = a :: (rowOf (items.map (fun it => (it.1, segText [BT] it.2.1 it.2.2))) ++ [z]) := by
      simp
    rw [e, this, hcells]
    refine parseLoop_row_all [a] _ ?_ _ (by omega)
    intro it hit
    rw [List.mem_map] at hit
    obtain ⟨it0, h0, rfl⟩ := hit
    exact hv it0 h0
  · simp [List.map_map, Function.comp_def, RowItem.entry, parseGormParts_key]

/-- The text of one rendered field. -/
theorem renderField_text {L : Layout} (hL : GormClean L.gorm) {i : Nat} {q : GoString}
    {kvs : List KeyValue} (hkvs : ∀ kv ∈ kvs, WellParsed q kv) {o : GoString}
    (h : renderField L i q kvs = Run.ret o) :
    ∃ items : List (Nat × GoString × GoString),
      items.map (fun it => it.2.1)
        = L.orderedKeys.filter (fun k => decide (k ∈ kvs.map KeyValue.Key)) ∧
      (∀ it ∈ items, ValidPair it.2.1 it.2.2) ∧
      o = q ++ rowOf (items.map (fun it => (it.1, segText q it.2.1 it.2.2))) ++ q := by
  obtain ⟨parts, hparts, rfl⟩ := renderField_ok h
  obtain ⟨n0, segs, hj, hf⟩ := alignedPartsOf_row L i (currentTags kvs) L.orderedKeys parts hparts
  have hfilter : L.orderedKeys.filter (fun k => (currentTags kvs k).isSome)
      = L.orderedKeys.filter (fun k => decide (k ∈ kvs.map KeyValue.Key)) := by
    apply List.filter_congr
    intro k _
    exact currentTags_isSome kvs k
  rw [hfilter] at hf
  have hf2 : List.Forall₂ (fun key sp => ∃ v, ValidPair key v ∧ sp.1 = segText q key v)
      (L.orderedKeys.filter (fun k => decide (k ∈ kvs.map KeyValue.Key))) segs := by
    refine hf.imp ?_
    rintro key sp ⟨kv, hkv, hseg⟩
    obtain ⟨hmem, hkey⟩ := currentTags_mem hkv
    have hw := hkvs kv hmem
    obtain ⟨v, hv, hs⟩ := segmentOf_text hL hw hseg
    subst hkey
    exact ⟨v, ⟨hw.2.1, hw.2.2.1, hv⟩, hs⟩
  obtain ⟨items, h1, h2, h3⟩ := items_of_segments q _ segs hf2 n0
  refine ⟨items, h1, h2, ?_⟩
  rw [hj, trimRightSp_row segs n0, h3]
  intro sp hsp
  obtain ⟨k, _, v, _, hs⟩ := forall₂_mem_right hf2 sp hsp
  rw [hs]
  exact segText_last _ _ _

/-- C8. Order preservation.  For a batch on which `fieldsTagFormat` returns `nil`:
KeyOrder has no repetition, holds exactly the keys of the batch and lists them by
first appearance in the scan of the fields top to bottom and of the entries left
to right; and every output literal is, between its quote bytes, a row of the
segments of exactly the keys of KeyOrder that its field has, in the order of
KeyOrder, separated by spaces only (each segment being its key, the value
delimiter and a value text without double quote), so that for a backtick literal
`ParseTag` reads these keys from the output in that order. -/
theorem key_order_preserved (batch out : List GoString)
    (h : fieldsTagFormat batch = (out, Run.ret none)) :
    ((keyOrderOf batch).Nodup ∧
      (∀ k, k ∈ keyOrderOf batch ↔ k ∈ keysInScanOrder batch) ∧
      (keyOrderOf batch).Pairwise (fun a b =>
        firstIndex a (keysInScanOrder batch) < firstIndex b (keysInScanOrder batch))) ∧
    out.length = batch.length ∧
    ∀ p ∈ batch.zip out, ∃ items : List (Nat × GoString × GoString),
      items.map (fun it => it.2.1) = keysOfField batch p.1 ∧
      (∀ it ∈ items, ValidPair it.2.1 it.2.2) ∧
      p.2 = p.1.take 1
        ++ rowOf (items.map (fun it => (it.1, segText (p.1.take 1) it.2.1 it.2.2)))
        ++ p.1.take 1 ∧
      (p.1.take 1 = [BT] →
        ∃ kvs, ParseTag p.2 = Run.ret ⟨[BT], kvs, none⟩ ∧
          kvs.map KeyValue.Key = keysOfField batch p.1) := by
  obtain ⟨fieldTags, L, hp, hl, hr⟩ := fieldsTagFormat_ok h
  have hft := parsedAs_entries batch fieldTags (parseFields_ok batch fieldTags hp)
  obtain ⟨hkeys, hclean⟩ := layoutOf_spec hl
  have hko : L.orderedKeys = keyOrderOf batch := by rw [hkeys, hft]; rfl
  refine ⟨?_, rendered_length L batch 0 out hr, ?_⟩
  · have := collectKeys_spec (batch.map entriesOf)
    exact this
  · intro p hpz
    obtain ⟨j, r, hpr, he, hrf⟩ := rendered_zip L batch 0 out hr p hpz
    obtain ⟨_, hq, hwp⟩ := parseTag_ok hpr he
    have hent : entriesOf p.1 = r.keyValues := by simp only [entriesOf, hpr]
    obtain ⟨items, h1, h2, h3⟩ := renderField_text hclean hwp hrf
    rw [hko, ← hent] at h1
    rw [hq] at h3
    refine ⟨items, h1, h2, h3, ?_⟩
    intro hbt
    rw [hbt] at h3
    obtain ⟨kvs, hk1, hk2⟩ := parseTag_items BT BT items h2
    rw [← h3] at hk1
    exact ⟨kvs, hk1, hk2.trans h1⟩

/-- C8 at a batch of three fields, for the field whose keys are reordered. -/
theorem key_order_preserved_witness :
    keyOrderOf [str "`b:\"1\" a:\"2\"`", str "`a:\"3\" c:\"4\" b:\"5\"`", str "`c:\"6\"`"]
      = [str "b", str "a", str "c"] ∧
    ∃ kvs, ParseTag (str "`b:\"5\" a:\"3\" c:\"4\"`") = Run.ret ⟨[BT], kvs, none⟩ ∧
      kvs.map KeyValue.Key
        = keysOfField [str "`b:\"1\" a:\"2\"`", str "`a:\"3\" c:\"4\" b:\"5\"`", str "`c:\"6\"`"]
            (str "`a:\"3\" c:\"4\" b:\"5\"`") :=
  ⟨by decide,
   ((key_order_preserved
      [str "`b:\"1\" a:\"2\"`", str "`a:\"3\" c:\"4\" b:\"5\"`", str "`c:\"6\"`"]
      [str "`b:\"1\" a:\"2\"`", str "`b:\"5\" a:\"3\" c:\"4\"`", str "`            c:\"6\"`"]
      (by decide)).2.2
      (str "`a:\"3\" c:\"4\" b:\"5\"`", str "`b:\"5\" a:\"3\" c:\"4\"`") (by decide)).elim
     (fun _ hi => hi.2.2.2 (by decide))⟩

/-! ## Evaluations at concrete batches -/

/-- C5. On the literal `json:` wrapped in backticks the index expression `tag[i]`
that follows the colon is out of range: the loop body ends in a panic, and so
does `ParseTag`, where the claim promises an error result. -/
theorem parseTag_colon_last_panics :
    scanPair (str "json:") = Scan.outOfRange ∧ ParseTag (str "`json:`") = Run.panic := by
  decide

/-- C6. For the double-quoted literal `"json:\"id\""` the run succeeds and writes
`"json:\\"id:\\""`: the value stands between two copies of `:\\"` (a colon, two
backslashes, a double quote) instead of two copies of `\"`, and `ParseTag`
rejects the output. -/
theorem escaped_literal_rendering :
    fieldsTagFormat [str "\"json:\\\"id\\\"\""]
      = ([str "\"json:\\\\\"id:\\\\\"\""], Run.ret none) ∧
    ParseTag (str "\"json:\\\\\"id:\\\\\"\"")
      = Run.ret ⟨[], [], some GoError.ErrInvalidTag⟩ := by
  decide

/-- C1. Two batches on which a second run does not reproduce the first: a
double-quoted batch, whose output the second run rejects with a parse error, and
a backtick batch with a key repeated in one field, whose padding shrinks. -/
theorem align_not_idempotent :
    (fieldsTagFormat [str "\"a:\\\"1\\\" b:\\\"2\\\"\""]
        = ([str "\"a:\\\\\"1:\\\\\" b:\\\\\"2:\\\\\"\""], Run.ret none) ∧
      fieldsTagFormat [str "\"a:\\\\\"1:\\\\\" b:\\\\\"2:\\\\\"\""]
        = ([str "\"a:\\\\\"1:\\\\\" b:\\\\\"2:\\\\\"\""],
            Run.ret (some GoError.ErrInvalidTag))) ∧
    (fieldsTagFormat [str "`a:\"333333\" a:\"1\" b:\"2\"`"]
        = ([str "`a:\"1\"      b:\"2\"`"], Run.ret none) ∧
      fieldsTagFormat [str "`a:\"1\"      b:\"2\"`"]
        = ([str "`a:\"1\" b:\"2\"`"], Run.ret none)) := by
  decide

/-- C2. A double-quoted batch with the key `gorm`: the run succeeds and the
segment of `json` begins after 22 characters in the first output literal and
after 24 in the second. -/
theorem escaped_gorm_columns_misaligned :
    fieldsTagFormat [str "\"gorm:\\\"column:a\\\" json:\\\"x\\\"\"",
        str "\"gorm:\\\"column:abc\\\" json:\\\"y\\\"\""]
      = ([str "\"gorm:\\\\\"column:a:\\\\\" " ++ str "json:\\\\\"x:\\\\\"\"",
          str "\"gorm:\\\\\"column:abc:\\\\\" " ++ str "json:\\\\\"y:\\\\\"\""],
          Run.ret none) ∧
    RuneCountInString (str "\"gorm:\\\\\"column:a:\\\\\" ") = 22 ∧
    RuneCountInString (str "\"gorm:\\\\\"column:abc:\\\\\" ") = 24 := by
  decide

/-- C9. For the double-quoted batch `"gorm:\"column:a\""` the column width of
`gorm` is 15 while the segment written for it has 20 characters; and for the
backtick batch with `a` twice in one field the column width of `a` is 10 while
the only segment written for `a` has 5 characters. -/
theorem column_width_not_attained :
    (columnWidth [str "\"gorm:\\\"column:a\\\"\""] gormKey = some 15 ∧
      fieldsTagFormat [str "\"gorm:\\\"column:a\\\"\""]
        = ([[DQ] ++ str "gorm:\\\\\"column:a:\\\\\"" ++ [DQ]], Run.ret none) ∧
      RuneCountInString (str "gorm:\\\\\"column:a:\\\\\"") = 20) ∧
    (columnWidth [str "`a:\"333333\" a:\"1\" b:\"2\"`"] (str "a") = some 10 ∧
      fieldsTagFormat [str "`a:\"333333\" a:\"1\" b:\"2\"`"]
        = ([[BT] ++ str "a:\"1\"" ++ spaces 5 ++ str " b:\"2\"" ++ [BT]], Run.ret none) ∧
      RuneCountInString (str "a:\"1\"") = 5) := by
  decide

/-! ## A batch with a single key -/

theorem parseGormParts_other {kv : KeyValue} (h : kv.Key ≠ gormKey) :
    kv.ParseGormParts = kv := by
  unfold KeyValue.ParseGormParts
  rw [if_neg h]

/-- The literal `k:"v"` in backticks parses to its single entry. -/
theorem parseTag_single (k v : GoString) (hk : k ≠ gormKey) (hv : ValidPair k v) :
    ParseTag ([BT] ++ k ++ [COLON, DQ] ++ v ++ [DQ] ++ [BT])
      = Run.ret ⟨[BT], [⟨k, [BT], v, []⟩], none⟩ := by
  have e : [BT] ++ k ++ [COLON, DQ] ++ v ++ [DQ] ++ [BT]
      = BT :: (rowOf ([((0, false, k, v) : RowItem)].map RowItem.cell) ++ [BT]) := by
    simp [rowOf, RowItem.cell, pairSeg, plainSeg, spaces]
  rw [e, parseTag_wrap]
  have := parseLoop_row_all [BT] [((0, false, k, v) : RowItem)]
    (by intro it hit; simp only [List.mem_singleton] at hit; subst hit; exact hv)
    ((rowOf ([((0, false, k, v) : RowItem)].map RowItem.cell)).length + 3) (by omega)
  rw [this]
  simp only [List.map_cons, List.map_nil, RowItem.entry]
  rw [parseGormParts_other (by exact hk)]

theorem trimRightSp_of_last (a : GoString) (h : a.getLast? = some DQ) : trimRightSp a = a := by
  have := trimRightSp_append_of_last a [] h
  simpa [trimRightSp] using this

theorem parseFields_single (k : GoString) (hk : k ≠ gormKey) :
    ∀ vs : List GoString, (∀ v ∈ vs, ValidPair k v) →
      parseFields (vs.map (fun v => [BT] ++ k ++ [COLON, DQ] ++ v ++ [DQ] ++ [BT]))
        = Run.ret (Sum.inr (vs.map (fun v => [(⟨k, [BT], v, []⟩ : KeyValue)]))) := by
  intro vs
  induction vs with
  | nil => intro _; rfl
  | cons v vs ih =>
    intro h
    have h1 := parseTag_single k v hk (h v (List.mem_cons_self _ _))
    have h2 := ih (fun x hx => h x (List.mem_cons_of_mem _ hx))
    simp only [List.map_cons]
    unfold parseFields
    rw [h1]
    simp only [h2]

theorem hasGormKey_single (k : GoString) (hk : k ≠ gormKey) (vs : List GoString) :
    hasGormKey (vs.map (fun v => [(⟨k, [BT], v, []⟩ : KeyValue)])) = false := by
  unfold hasGormKey
  rw [List.any_eq_false]
  intro kvs hkvs
  rw [List.mem_map] at hkvs
  obtain ⟨v, _, rfl⟩ := hkvs
  simp [hk]

theorem collectKeys_single (k : GoString) (v : GoString) (vs : List GoString) :
    collectKeys ((v :: vs).map (fun v => [(⟨k, [BT], v, []⟩ : KeyValue)])) = [k] := by
  rw [collectKeys_eq]
  simp only [List.map_cons, List.flatten_cons, List.singleton_append, List.foldl_cons]
  have h0 : addKey [] k = [k] := by simp [addKey]
  rw [h0]
  induction vs with
  | nil => rfl
  | cons w ws ih =>
    simp only [List.map_cons, List.flatten_cons, List.singleton_append, List.foldl_cons]
    have h1 : addKey [k] k = [k] := by simp [addKey]
    rw [h1]
    exact ih

theorem renderField_single (L : Layout) (i : Nat) (k v : GoString) (hk : k ≠ gormKey)
    (hL : L.orderedKeys = [k]) :
    renderField L i [BT] [⟨k, [BT], v, []⟩]
      = Run.ret ([BT] ++ k ++ [COLON, DQ] ++ v ++ [DQ] ++ [BT]) := by
  have hc : currentTags [(⟨k, [BT], v, []⟩ : KeyValue)] k = some ⟨k, [BT], v, []⟩ := by
    simp [currentTags]
  have hs : segmentOf L i ⟨k, [BT], v, []⟩ = Run.ret (k ++ [COLON, DQ] ++ v ++ [DQ]) := by
    unfold segmentOf
    rw [if_neg (by simp [hk])]
    simp [KeyValue.String]
  have hp : padSegment L k (!([] : List GoString).isEmpty) (k ++ [COLON, DQ] ++ v ++ [DQ])
      = k ++ [COLON, DQ] ++ v ++ [DQ] := by
    simp [padSegment]
  have ht : trimRightSp (joinSp [k ++ [COLON, DQ] ++ v ++ [DQ]])
      = k ++ [COLON, DQ] ++ v ++ [DQ] :=
    trimRightSp_of_last _ (List.getLast?_concat _)
  unfold renderField
  rw [hL]
  simp only [alignedPartsOf, hc, hs, hp, ht]
  simp

theorem applyAlign_single (L : Layout) (k : GoString) (hk : k ≠ gormKey)
    (hL : L.orderedKeys = [k]) :
    ∀ (vs : List GoString) (i : Nat), (∀ v ∈ vs, ValidPair k v) →
      applyAlign L i (vs.map (fun v => [BT] ++ k ++ [COLON, DQ] ++ v ++ [DQ] ++ [BT]))
        = (vs.map (fun v => [BT] ++ k ++ [COLON, DQ] ++ v ++ [DQ] ++ [BT]), Run.ret none) := by
  intro vs
  induction vs with
  | nil => intro i _; rfl
  | cons v vs ih =>
    intro i h
    have h1 := parseTag_single k v hk (h v (List.mem_cons_self _ _))
    have h2 := ih (i + 1) (fun x hx => h x (List.mem_cons_of_mem _ hx))
    simp only [List.map_cons]
    unfold applyAlign
    rw [h1]
    simp only [renderField_single L i k v hk hL, h2]

/-- C11. A single-key batch is left unchanged: for a key `k` other than `gorm`
(a non-empty run of key bytes) and values without double quote, whatever their
lengths, `fieldsTagFormat` returns `nil` on the batch of the backtick literals
`k:"v"` and every field keeps its literal. -/
theorem single_key_batch_unchanged (k : GoString) (vs : List GoString) (hk : k ≠ gormKey)
    (hkey : k ≠ [] ∧ ∀ c ∈ k, isKeyByte c = true) (hv : ∀ v ∈ vs, DQ ∉ v) :
    fieldsTagFormat (vs.map (fun v => [BT] ++ k ++ [COLON, DQ] ++ v ++ [DQ] ++ [BT]))
      = (vs.map (fun v => [BT] ++ k ++ [COLON, DQ] ++ v ++ [DQ] ++ [BT]), Run.ret none) := by
  have hvp : ∀ v ∈ vs, ValidPair k v := fun v h => ⟨hkey.1, hkey.2, hv v h⟩
  unfold fieldsTagFormat
  rw [parseFields_single k hk vs hvp]
  simp only
  cases vs with
  | nil => rfl
  | cons v vs =>
    have hg := hasGormKey_single k hk (v :: vs)
    have hgood : ∀ kvs ∈ (v :: vs).map (fun v => [(⟨k, [BT], v, []⟩ : KeyValue)]),
        ∀ kv ∈ kvs, GoodQuote kv := by
      intro kvs hkvs kv hkv
      rw [List.mem_map] at hkvs
      obtain ⟨w, _, rfl⟩ := hkvs
      simp only [List.mem_singleton] at hkv
      subst hkv
      exact Or.inl rfl
    obtain ⟨m, hm⟩ := widthsFields_ok false ⟨[], [], []⟩ _ 0 [] hgood
    have hl : layoutOf ((v :: vs).map (fun v => [BT] ++ k ++ [COLON, DQ] ++ v ++ [DQ] ++ [BT]))
        ((v :: vs).map (fun v => [(⟨k, [BT], v, []⟩ : KeyValue)]))
        = Run.ret ⟨[k], false, ⟨[], [], []⟩, m⟩ := by
      unfold layoutOf
      simp only [hg, Bool.false_eq_true, if_false, hm, collectKeys_single]
    rw [hl]
    exact applyAlign_single _ k hk rfl (v :: vs) 0 hvp

/-- C11 at Scenario A of the specification. -/
theorem single_key_batch_unchanged_witness :
    fieldsTagFormat [str "`json:\"id\"`", str "`json:\"name\"`"]
      = ([str "`json:\"id\"`", str "`json:\"name\"`"], Run.ret none) :=
  single_key_batch_unchanged (str "json") [str "id", str "name"] (by decide) (by decide)
    (by decide)

/-! ## Splitting and trimming -/

theorem splitSemi_ne_nil (s : GoString) : splitSemi s ≠ [] := by
  cases s with
  | nil => simp [splitSemi]
  | cons c cs =>
    unfold splitSemi
    split
    · simp
    · split <;> simp

theorem intercalate_cons_cons (sep a b : GoString) (l : List GoString) :
    List.intercalate sep (a :: b :: l) = a ++ sep ++ List.intercalate sep (b :: l) := by
  simp [List.intercalate, List.intersperse]

theorem intercalate_cons_head (sep : GoString) (c : Nat) (p : GoString) (ps : List GoString) :
    List.intercalate sep ((c :: p) :: ps) = c :: List.intercalate sep (p :: ps) := by
  cases ps with
  | nil => simp [List.intercalate, List.intersperse]
  | cons q qs => simp [intercalate_cons_cons]

/-- The pieces of `strings.Split(s, ";")`, joined by `";"`, give `s` back. -/
theorem intercalate_splitSemi (s : GoString) : List.intercalate [SEMI] (splitSemi s) = s := by
  induction s with
  | nil => simp [splitSemi, List.intercalate, List.intersperse]
  | cons c cs ih =>
    unfold splitSemi
    split
    · rename_i hc
      obtain ⟨p, ps, hp⟩ := List.exists_cons_of_ne_nil (splitSemi_ne_nil cs)
      rw [hp, intercalate_cons_cons, ← hp, ih, hc]
      rfl
    · split
      · rename_i h; exact absurd h (splitSemi_ne_nil cs)
      · rename_i p ps hp
        rw [intercalate_cons_head, ← hp, ih]

theorem semi_not_mem_splitSemi (s : GoString) : ∀ p ∈ splitSemi s, SEMI ∉ p := by
  induction s with
  | nil => intro p hp; simp only [splitSemi, List.mem_singleton] at hp; subst hp; simp
  | cons c cs ih =>
    intro p hp
    unfold splitSemi at hp
    split at hp
    · rcases List.mem_cons.1 hp with rfl | hp
      · simp
      · exact ih p hp
    · rename_i hc
      split at hp
      · rename_i h; exact absurd h (splitSemi_ne_nil cs)
      · rename_i q qs hq
        rcases List.mem_cons.1 hp with rfl | hp
        · intro hm
          rcases List.mem_cons.1 hm with h | h
          · exact hc h.symm
          · exact ih q (by rw [hq]; exact List.mem_cons_self _ _) h
        · exact ih p (by rw [hq]; exact List.mem_cons_of_mem _ hp)

theorem length_splitSemi (s : GoString) : (splitSemi s).length = s.count SEMI + 1 := by
  induction s with
  | nil => rfl
  | cons c cs ih =>
    unfold splitSemi
    split
    · rename_i hc
      rw [List.length_cons, ih, hc, List.count_cons_self]
    · rename_i hc
      rw [List.count_cons_of_ne (fun h => hc h.symm)]
      split
      · rename_i h; exact absurd h (splitSemi_ne_nil cs)
      · rename_i q qs hq
        rw [← ih, hq]
        rfl

theorem stripRunes_fix (w : GoString → Nat) (hw : w [] = 0) :
    ∀ (n : Nat) (s : GoString), s.length ≤ n → w (stripRunes w n s) = 0 := by
  intro n
  induction n with
  | zero =>
    intro s hs
    have : s = [] := List.length_eq_zero.1 (Nat.le_zero.1 hs)
    subst this
    simpa [stripRunes] using hw
  | succ n ih =>
    intro s hs
    unfold stripRunes
    split
    · assumption
    · rename_i h0
      apply ih
      cases s with
      | nil => exact absurd hw h0
      | cons c t =>
        simp only [List.length_drop, List.length_cons] at hs ⊢
        omega

theorem stripRunes_of_zero (w : GoString → Nat) (n : Nat) (s : GoString) (h : w s = 0) :
    stripRunes w n s = s := by
  cases n with
  | zero => rfl
  | succ n => unfold stripRunes; rw [if_pos h]

/-- A string that starts with a white-space rune still does when it is extended. -/
theorem spaceRuneWidth_append (a b : GoString) (h : spaceRuneWidth (a ++ b) = 0) :
    spaceRuneWidth a = 0 := by
  match a with
  | [] => rfl
  | [c] =>
    by_cases hc : (9 ≤ c ∧ c ≤ 13) ∨ c = 32
    · simp [spaceRuneWidth, hc] at h
    · simp [spaceRuneWidth, hc]
  | [c, d] =>
    by_cases hc : (9 ≤ c ∧ c ≤ 13) ∨ c = 32
    · simp [spaceRuneWidth, hc] at h
    · by_cases hd : c = 0xC2 ∧ (d = 0x85 ∨ d = 0xA0)
      · simp [spaceRuneWidth, hc, hd] at h
      · simp [spaceRuneWidth, hc, hd]
  | c :: d :: e :: t =>
    simpa [spaceRuneWidth] using h

theorem spaceRuneWidth_nil : spaceRuneWidth [] = 0 := rfl

theorem spaceRuneWidthRev_nil : spaceRuneWidthRev [] = 0 := rfl

/-- `TrimSpace` leaves no white-space rune at either end. -/
theorem trimSpace_trimmed (s : GoString) :
    spaceRuneWidth (TrimSpace s) = 0 ∧ spaceRuneWidthRev (TrimSpace s).reverse = 0 := by
  unfold TrimSpace
  simp only [List.reverse_reverse]
  have h1 := stripRunes_fix spaceRuneWidth spaceRuneWidth_nil s.length s (Nat.le_refl _)
  have h2 := stripRunes_fix spaceRuneWidthRev spaceRuneWidthRev_nil
    (stripRunes spaceRuneWidth s.length s).length (stripRunes spaceRuneWidth s.length s).reverse
    (by simp)
  refine ⟨?_, h2⟩
  obtain ⟨pre, hpre⟩ := stripRunes_suffix spaceRuneWidthRev
    (stripRunes spaceRuneWidth s.length s).length (stripRunes spaceRuneWidth s.length s).reverse
  have e : stripRunes spaceRuneWidth s.length s
      = (stripRunes spaceRuneWidthRev (stripRunes spaceRuneWidth s.length s).length
          (stripRunes spaceRuneWidth s.length s).reverse).reverse ++ pre.reverse := by
    rw [← List.reverse_append, hpre, List.reverse_reverse]
  rw [e] at h1
  exact spaceRuneWidth_append _ _ h1

/-- `TrimSpace` does nothing on a string without white space at its ends. -/
theorem trimSpace_of_trimmed (s : GoString) (h1 : spaceRuneWidth s = 0)
    (h2 : spaceRuneWidthRev s.reverse = 0) : TrimSpace s = s := by
  unfold TrimSpace
  simp only
  rw [stripRunes_of_zero _ _ _ h1, stripRunes_of_zero _ _ _ h2, List.reverse_reverse]

theorem trimSpace_idem (s : GoString) : TrimSpace (TrimSpace s) = TrimSpace s :=
  trimSpace_of_trimmed _ (trimSpace_trimmed s).1 (trimSpace_trimmed s).2

/-- `TrimSpace s` is a contiguous part of `s`. -/
theorem trimSpace_contiguous (s : GoString) : TrimSpace s <:+: s := by
  unfold TrimSpace
  simp only
  have h1 := stripRunes_suffix spaceRuneWidth s.length s
  have h2 := stripRunes_suffix spaceRuneWidthRev (stripRunes spaceRuneWidth s.length s).length
    (stripRunes spaceRuneWidth s.length s).reverse
  have h3 := (List.reverse_prefix.2 h2)
  rw [List.reverse_reverse] at h3
  exact h3.isInfix.trans h1.isInfix

/-- C17. The splitter contract: an entry `ParseTag` returns with the key `gorm`
has as `GormParts` the pieces of its value between the `';'` separators, in
order, each trimmed (a contiguous part of the piece with no white-space rune left
at either end), empty pieces kept, so their number is the number of `';'` plus
one; an entry with another key has no `GormParts`. -/
theorem gormParts_contract (tag : GoString) (r : ParseRet) (kv : KeyValue)
    (h : ParseTag tag = Run.ret r) (hkv : kv ∈ r.keyValues) :
    (kv.Key = gormKey →
      kv.GormParts = (splitSemi kv.Value).map TrimSpace ∧
      List.intercalate [SEMI] (splitSemi kv.Value) = kv.Value ∧
      (∀ p ∈ splitSemi kv.Value, SEMI ∉ p) ∧
      kv.GormParts.length = kv.Value.count SEMI + 1 ∧
      (∀ p, TrimSpace p <:+: p ∧ spaceRuneWidth (TrimSpace p) = 0 ∧
        spaceRuneWidthRev (TrimSpace p).reverse = 0)) ∧
    (kv.Key ≠ gormKey → kv.GormParts = []) := by
  have he : r.err = none := by
    cases hr : r.err with
    | none => rfl
    | some e =>
      have := parseTag_err h (by rw [hr]; simp)
      subst this
      simp at hkv
  have hg := ((parseTag_ok h he).2.2 kv hkv).2.2.2.2
  constructor
  · intro hk
    rw [if_pos hk] at hg
    refine ⟨hg, intercalate_splitSemi _, semi_not_mem_splitSemi _, ?_, ?_⟩
    · rw [hg, List.length_map, length_splitSemi]
    · intro p
      exact ⟨trimSpace_contiguous p, trimSpace_trimmed p⟩
  · intro hk
    rw [if_neg hk] at hg
    exact hg

/-- C17 at a literal with a `gorm` entry of three clauses. -/
theorem gormParts_contract_witness :
    (⟨str "gorm", [BT], str "column:id; unique ;", [str "column:id", str "unique", []]⟩
        : KeyValue).GormParts
      = (splitSemi (str "column:id; unique ;")).map TrimSpace ∧
    ([str "column:id", str "unique", []] : List GoString).length
      = (str "column:id; unique ;").count SEMI + 1 :=
  ⟨((gormParts_contract (str "`gorm:\"column:id; unique ;\" a:\"b\"`") _
      ⟨str "gorm", [BT], str "column:id; unique ;", [str "column:id", str "unique", []]⟩
      rfl (by decide)).1 (by decide)).1,
   ((gormParts_contract (str "`gorm:\"column:id; unique ;\" a:\"b\"`") _
      ⟨str "gorm", [BT], str "column:id; unique ;", [str "column:id", str "unique", []]⟩
      rfl (by decide)).1 (by decide)).2.2.2.1⟩

/-! ## The exchange sort `sortKeysByAppearance` -/

theorem getD_set_self {α : Type} (d x : α) :
    ∀ (l : List α) (k : Nat), k < l.length → (l.set k x).getD k d = x := by
  intro l
  induction l with
  | nil => intro k h; simp at h
  | cons a l ih =>
    intro k h
    cases k with
    | zero => rfl
    | succ k => exact ih k (by simpa using h)

theorem getD_set_ne {α : Type} (d x : α) :
    ∀ (l : List α) (k t : Nat), t ≠ k → (l.set k x).getD t d = l.getD t d := by
  intro l
  induction l with
  | nil => intro k t _; rfl
  | cons a l ih =>
    intro k t h
    cases k with
    | zero =>
      cases t with
      | zero => exact absurd rfl h
      | succ t => rfl
    | succ k =>
      cases t with
      | zero => rfl
      | succ t => exact ih k t (fun e => h (by rw [e]))

theorem swap_perm {α : Type} (d x : α) :
    ∀ (l : List α) (k : Nat), k < l.length → (l.getD k d :: l.set k x).Perm (x :: l) := by
  intro l
  induction l with
  | nil => intro k h; simp at h
  | cons a l ih =>
    intro k h
    cases k with
    | zero => exact List.Perm.swap _ _ _
    | succ k =>
      have h1 := ih k (by simpa using h)
      show (l.getD k d :: a :: l.set k x).Perm (x :: a :: l)
      exact (List.Perm.swap _ _ _).trans (((List.Perm.cons a h1)).trans (List.Perm.swap _ _ _))

theorem mem_of_getD_bound {α : Type} (d : α) (P : α → Prop) (l : List α)
    (h : ∀ t, t < l.length → P (l.getD t d)) : ∀ y ∈ l, P y := by
  induction l with
  | nil => intro y hy; simp at hy
  | cons a l ih =>
    intro y hy
    rcases List.mem_cons.1 hy with rfl | hy
    · exact h 0 (by simp)
    · exact ih (fun t ht => h (t + 1) (by simpa using ht)) y hy

theorem swapIfLater_zero (first : GoMap Nat) (x : GoString) (rest : List GoString) (j : Nat) :
    swapIfLater first (x :: rest) 0 (j + 1)
      = if first.getInt (rest.getD j []) < first.getInt x then rest.getD j [] :: rest.set j x
        else x :: rest := by
  unfold swapIfLater
  rfl

theorem swapIfLater_append (first : GoMap Nat) (pre post : List GoString) (j : Nat)
    (hj : pre.length < j) :
    swapIfLater first (pre ++ post) pre.length j
      = pre ++ swapIfLater first post 0 (j - pre.length) := by
  unfold swapIfLater
  have h1 : (pre ++ post).getD j [] = post.getD (j - pre.length) [] :=
    List.getD_append_right _ _ _ _ (Nat.le_of_lt hj)
  have h2 : (pre ++ post).getD pre.length [] = post.getD 0 [] := by
    have := List.getD_append_right pre post [] pre.length (Nat.le_refl _)
    rwa [Nat.sub_self] at this
  rw [h1, h2]
  split
  · rw [List.set_append_right _ _ (Nat.le_refl _), Nat.sub_self,
      List.set_append_right _ _ (Nat.le_of_lt hj)]
  · rfl

/-- The inner loop for position `0`, run over `j = 1 .. k`: the head becomes a
key that appeared no later than the keys at positions `1 .. k`. -/
theorem innerPass_invariant (first : GoMap Nat) (x : GoString) (rest : List GoString) :
    ∀ k, k ≤ rest.length →
      ∃ m r, (List.range' 1 k).foldl (fun ks j => swapIfLater first ks 0 j) (x :: rest) = m :: r ∧
        (m :: r).Perm (x :: rest) ∧ r.length = rest.length ∧
        ∀ t, t < k → first.getInt m ≤ first.getInt (r.getD t []) := by
  intro k
  induction k with
  | zero =>
    intro _
    exact ⟨x, rest, rfl, List.Perm.refl _, rfl, fun t ht => absurd ht (Nat.not_lt_zero t)⟩
  | succ k ih =>
    intro hk
    obtain ⟨m, r, hfold, hperm, hlen, hb⟩ := ih (Nat.le_of_succ_le hk)
    have hkr : k < r.length := by omega
    rw [List.range'_concat, List.foldl_append, hfold]
    simp only [List.foldl_cons, List.foldl_nil, Nat.one_mul]
    rw [Nat.add_comm 1 k, swapIfLater_zero]
    split
    · rename_i hlt
      refine ⟨r.getD k [], r.set k m, rfl, (swap_perm [] m r k hkr).trans hperm,
        by simp [hlen], ?_⟩
      intro t ht
      by_cases htk : t = k
      · subst htk
        rw [getD_set_self [] m r t hkr]
        exact Nat.le_of_lt hlt
      · rw [getD_set_ne [] m r k t htk]
        exact Nat.le_trans (Nat.le_of_lt hlt) (hb t (by omega))
    · rename_i hnlt
      refine ⟨m, r, rfl, hperm, hlen, ?_⟩
      intro t ht
      by_cases htk : t = k
      · subst htk; exact Nat.le_of_not_lt hnlt
      · exact hb t (by omega)

theorem innerPass_spec (first : GoMap Nat) (x : GoString) (rest : List GoString) :
    ∃ m r, (List.range' 1 rest.length).foldl (fun ks j => swapIfLater first ks 0 j) (x :: rest)
        = m :: r ∧
      (m :: r).Perm (x :: rest) ∧ ∀ y ∈ r, first.getInt m ≤ first.getInt y := by
  obtain ⟨m, r, h1, h2, h3, h4⟩ := innerPass_invariant first x rest rest.length (Nat.le_refl _)
  exact ⟨m, r, h1, h2,
    mem_of_getD_bound [] (fun y => first.getInt m ≤ first.getInt y) r (fun t ht => h4 t (by omega))⟩

theorem foldl_swap_append (first : GoMap Nat) (pre : List GoString) :
    ∀ (js : List Nat) (post : List GoString), (∀ j ∈ js, pre.length < j) →
      js.foldl (fun ks j => swapIfLater first ks pre.length j) (pre ++ post)
        = pre ++ (js.map (fun j => j - pre.length)).foldl
            (fun ks j => swapIfLater first ks 0 j) post := by
  intro js
  induction js with
  | nil => intro post _; rfl
  | cons j js ih =>
    intro post h
    simp only [List.foldl_cons, List.map_cons]
    rw [swapIfLater_append first pre post j (h j (List.mem_cons_self _ _))]
    exact ih _ (fun x hx => h x (List.mem_cons_of_mem _ hx))

/-- The outer loop after `i` rounds: the first `i` keys are in order of
appearance and none of them appeared later than a key behind them. -/
theorem outerLoop_invariant (first : GoMap Nat) (keys : List GoString) :
    ∀ i, i ≤ keys.length - 1 →
      ∃ pre post,
        (List.range i).foldl
          (fun ks i =>
            (List.range' (i + 1) (keys.length - (i + 1))).foldl
              (fun ks j => swapIfLater first ks i j) ks) keys = pre ++ post ∧
        pre.length = i ∧ (pre ++ post).Perm keys ∧
        pre.Pairwise (fun a b => first.getInt a ≤ first.getInt b) ∧
        ∀ a ∈ pre, ∀ b ∈ post, first.getInt a ≤ first.getInt b := by
  intro i
  induction i with
  | zero =>
    intro _
    exact ⟨[], keys, rfl, rfl, List.Perm.refl _, List.Pairwise.nil, by simp⟩
  | succ i ih =>
    intro hi
    obtain ⟨pre, post, hfold, hlen, hperm, hsorted, hle⟩ := ih (by omega)
    have hpl : post.length = keys.length - i := by
      have := hperm.length_eq
      simp only [List.length_append] at this
      omega
    obtain ⟨x, rest, rfl⟩ : ∃ x rest, post = x :: rest := by
      cases post with
      | nil => simp at hpl; omega
      | cons x rest => exact ⟨x, rest, rfl⟩
    have hrl : rest.length = keys.length - (i + 1) := by
      simp only [List.length_cons] at hpl; omega
    obtain ⟨m, r, hpass, hpperm, hmin⟩ := innerPass_spec first x rest
    rw [List.range_succ, List.foldl_append, hfold]
    simp only [List.foldl_cons, List.foldl_nil]
    have hshift := foldl_swap_append first pre (List.range' (i + 1) (keys.length - (i + 1)))
      (x :: rest) (by
        intro j hj
        rw [List.mem_range'_1] at hj
        omega)
    rw [hlen] at hshift
    rw [hshift, List.map_sub_range' i (i + 1) _ (by omega)]
    have e1 : i + 1 - i = 1 := by omega
    rw [e1, ← hrl, hpass]
    refine ⟨pre ++ [m], r, by simp, by simp [hlen], ?_, ?_, ?_⟩
    · have : (pre ++ [m] ++ r) = pre ++ (m :: r) := by simp
      rw [this]
      exact (List.Perm.append_left pre hpperm).trans hperm
    · rw [List.pairwise_append]
      refine ⟨hsorted, List.pairwise_singleton _ _, ?_⟩
      intro a ha b hb
      rw [List.mem_singleton] at hb
      subst hb
      exact hle a ha b (hpperm.subset (List.mem_cons_self _ _))
    · intro a ha b hb
      rcases List.mem_append.1 ha with ha | ha
      · exact hle a ha b (hpperm.subset (List.mem_cons_of_mem _ hb))
      · rw [List.mem_singleton] at ha
        subst ha
        exact hmin b hb

/-- `sortKeysByAppearance` permutes the keys into order of first appearance. -/
theorem sortKeysByAppearance_spec (first : GoMap Nat) (keys : List GoString) :
    (sortKeysByAppearance first keys).Perm keys ∧
    (sortKeysByAppearance first keys).Pairwise
      (fun a b => first.getInt a ≤ first.getInt b) := by
  obtain ⟨pre, post, hfold, hlen, hperm, hsorted, hle⟩ :=
    outerLoop_invariant first keys (keys.length - 1) (Nat.le_refl _)
  unfold sortKeysByAppearance
  rw [hfold]
  refine ⟨hperm, ?_⟩
  rw [List.pairwise_append]
  refine ⟨hsorted, ?_, hle⟩
  have hpl : post.length ≤ 1 := by
    have := hperm.length_eq
    simp only [List.length_append] at this
    omega
  match post, hpl with
  | [], _ => exact List.Pairwise.nil
  | [z], _ => exact List.pairwise_singleton _ _

/-! ## The first pass of `alignGormParts` -/

theorem scanPart_eq (st : GormScan) (part : GoString) :
    scanPart st part
      = if TrimSpace part = [] then st else addScan st (partKey (TrimSpace part)) := by
  unfold scanPart addScan
  rfl

theorem foldl_scanPart (parts : List GoString) (st : GormScan) :
    parts.foldl scanPart st
      = (((parts.map TrimSpace).filter (fun p => decide (p ≠ []))).map partKey).foldl
          addScan st := by
  induction parts generalizing st with
  | nil => rfl
  | cons p ps ih =>
    rw [List.foldl_cons, ih, scanPart_eq, List.map_cons]
    by_cases hp : TrimSpace p = []
    · rw [if_pos hp, List.filter_cons_of_neg (by simp [hp])]
    · rw [if_neg hp, List.filter_cons_of_pos (by simp [hp])]
      rfl

theorem scanFields_eq (parsed : List (Option (List KeyValue))) :
    scanFields parsed = (subKeysInScanOrder parsed).foldl addScan ⟨[], [], 0⟩ := by
  unfold scanFields subKeysInScanOrder
  generalize (⟨[], [], 0⟩ : GormScan) = st
  induction parsed generalizing st with
  | nil => rfl
  | cons okv rest ih =>
    rw [List.foldl_cons, ih, List.map_cons, List.flatten_cons, List.foldl_append]
    congr 1
    cases okv with
    | none => rfl
    | some kvs =>
      simp only [gormClausesOf]
      cases hf : firstGorm kvs with
      | none => rfl
      | some kv => simp only [foldl_scanPart]

theorem getInt_set (m : GoMap Nat) (k k2 : GoString) (v : Nat) :
    (m.set k v).getInt k2 = if k = k2 then v else m.getInt k2 := by
  unfold GoMap.getInt GoMap.get? GoMap.set
  by_cases h : k = k2
  · simp [h]
  · simp [h, List.find?]

/-- The scan state is consistent: the counter is the number of keys and the map
gives every key its position in the list of keys. -/
theorem addScan_invariant (keys : List GoString) :
    ∀ st : GormScan,
      (st.appearanceCounter = st.allGormKeys.length ∧
        ∀ k ∈ st.allGormKeys, st.keyFirstAppearance.getInt k = firstIndex k st.allGormKeys) →
      (keys.foldl addScan st).allGormKeys = keys.foldl addKey st.allGormKeys ∧
      (keys.foldl addScan st).appearanceCounter = (keys.foldl addScan st).allGormKeys.length ∧
      ∀ k ∈ (keys.foldl addScan st).allGormKeys,
        (keys.foldl addScan st).keyFirstAppearance.getInt k
          = firstIndex k (keys.foldl addScan st).allGormKeys := by
  induction keys with
  | nil => intro st h; exact ⟨rfl, h.1, h.2⟩
  | cons key keys ih =>
    intro st h
    simp only [List.foldl_cons]
    have hstep : (addScan st key).allGormKeys = addKey st.allGormKeys key ∧
        (addScan st key).appearanceCounter = (addScan st key).allGormKeys.length ∧
        ∀ k ∈ (addScan st key).allGormKeys,
          (addScan st key).keyFirstAppearance.getInt k
            = firstIndex k (addScan st key).allGormKeys := by
      unfold addScan addKey
      by_cases hk : key ∈ st.allGormKeys
      · simp only [if_pos hk]
        exact ⟨trivial, h.1, h.2⟩
      · simp only [if_neg hk]
        refine ⟨trivial, by simp [h.1], ?_⟩
        intro k hkm
        rw [getInt_set]
        rcases List.mem_append.1 hkm with hkm | hkm
        · have hne : ¬ key = k := fun e => hk (e ▸ hkm)
          rw [if_neg hne, h.2 k hkm, firstIndex_append_of_mem _ hkm]
        · rw [List.mem_singleton] at hkm
          subst hkm
          rw [if_pos rfl, firstIndex_append_of_not_mem _ hk, h.1]
          simp [firstIndex]
    obtain ⟨h1, h2, h3⟩ := ih (addScan st key) ⟨hstep.2.1, hstep.2.2⟩
    exact ⟨by rw [h1, hstep.1], h2, h3⟩

theorem nodup_pairwise_firstIndex :
    ∀ K : List GoString, K.Nodup →
      K.Pairwise (fun a b => firstIndex a K < firstIndex b K) := by
  intro K
  induction K with
  | nil => intro _; exact List.Pairwise.nil
  | cons x l ih =>
    intro h
    rw [List.nodup_cons] at h
    rw [List.pairwise_cons]
    constructor
    · intro b hb
      have hne : ¬ x = b := fun e => h.1 (e ▸ hb)
      simp [firstIndex, hne]
    · refine (ih h.2).imp_of_mem ?_
      intro a b ha hb hab
      have hna : ¬ x = a := fun e => h.1 (e ▸ ha)
      have hnb : ¬ x = b := fun e => h.1 (e ▸ hb)
      simp only [firstIndex, if_neg hna, if_neg hnb]
      omega

/-- What the first pass collects: the sub-keys of the clauses, without
repetition, in order of first appearance, and a map that increases along them. -/
theorem scanFields_spec (parsed : List (Option (List KeyValue))) :
    (scanFields parsed).allGormKeys.Nodup ∧
    (∀ k, k ∈ (scanFields parsed).allGormKeys ↔ k ∈ subKeysInScanOrder parsed) ∧
    (scanFields parsed).allGormKeys.Pairwise (fun a b =>
      firstIndex a (subKeysInScanOrder parsed) < firstIndex b (subKeysInScanOrder parsed)) ∧
    (scanFields parsed).allGormKeys.Pairwise (fun a b =>
      (scanFields parsed).keyFirstAppearance.getInt a
        < (scanFields parsed).keyFirstAppearance.getInt b) := by
  rw [scanFields_eq]
  obtain ⟨h1, _, h3⟩ := addScan_invariant (subKeysInScanOrder parsed) ⟨[], [], 0⟩
    ⟨rfl, by simp⟩
  have hinv := addKey_invariant (subKeysInScanOrder parsed) [] [] (by simp) List.Pairwise.nil
  simp only [List.nil_append] at hinv
  simp only at h1
  rw [h1] at h3 ⊢
  have hnd : (List.foldl addKey [] (subKeysInScanOrder parsed)).Nodup :=
    hinv.2.imp (fun {a b} hab heq => by subst heq; exact Nat.lt_irrefl _ hab)
  refine ⟨hnd, hinv.1, hinv.2, ?_⟩
  refine (nodup_pairwise_firstIndex _ hnd).imp_of_mem ?_
  intro a b ha hb hab
  rw [h3 a ha, h3 b hb]
  exact hab

/-! ## The sub-clause order -/

theorem classifyKeys_foldl (keys : List GoString) (cl : KeyClasses) :
    keys.foldl
      (fun cl key =>
        if key = commentKey then { cl with commentKeys := cl.commentKeys ++ [key] }
        else if key ∈ indexRelatedKeys then { cl with indexKeys := cl.indexKeys ++ [key] }
        else { cl with normalKeys := cl.normalKeys ++ [key] }) cl
      = ⟨cl.normalKeys ++ keys.filter (fun k => decide (classRank k = 0)),
         cl.indexKeys ++ keys.filter (fun k => decide (classRank k = 1)),
         cl.commentKeys ++ keys.filter (fun k => decide (classRank k = 2))⟩ := by
  induction keys generalizing cl with
  | nil => simp
  | cons key keys ih =>
    rw [List.foldl_cons, ih]
    by_cases h1 : key = commentKey
    · simp [classRank, h1]
    · by_cases h2 : key ∈ indexRelatedKeys
      · simp [classRank, h1, h2]
      · simp [classRank, h1, h2]

theorem classifyKeys_eq (keys : List GoString) :
    classifyKeys keys
      = ⟨keys.filter (fun k => decide (classRank k = 0)),
         keys.filter (fun k => decide (classRank k = 1)),
         keys.filter (fun k => decide (classRank k = 2))⟩ := by
  unfold classifyKeys
  rw [classifyKeys_foldl]
  simp

/-- Two enumerations of the same distinct keys, whose appearance indices are
distinct, are sorted to the same list, in strictly increasing order of index. -/
theorem sort_unique (first : GoMap Nat) (l₁ l₂ : List GoString) (hperm : l₁.Perm l₂)
    (hnd : l₁.Nodup)
    (hinj : ∀ a ∈ l₁, ∀ b ∈ l₁, first.getInt a = first.getInt b → a = b) :
    sortKeysByAppearance first l₁ = sortKeysByAppearance first l₂ ∧
    (sortKeysByAppearance first l₁).Pairwise
      (fun a b => first.getInt a < first.getInt b) := by
  have strict : ∀ l : List GoString, l.Perm l₁ →
      (sortKeysByAppearance first l).Pairwise (fun a b => first.getInt a < first.getInt b) := by
    intro l hl
    obtain ⟨hp, hs⟩ := sortKeysByAppearance_spec first l
    have hnd' : (sortKeysByAppearance first l).Nodup := (hp.trans hl).nodup_iff.2 hnd
    refine (hs.and hnd').imp_of_mem ?_
    intro a b ha hb hab
    have ha1 := (hp.trans hl).subset ha
    have hb1 := (hp.trans hl).subset hb
    rcases Nat.lt_or_ge (first.getInt a) (first.getInt b) with h | h
    · exact h
    · exact absurd (hinj a ha1 b hb1 (Nat.le_antisymm hab.1 h)) hab.2
  have s1 := strict l₁ (List.Perm.refl _)
  have s2 := strict l₂ hperm.symm
  refine ⟨?_, s1⟩
  haveI : IsAntisymm GoString (fun a b => first.getInt a < first.getInt b) :=
    ⟨fun a b h1 h2 => absurd h1 (Nat.lt_asymm h2)⟩
  have p1 := (sortKeysByAppearance_spec first l₁).1
  have p2 := (sortKeysByAppearance_spec first l₂).1
  exact List.eq_of_perm_of_sorted (p1.trans (hperm.trans p2.symm)) s1 s2

theorem sort_of_sorted (first : GoMap Nat) (l : List GoString)
    (h : l.Pairwise (fun a b => first.getInt a < first.getInt b)) :
    sortKeysByAppearance first l = l := by
  obtain ⟨hp, hs⟩ := sortKeysByAppearance_spec first l
  have hnd : l.Nodup := h.imp (fun {a b} hab heq => by subst heq; exact Nat.lt_irrefl _ hab)
  have hnd' : (sortKeysByAppearance first l).Nodup := hp.nodup_iff.2 hnd
  have hinj : ∀ a ∈ l, ∀ b ∈ l, a ≠ b → first.getInt a ≠ first.getInt b := by
    intro a ha b hb hab
    have := List.Pairwise.forall (R := fun a b => first.getInt a ≠ first.getInt b)
      (fun _ _ h => h.symm) (h.imp (fun {a b} hab => Nat.ne_of_lt hab)) ha hb hab
    exact this
  have hs' : (sortKeysByAppearance first l).Pairwise
      (fun a b => first.getInt a < first.getInt b) := by
    refine (hs.and hnd').imp_of_mem ?_
    intro a b ha hb hab
    rcases Nat.lt_or_ge (first.getInt a) (first.getInt b) with h1 | h1
    · exact h1
    · exact absurd (Nat.le_antisymm hab.1 h1) (hinj a (hp.subset ha) b (hp.subset hb) hab.2)
  haveI : IsAntisymm GoString (fun a b => first.getInt a < first.getInt b) :=
    ⟨fun a b h1 h2 => absurd h1 (Nat.lt_asymm h2)⟩
  exact List.eq_of_perm_of_sorted hp hs' h

/-- For every enumeration of the collected keys, `orderedGormKeys` is the list of
the keys in insertion order, regrouped by class. -/
theorem orderGormKeys_eq (first : GoMap Nat) (K enum : List GoString)
    (hK : K.Pairwise (fun a b => first.getInt a < first.getInt b)) (henum : enum.Perm K) :
    orderGormKeys first enum
      = K.filter (fun k => decide (classRank k = 0))
        ++ K.filter (fun k => decide (classRank k = 1))
        ++ K.filter (fun k => decide (classRank k = 2)) := by
  have hnd : K.Nodup := hK.imp (fun {a b} hab heq => by subst heq; exact Nat.lt_irrefl _ hab)
  have hinj : ∀ a ∈ K, ∀ b ∈ K, first.getInt a = first.getInt b → a = b := by
    intro a ha b hb hab
    by_contra hne
    exact List.Pairwise.forall (R := fun a b => first.getInt a ≠ first.getInt b)
      (fun _ _ h => h.symm) (hK.imp (fun {a b} hab => Nat.ne_of_lt hab)) ha hb hne hab
  have cls : ∀ c : GoString → Bool,
      sortKeysByAppearance first (enum.filter c) = K.filter c := by
    intro c
    have h1 := (sort_unique first (K.filter c) (enum.filter c) (henum.symm.filter c)
      (hnd.filter c)
      (fun a ha b hb => hinj a (List.mem_of_mem_filter ha) b (List.mem_of_mem_filter hb))).1
    rw [← h1]
    exact sort_of_sorted first _ (hK.sublist (List.filter_sublist K))
  unfold orderGormKeys
  rw [classifyKeys_eq]
  simp only [cls]

/-- The widths do not depend on the order in which the fields of `gormFields` are
visited. -/
theorem keyMaxLengthsOf_perm (order : List GoString)
    (gf₁ gf₂ : List (Option (List GoString))) (h : gf₁.Perm gf₂) :
    keyMaxLengthsOf order gf₁ = keyMaxLengthsOf order gf₂ := by
  unfold keyMaxLengthsOf
  refine List.Perm.foldl_eq' h ?_ _
  intro x _ y _ lens
  cases x with
  | none => rfl
  | some px =>
    cases y with
    | none => rfl
    | some py =>
      simp only
      induction order generalizing lens with
      | nil => rfl
      | cons key order ih =>
        cases lens with
        | nil => rfl
        | cons w lens =>
          simp only [List.zipWith_cons_cons]
          rw [ih lens]
          congr 1
          cases gormTagOf px key <;> cases gormTagOf py key <;>
            (simp only; repeat' split) <;> omega

/-- For every enumeration of `allGormKeys`, `alignGormParts` computes the same
result as for the insertion order. -/
theorem alignGormPartsWith_enum (parsed : List (Option (List KeyValue)))
    (enum : List GoString → List GoString) (henum : ∀ l, (enum l).Perm l) :
    alignGormPartsWith enum parsed = alignGormPartsWith id parsed := by
  have hK := (scanFields_spec parsed).2.2.2
  unfold alignGormPartsWith
  simp only
  have h2 := orderGormKeys_eq _ _ (id (scanFields parsed).allGormKeys) hK (List.Perm.refl _)
  rw [orderGormKeys_eq _ _ _ hK (henum _), h2]

/-- C20. The sub-clause order and the widths do not depend on how Go enumerates
its maps.  Two enumerations of the same distinct sub-keys, under a map of
appearance indices that are distinct on them, are classified and sorted to the
same `orderedGormKeys`, every class in strictly increasing order of index;
`alignGormParts` returns the same result for every enumeration of `allGormKeys`;
and the widths are the same for every order in which the map `gormFields` is
visited. -/
theorem order_independent_of_enumeration (first : GoMap Nat) (e₁ e₂ : List GoString)
    (hperm : e₁.Perm e₂) (hnd : e₁.Nodup)
    (hinj : ∀ a ∈ e₁, ∀ b ∈ e₁, first.getInt a = first.getInt b → a = b) :
    orderGormKeys first e₁ = orderGormKeys first e₂ ∧
    (sortKeysByAppearance first (classifyKeys e₁).normalKeys).Pairwise
      (fun a b => first.getInt a < first.getInt b) ∧
    (sortKeysByAppearance first (classifyKeys e₁).indexKeys).Pairwise
      (fun a b => first.getInt a < first.getInt b) ∧
    (sortKeysByAppearance first (classifyKeys e₁).commentKeys).Pairwise
      (fun a b => first.getInt a < first.getInt b) ∧
    (∀ (parsed : List (Option (List KeyValue))) (enum : List GoString → List GoString),
      (∀ l, (enum l).Perm l) → alignGormPartsWith enum parsed = alignGormPartsWith id parsed) ∧
    (∀ (order : List GoString) (gf₁ gf₂ : List (Option (List GoString))), gf₁.Perm gf₂ →
      keyMaxLengthsOf order gf₁ = keyMaxLengthsOf order gf₂) := by
  have cls : ∀ c : GoString → Bool,
      sortKeysByAppearance first (e₁.filter c) = sortKeysByAppearance first (e₂.filter c) ∧
      (sortKeysByAppearance first (e₁.filter c)).Pairwise
        (fun a b => first.getInt a < first.getInt b) := fun c =>
    sort_unique first (e₁.filter c) (e₂.filter c) (hperm.filter c) (hnd.filter c)
      (fun a ha b hb => hinj a (List.mem_of_mem_filter ha) b (List.mem_of_mem_filter hb))
  refine ⟨?_, ?_, ?_, ?_, alignGormPartsWith_enum, keyMaxLengthsOf_perm⟩
  · unfold orderGormKeys
    rw [classifyKeys_eq, classifyKeys_eq]
    simp only [(cls _).1]
  · rw [classifyKeys_eq]; exact (cls _).2
  · rw [classifyKeys_eq]; exact (cls _).2
  · rw [classifyKeys_eq]; exact (cls _).2

/-- C20 at two enumerations of four sub-keys. -/
theorem order_independent_of_enumeration_witness :
    orderGormKeys [(str "comment", 3), (str "size", 2), (str "index", 1), (str "column", 0)]
        [str "comment", str "size", str "index", str "column"]
      = orderGormKeys [(str "comment", 3), (str "size", 2), (str "index", 1), (str "column", 0)]
        [str "index", str "column", str "comment", str "size"] :=
  (order_independent_of_enumeration
    [(str "comment", 3), (str "size", 2), (str "index", 1), (str "column", 0)]
    [str "comment", str "size", str "index", str "column"]
    [str "index", str "column", str "comment", str "size"]
    (by decide) (by decide) (by decide)).1

theorem classRank_le_two (k : GoString) : classRank k = 0 ∨ classRank k = 1 ∨ classRank k = 2 := by
  unfold classRank
  split
  · exact Or.inr (Or.inr rfl)
  · split
    · exact Or.inr (Or.inl rfl)
    · exact Or.inl rfl

/-- The sub-clause order of `alignGormParts`, for every enumeration of the map. -/
theorem globalGormKeyOrder_eq (parsed : List (Option (List KeyValue)))
    (enum : List GoString → List GoString) (henum : ∀ l, (enum l).Perm l) :
    (alignGormPartsWith enum parsed).globalGormKeyOrder
      = (scanFields parsed).allGormKeys.filter (fun k => decide (classRank k = 0))
        ++ (scanFields parsed).allGormKeys.filter (fun k => decide (classRank k = 1))
        ++ (scanFields parsed).allGormKeys.filter (fun k => decide (classRank k = 2)) := by
  unfold alignGormPartsWith
  simp only
  exact orderGormKeys_eq _ _ _ (scanFields_spec parsed).2.2.2 (henum _)

/-- The sub-clause order holds exactly the collected sub-keys. -/
theorem subClauseOrder_member (parsed : List (Option (List KeyValue)))
    (enum : List GoString → List GoString) (henum : ∀ l, (enum l).Perm l) :
    ∀ k, k ∈ (alignGormPartsWith enum parsed).globalGormKeyOrder
      ↔ k ∈ subKeysInScanOrder parsed := by
  intro k
  rw [globalGormKeyOrder_eq parsed enum henum, ← (scanFields_spec parsed).2.1 k]
  simp only [List.mem_append, List.mem_filter, decide_eq_true_eq]
  constructor
  · rintro ((h | h) | h) <;> exact h.1
  · intro h
    rcases classRank_le_two k with r | r | r
    · exact Or.inl (Or.inl ⟨h, r⟩)
    · exact Or.inl (Or.inr ⟨h, r⟩)
    · exact Or.inr ⟨h, r⟩

/-- The three-class ordering of the collected sub-keys.  For every batch on
which `alignGormParts` returns, and every
enumeration of its map of sub-keys, the sub-clause order holds exactly the
sub-keys of the non-empty trimmed clauses of the first `gorm` entry of each field
that parses, and it is ordered by class (plain, then index-like, then `comment`)
and, inside a class, by first appearance in the scan of the batch; in particular
it has no repetition. -/
theorem subClauseOrder_three_classes (batch : List GoString)
    (parsed : List (Option (List KeyValue))) (enum : List GoString → List GoString)
    (hparsed : parseForGorm batch = Run.ret parsed) (henum : ∀ l, (enum l).Perm l) :
    alignGormParts batch = Run.ret (alignGormPartsWith enum parsed) ∧
    (alignGormPartsWith enum parsed).globalGormKeyOrder.Nodup ∧
    (∀ k, k ∈ (alignGormPartsWith enum parsed).globalGormKeyOrder
      ↔ k ∈ subKeysInScanOrder parsed) ∧
    (alignGormPartsWith enum parsed).globalGormKeyOrder.Pairwise (fun a b =>
      classRank a < classRank b ∨
      (classRank a = classRank b ∧
        firstIndex a (subKeysInScanOrder parsed) < firstIndex b (subKeysInScanOrder parsed))) := by
  obtain ⟨hnd, hmem, hfirst, _⟩ := scanFields_spec parsed
  have hpw : (alignGormPartsWith enum parsed).globalGormKeyOrder.Pairwise (fun a b =>
      classRank a < classRank b ∨
      (classRank a = classRank b ∧
        firstIndex a (subKeysInScanOrder parsed)
          < firstIndex b (subKeysInScanOrder parsed))) := by
    rw [globalGormKeyOrder_eq parsed enum henum]
    have within : ∀ n : Nat,
        ((scanFields parsed).allGormKeys.filter (fun k => decide (classRank k = n))).Pairwise
          (fun a b => classRank a < classRank b ∨
            (classRank a = classRank b ∧
              firstIndex a (subKeysInScanOrder parsed)
                < firstIndex b (subKeysInScanOrder parsed))) := by
      intro n
      refine (hfirst.sublist (List.filter_sublist _)).imp_of_mem ?_
      intro a b ha hb hab
      have ra := (List.mem_filter.1 ha).2
      have rb := (List.mem_filter.1 hb).2
      simp only [decide_eq_true_eq] at ra rb
      exact Or.inr ⟨by rw [ra, rb], hab⟩
    rw [List.pairwise_append, List.pairwise_append]
    refine ⟨⟨within 0, within 1, ?_⟩, within 2, ?_⟩
    · intro a ha b hb
      have ra := (List.mem_filter.1 ha).2
      have rb := (List.mem_filter.1 hb).2
      simp only [decide_eq_true_eq] at ra rb
      exact Or.inl (by rw [ra, rb]; decide)
    · intro a ha b hb
      have rb := (List.mem_filter.1 hb).2
      simp only [decide_eq_true_eq] at rb
      rcases List.mem_append.1 ha with ha | ha
      · have ra := (List.mem_filter.1 ha).2
        simp only [decide_eq_true_eq] at ra
        exact Or.inl (by rw [ra, rb]; decide)
      · have ra := (List.mem_filter.1 ha).2
        simp only [decide_eq_true_eq] at ra
        exact Or.inl (by rw [ra, rb]; decide)
  refine ⟨?_, ?_, ?_, hpw⟩
  · unfold alignGormParts
    rw [hparsed]
    simp only [alignGormPartsWith_enum parsed enum henum]
  · refine hpw.imp ?_
    intro a b hab heq
    subst heq
    rcases hab with h | h
    · exact Nat.lt_irrefl _ h
    · exact Nat.lt_irrefl _ h.2
  · exact subClauseOrder_member parsed enum henum

/-- The three-class ordering at a batch of two fields with all three classes. -/
theorem subClauseOrder_three_classes_witness :
    alignGormParts [str "`gorm:\"comment:c;unique;column:id\"`", str "`gorm:\"index;size:8\"`"]
      = Run.ret (alignGormPartsWith List.reverse
          [some [⟨str "gorm", [BT], str "comment:c;unique;column:id",
              [str "comment:c", str "unique", str "column:id"]⟩],
           some [⟨str "gorm", [BT], str "index;size:8", [str "index", str "size:8"]⟩]]) ∧
    (alignGormPartsWith List.reverse
          [some [⟨str "gorm", [BT], str "comment:c;unique;column:id",
              [str "comment:c", str "unique", str "column:id"]⟩],
           some [⟨str "gorm", [BT], str "index;size:8", [str "index", str "size:8"]⟩]]
        ).globalGormKeyOrder.Nodup :=
  ⟨(subClauseOrder_three_classes
      [str "`gorm:\"comment:c;unique;column:id\"`", str "`gorm:\"index;size:8\"`"] _
      List.reverse (by decide) (fun l => List.reverse_perm l)).1,
   (subClauseOrder_three_classes
      [str "`gorm:\"comment:c;unique;column:id\"`", str "`gorm:\"index;size:8\"`"] _
      List.reverse (by decide) (fun l => List.reverse_perm l)).2.1⟩

/-- C12. A field with two `gorm` entries: the order computed by `alignGormParts`
is `[a]`, while `b` is the sub-key of a clause of a `gorm` value of the batch;
the run rewrites the literal to `gorm:"a"`. -/
theorem second_gorm_entry_not_collected :
    alignGormParts [str "`gorm:\"a\" gorm:\"b\"`"]
      = Run.ret ⟨[some [str "a"]], [1], [str "a"]⟩ ∧
    fieldsTagFormat [str "`gorm:\"a\" gorm:\"b\"`"]
      = ([str "`gorm:\"a\"`"], Run.ret none) ∧
    ParseTag (str "`gorm:\"a\" gorm:\"b\"`")
      = Run.ret ⟨[BT], [⟨str "gorm", [BT], str "a", [str "a"]⟩,
          ⟨str "gorm", [BT], str "b", [str "b"]⟩], none⟩ ∧
    partKey (str "b") ∉ [str "a"] := by
  decide

/-! ## The segments of `alignGormValue` -/

theorem gormSegments_append (tags : GoString → Option GoString) :
    ∀ (pre : List GoString) (lpre : List Nat) (rest : List GoString) (lrest : List Nat),
      lpre.length = pre.length → rest ≠ [] →
      gormSegments tags (pre ++ rest) (lpre ++ lrest)
        = List.zipWith (fun k w => gormSegment tags k w true) pre lpre
          ++ gormSegments tags rest lrest := by
  intro pre
  induction pre with
  | nil =>
    intro lpre rest lrest h _
    have : lpre = [] := List.length_eq_zero.1 h
    subst this
    rfl
  | cons k pre ih =>
    intro lpre rest lrest h hrest
    cases lpre with
    | nil => simp at h
    | cons w lpre =>
      have hne : (pre ++ rest).isEmpty = false := by
        cases pre with
        | nil =>
          cases rest with
          | nil => exact absurd rfl hrest
          | cons _ _ => rfl
        | cons _ _ => rfl
      show gormSegment tags k w (!(pre ++ rest).isEmpty)
          :: gormSegments tags (pre ++ rest) (lpre ++ lrest) = _
      rw [hne, ih lpre rest lrest (by simpa using h) hrest]
      rfl

theorem keyMaxLengthsOf_length (order : List GoString)
    (gormFields : List (Option (List GoString))) :
    (keyMaxLengthsOf order gormFields).length = order.length := by
  unfold keyMaxLengthsOf
  generalize hl : List.replicate order.length 0 = lens
  have h0 : lens.length = order.length := by rw [← hl]; simp
  clear hl
  induction gormFields generalizing lens with
  | nil => exact h0
  | cons oparts rest ih =>
    rw [List.foldl_cons]
    apply ih
    cases oparts with
    | none => exact h0
    | some parts => simp [List.length_zipWith, h0]

/-- The fields of `gormFields` hold the trimmed parts of the first `gorm` entry of
a field that parses. -/
theorem gormFields_parts (parsed : List (Option (List KeyValue)))
    (enum : List GoString → List GoString) (parts : List GoString)
    (h : some parts ∈ (alignGormPartsWith enum parsed).gormFields) :
    ∃ kvs kv, some kvs ∈ parsed ∧ firstGorm kvs = some kv ∧
      parts = kv.GormParts.map TrimSpace := by
  simp only [alignGormPartsWith, gormFieldsOf, List.mem_map] at h
  obtain ⟨okv, hokv, heq⟩ := h
  cases okv with
  | none => simp at heq
  | some kvs =>
    simp only [Option.map_eq_some'] at heq
    obtain ⟨kv, hkv, rfl⟩ := heq
    exact ⟨kvs, kv, hokv, hkv, rfl⟩

theorem map_trimSpace_idem (l : List GoString) :
    (l.map TrimSpace).map TrimSpace = l.map TrimSpace := by
  rw [List.map_map]
  apply List.map_congr_left
  intro p _
  exact trimSpace_idem p

theorem mem_subKeysInScanOrder (parsed : List (Option (List KeyValue)))
    (kvs : List KeyValue) (kv : KeyValue) (c : GoString) (h1 : some kvs ∈ parsed)
    (h2 : firstGorm kvs = some kv) (h3 : c ∈ kv.GormParts.map TrimSpace) (h4 : c ≠ []) :
    partKey c ∈ subKeysInScanOrder parsed := by
  unfold subKeysInScanOrder
  rw [List.mem_flatten]
  refine ⟨(gormClausesOf kvs).map partKey, ?_, ?_⟩
  · rw [List.mem_map]
    exact ⟨some kvs, h1, rfl⟩
  · rw [List.mem_map]
    refine ⟨c, ?_, rfl⟩
    simp only [gormClausesOf, h2]
    rw [List.mem_filter]
    exact ⟨h3, by simpa using h4⟩

theorem gormTagOf_some (parts : List GoString) (key c : GoString) (h1 : c ∈ parts)
    (h2 : c ≠ []) (h3 : partKey c = key) :
    ∃ value, gormTagOf parts key = some value ∧ value ∈ parts ∧ value ≠ [] ∧
      partKey value = key := by
  unfold gormTagOf
  cases hf : parts.reverse.find? (fun p => decide (p ≠ []) && decide (partKey p = key)) with
  | none =>
    rw [List.find?_eq_none] at hf
    have := hf c (List.mem_reverse.2 h1)
    simp [h2, h3] at this
  | some value =>
    have hm := List.mem_reverse.1 (List.mem_of_find?_eq_some hf)
    have hp := List.find?_some hf
    simp only [Bool.and_eq_true, decide_eq_true_eq] at hp
    exact ⟨value, rfl, hm, hp.1, hp.2⟩

/-- Index-like gluing of the clause kept for a sub-key.  Whatever the width of the position and whether or
not it is the last one, the segment that `alignGormValue` emits for an index-like
sub-key the field has is the field's clause for that sub-key followed by `';'`,
with no space in between and no padding after; and for a batch, every index-like
sub-key of a clause of a field of `gormFields` has a position in the sub-clause
order, at which this segment is emitted. -/
theorem index_like_glued (tags : GoString → Option GoString) (key value : GoString)
    (hidx : key ∈ indexRelatedKeys) (htag : tags key = some value) :
    (∀ (width : Nat) (notLast : Bool), gormSegment tags key width notLast = value ++ [SEMI]) ∧
    (∀ (pre post : List GoString) (lpre lpost : List Nat) (w : Nat),
      lpre.length = pre.length →
      gormSegments tags (pre ++ key :: post) (lpre ++ w :: lpost)
        = List.zipWith (fun k w => gormSegment tags k w true) pre lpre
          ++ (value ++ [SEMI]) :: gormSegments tags post lpost) ∧
    (∀ (parsed : List (Option (List KeyValue))) (enum : List GoString → List GoString)
      (parts : List GoString) (c : GoString),
      (∀ l, (enum l).Perm l) →
      some parts ∈ (alignGormPartsWith enum parsed).gormFields →
      c ∈ parts → c ≠ [] → partKey c = key →
      tags = gormTagOf (parts.map TrimSpace) →
      value ∈ parts ∧ partKey value = key ∧
      (alignGormPartsWith enum parsed).keyMaxLengths.length
        = (alignGormPartsWith enum parsed).globalGormKeyOrder.length ∧
      ∃ pre post, (alignGormPartsWith enum parsed).globalGormKeyOrder = pre ++ key :: post) := by
  have hseg : ∀ (width : Nat) (notLast : Bool),
      gormSegment tags key width notLast = value ++ [SEMI] := by
    intro width notLast
    unfold gormSegment
    rw [htag]
    simp only [if_pos hidx]
  refine ⟨hseg, ?_, ?_⟩
  · intro pre post lpre lpost w hlen
    rw [gormSegments_append tags pre lpre (key :: post) (w :: lpost) hlen (by simp)]
    simp only [gormSegments, hseg]
  · intro parsed enum parts c henum hparts hc hne hkey htags
    obtain ⟨kvs, kv, h1, h2, rfl⟩ := gormFields_parts parsed enum parts hparts
    rw [map_trimSpace_idem] at htags
    subst htags
    obtain ⟨v, hv1, hv2, _, hv4⟩ := gormTagOf_some _ key c hc hne hkey
    rw [htag] at hv1
    simp only [Option.some.injEq] at hv1
    subst hv1
    refine ⟨hv2, hv4, ?_, ?_⟩
    · exact keyMaxLengthsOf_length _ _
    · have hmem := mem_subKeysInScanOrder parsed kvs kv c h1 h2 hc hne
      rw [hkey] at hmem
      have := ((subClauseOrder_member parsed enum henum) key).2 hmem
      exact List.append_of_mem this

/-- The gluing at the clause `unique` of a field with the clauses `column:id` and
`unique`. -/
theorem index_like_glued_witness :
    gormSegment (gormTagOf [str "column:id", str "unique"]) (str "unique") 40 true
      = str "unique" ++ [SEMI] :=
  (index_like_glued (gormTagOf [str "column:id", str "unique"]) (str "unique") (str "unique")
    (by decide) (by decide)).1 40 true

theorem trimRightSp_append_spaces (a : GoString) (m : Nat) (c : Nat)
    (h : a.getLast? = some c) (hc : c ≠ SP) : trimRightSp (a ++ spaces m) = a := by
  unfold trimRightSp spaces
  rw [List.reverse_append, List.reverse_replicate, List.dropWhile_append]
  have h1 : List.dropWhile isSP (List.replicate m SP) = [] := by
    rw [List.dropWhile_eq_nil_iff]
    intro x hx
    rw [List.eq_of_mem_replicate hx]
    decide
  rw [h1]
  simp only [List.isEmpty_nil, if_true]
  have hh : a.reverse.head? = some c := by rw [List.head?_reverse]; exact h
  cases hr : a.reverse with
  | nil => rw [hr] at hh; simp at hh
  | cons x t =>
    rw [hr] at hh
    simp only [List.head?_cons, Option.some.injEq] at hh
    subst hh
    rw [List.dropWhile_cons_of_neg (by simp [isSP, hc]), ← hr, List.reverse_reverse]

theorem joinSp_append_cons (A : List GoString) (s : GoString) (B : List GoString) :
    joinSp (A ++ s :: B) = (A.map (fun a => a ++ [SP])).flatten ++ joinSp (s :: B) := by
  induction A with
  | nil => rfl
  | cons a A ih =>
    obtain ⟨x, l, hx⟩ : ∃ x l, A ++ s :: B = x :: l := by
      cases A with
      | nil => exact ⟨s, B, rfl⟩
      | cons y A => exact ⟨y, A ++ s :: B, rfl⟩
    show joinSp (a :: (A ++ s :: B)) = _
    rw [hx, joinSp, ← hx, ih]
    simp

theorem joinSp_blanks (B : List GoString) (hB : ∀ b ∈ B, ∃ n, b = spaces n) :
    ∀ s : GoString, ∃ n, joinSp (s :: B) = s ++ spaces n := by
  induction B with
  | nil => intro s; exact ⟨0, by simp [joinSp, spaces]⟩
  | cons b B ih =>
    intro s
    obtain ⟨m, rfl⟩ := hB b (List.mem_cons_self _ _)
    obtain ⟨n, hn⟩ := ih (fun x hx => hB x (List.mem_cons_of_mem _ hx)) (spaces m)
    refine ⟨1 + m + n, ?_⟩
    rw [joinSp, hn, ← spaces_add, ← spaces_add]
    simp [spaces]

theorem gormSegments_blank (tags : GoString → Option GoString) :
    ∀ (post : List GoString) (lpost : List Nat), (∀ k ∈ post, tags k = none) →
      ∀ seg ∈ gormSegments tags post lpost, ∃ n, seg = spaces n := by
  intro post
  induction post with
  | nil => intro lpost _ seg hseg; simp [gormSegments] at hseg
  | cons k post ih =>
    intro lpost h seg hseg
    cases lpost with
    | nil => simp [gormSegments] at hseg
    | cons w lpost =>
      simp only [gormSegments, List.mem_cons] at hseg
      rcases hseg with rfl | hseg
      · unfold gormSegment
        rw [h k (List.mem_cons_self _ _)]
        simp only
        split
        · exact ⟨_, rfl⟩
        · split <;> exact ⟨_, rfl⟩
      · exact ih lpost (fun x hx => h x (List.mem_cons_of_mem _ hx)) seg hseg

theorem gormSegment_present (tags : GoString → Option GoString) (key value : GoString)
    (w : Nat) (h : tags key = some value) :
    ∃ m, gormSegment tags key w true = value ++ [SEMI] ++ spaces m := by
  unfold gormSegment
  rw [h]
  simp only
  split
  · exact ⟨0, by simp [spaces]⟩
  · simp only [if_true]
    split
    · exact ⟨_, rfl⟩
    · exact ⟨0, by simp [spaces]⟩

theorem getLast?_alignGormValue (order parts : List GoString) (lens : List Nat) :
    (alignGormValue order parts lens).getLast? ≠ some SP := by
  unfold alignGormValue
  split
  · simp
  · exact getLast?_trimRightSp _

/-- C16. Trailing reserved blanks are trimmed: an aligned `gorm` value never ends
with a space; and when the last sub-key the field has is not at the last position
of the order, the aligned value ends with the field's clause for that sub-key
followed by `';'`. -/
theorem gorm_value_trailing_trimmed (order parts : List GoString) (lens : List Nat) :
    (alignGormValue order parts lens).getLast? ≠ some SP ∧
    ∀ (pre : List GoString) (key : GoString) (post : List GoString) (lpre : List Nat)
      (w : Nat) (lpost : List Nat) (value : GoString),
      order = pre ++ key :: post → post ≠ [] → lens = lpre ++ w :: lpost →
      lpre.length = pre.length →
      gormTagOf (parts.map TrimSpace) key = some value →
      (∀ k ∈ post, gormTagOf (parts.map TrimSpace) k = none) →
      (value ++ [SEMI]) <:+ alignGormValue order parts lens := by
  refine ⟨getLast?_alignGormValue order parts lens, ?_⟩
  intro pre key post lpre w lpost value horder hpost hlens hlen htag hnone
  subst horder hlens
  have hparts : ¬ parts.length = 0 := by
    intro h0
    have : parts = [] := List.length_eq_zero.1 h0
    subst this
    simp [gormTagOf] at htag
  unfold alignGormValue
  rw [if_neg hparts,
    gormSegments_append _ pre lpre (key :: post) (w :: lpost) hlen (by simp)]
  have hne : (!post.isEmpty) = true := by
    cases post with
    | nil => exact absurd rfl hpost
    | cons _ _ => rfl
  obtain ⟨m, hm⟩ := gormSegment_present _ key value w htag
  obtain ⟨n, hn⟩ := joinSp_blanks (gormSegments (gormTagOf (parts.map TrimSpace)) post lpost)
    (gormSegments_blank _ post lpost hnone) (value ++ [SEMI] ++ spaces m)
  simp only [gormSegments, hne, hm]
  rw [joinSp_append_cons, hn]
  have e : (List.map (fun a => a ++ [SP])
        (List.zipWith (fun k w => gormSegment (gormTagOf (parts.map TrimSpace)) k w true)
          pre lpre)).flatten ++ (value ++ [SEMI] ++ spaces m ++ spaces n)
      = ((List.map (fun a => a ++ [SP])
        (List.zipWith (fun k w => gormSegment (gormTagOf (parts.map TrimSpace)) k w true)
          pre lpre)).flatten ++ (value ++ [SEMI])) ++ spaces (m + n) := by
    rw [← spaces_add]
    simp only [List.append_assoc]
  rw [e, trimRightSp_append_spaces _ _ SEMI
    (by rw [← List.append_assoc]; exact List.getLast?_concat _) (by decide)]
  exact List.suffix_append _ _

/-- C16 at Scenario C of the specification: the order is `[column, unique]`, the
first field renders as `column:id;   unique;` and the second as `column:name;`. -/
theorem gorm_value_trailing_trimmed_witness :
    alignGormParts [str "`gorm:\"column:id;unique\"`", str "`gorm:\"column:name\"`"]
      = Run.ret ⟨[some [str "column:id", str "unique"], some [str "column:name"]], [11, 6],
          [str "column", str "unique"]⟩ ∧
    alignGormValue [str "column", str "unique"] [str "column:id", str "unique"] [11, 6]
      = str "column:id;   unique;" ∧
    alignGormValue [str "column", str "unique"] [str "column:name"] [11, 6]
      = str "column:name;" ∧
    (str "column:name" ++ [SEMI])
      <:+ alignGormValue [str "column", str "unique"] [str "column:name"] [11, 6] :=
  ⟨by decide, by decide, by decide,
   (gorm_value_trailing_trimmed [str "column", str "unique"] [str "column:name"] [11, 6]).2
     [] (str "column") [str "unique"] [] 11 [6] (str "column:name") rfl (by decide) rfl rfl
     (by decide) (by decide)⟩

/-! ## The entries of a rendered field -/

theorem segmentOf_value {L : Layout} (hL : GormClean L.gorm) {q : GoString} {kv : KeyValue}
    (hkv : WellParsed q kv) {i : Nat} {seg : GoString} (h : segmentOf L i kv = Run.ret seg) :
    ∃ v, DQ ∉ v ∧ seg = segText q kv.Key v ∧ (kv.Key ≠ gormKey → v = kv.Value) := by
  obtain ⟨hq, _, _, hv, _⟩ := hkv
  unfold segmentOf at h
  split at h
  · rename_i hg
    split at h
    · rename_i parts hparts
      refine ⟨_, ?_, hq ▸ stringWithGormAlign_text h, fun hne => absurd hg.1 hne⟩
      exact dq_not_mem_alignGormValue _ _ _ (hL parts (getD_mem _ _ _ hparts))
    · exact ⟨kv.Value, hv, hq ▸ string_text h, fun _ => rfl⟩
  · exact ⟨kv.Value, hv, hq ▸ string_text h, fun _ => rfl⟩

theorem items_of_segments_gen (q : GoString) (P : GoString → GoString → Prop) :
    ∀ (ks : List GoString) (segs : List (GoString × Nat)),
      List.Forall₂ (fun key sp => ∃ v, P key v ∧ sp.1 = segText q key v) ks segs →
      ∀ n0 : Nat, ∃ items : List (Nat × GoString × GoString),
        items.map (fun it => it.2.1) = ks ∧
        (∀ it ∈ items, P it.2.1 it.2.2) ∧
        shiftPads n0 segs = items.map (fun it => (it.1, segText q it.2.1 it.2.2)) := by
  intro ks
  induction ks with
  | nil =>
    intro segs h n0
    cases h
    exact ⟨[], rfl, by simp, rfl⟩
  | cons key ks ih =>
    intro segs h n0
    cases h with
    | cons hhead hrest =>
      rename_i sp segs'
      obtain ⟨v, hv, hs⟩ := hhead
      obtain ⟨seg, p⟩ := sp
      obtain ⟨items, h1, h2, h3⟩ := ih segs' hrest p
      refine ⟨(n0, key, v) :: items, by simp [h1], ?_, ?_⟩
      · intro it hit
        rcases List.mem_cons.1 hit with rfl | hit
        · exact hv
        · exact h2 it hit
      · simp only at hs
        simp only [shiftPads, List.map_cons, h3, hs]

/-- The text of one rendered field, with the values of its segments: the value
of the field's last entry of the key, unless the key is `gorm`. -/
theorem renderField_values {L : Layout} (hL : GormClean L.gorm) {i : Nat} {q : GoString}
    {kvs : List KeyValue} (hkvs : ∀ kv ∈ kvs, WellParsed q kv) {o : GoString}
    (h : renderField L i q kvs = Run.ret o) :
    ∃ items : List (Nat × GoString × GoString),
      items.map (fun it => it.2.1)
        = L.orderedKeys.filter (fun k => decide (k ∈ kvs.map KeyValue.Key)) ∧
      (∀ it ∈ items, ValidPair it.2.1 it.2.2 ∧
        ∃ kv, currentTags kvs it.2.1 = some kv ∧ (it.2.1 ≠ gormKey → it.2.2 = kv.Value)) ∧
      o = q ++ rowOf (items.map (fun it => (it.1, segText q it.2.1 it.2.2))) ++ q := by
  obtain ⟨parts, hparts, rfl⟩ := renderField_ok h
  obtain ⟨n0, segs, hj, hf⟩ := alignedPartsOf_row L i (currentTags kvs) L.orderedKeys parts hparts
  have hfilter : L.orderedKeys.filter (fun k => (currentTags kvs k).isSome)
      = L.orderedKeys.filter (fun k => decide (k ∈ kvs.map KeyValue.Key)) := by
    apply List.filter_congr
    intro k _
    exact currentTags_isSome kvs k
  rw [hfilter] at hf
  have hf2 : List.Forall₂
      (fun key sp => ∃ v, (ValidPair key v ∧
          ∃ kv, currentTags kvs key = some kv ∧ (key ≠ gormKey → v = kv.Value)) ∧
        sp.1 = segText q key v)
      (L.orderedKeys.filter (fun k => decide (k ∈ kvs.map KeyValue.Key))) segs := by
    refine hf.imp ?_
    rintro key sp ⟨kv, hkv, hseg⟩
    obtain ⟨hmem, hkey⟩ := currentTags_mem hkv
    have hw := hkvs kv hmem
    obtain ⟨v, hv, hs, hval⟩ := segmentOf_value hL hw hseg
    subst hkey
    exact ⟨v, ⟨⟨hw.2.1, hw.2.2.1, hv⟩, kv, hkv, hval⟩, hs⟩
  obtain ⟨items, h1, h2, h3⟩ := items_of_segments_gen q _ _ segs hf2 n0
  refine ⟨items, h1, h2, ?_⟩
  rw [hj, trimRightSp_row segs n0, h3]
  intro sp hsp
  obtain ⟨k, _, v, _, hs⟩ := forall₂_mem_right hf2 sp hsp
  rw [hs]
  exact segText_last _ _ _

/-- A row of backtick segments between two bytes parses to its keys and values. -/
theorem parseTag_items_values (a z : Nat) (items : List (Nat × GoString × GoString))
    (hv : ∀ it ∈ items, ValidPair it.2.1 it.2.2) :
    ∃ kvs, ParseTag ([a] ++ rowOf (items.map (fun it => (it.1, segText [BT] it.2.1 it.2.2)))
          ++ [z]) = Run.ret ⟨[a], kvs, none⟩ ∧
      kvs.map (fun kv => (kv.Key, kv.Value)) = items.map (fun it => (it.2.1, it.2.2)) := by
  have hcells : items.map (fun it => (it.1, segText [BT] it.2.1 it.2.2))
      = (items.map (fun it => ((it.1, false, it.2.1, it.2.2) : RowItem))).map RowItem.cell := by
    rw [List.map_map]
    apply List.map_congr_left
    intro it _
    simp [RowItem.cell, segText_backtick]
  refine ⟨(items.map (fun it => ((it.1, false, it.2.1, it.2.2) : RowItem))).map
    (RowItem.entry [a]), ?_, ?_⟩
  · have := parseTag_wrap a z (rowOf (items.map (fun it => (it.1, segText [BT] it.2.1 it.2.2))))
    have e : [a] ++ rowOf (items.map (fun it => (it.1, segText [BT] it.2.1 it.2.2))) ++ [z]
        = a :: (rowOf (items.map (fun it => (it.1, segText [BT] it.2.1 it.2.2))) ++ [z]) := by
      simp
    rw [e, this, hcells]
    refine parseLoop_row_all [a] _ ?_ _ (by omega)
    intro it hit
    rw [List.mem_map] at hit
    obtain ⟨it0, h0, rfl⟩ := hit
    exact hv it0 h0
  · simp [List.map_map, Function.comp_def, RowItem.entry, parseGormParts_key,
      parseGormParts_value]

theorem keys_subset_keyOrder (batch : List GoString) (lit : GoString) (hlit : lit ∈ batch)
    (k : GoString) (hk : k ∈ (entriesOf lit).map KeyValue.Key) : k ∈ keyOrderOf batch := by
  have := (collectKeys_spec (batch.map entriesOf)).2.1 k
  unfold keyOrderOf
  rw [this, List.mem_map]
  rw [List.mem_map] at hk
  obtain ⟨kv, hkv, rfl⟩ := hk
  refine ⟨kv, ?_, rfl⟩
  rw [List.mem_flatten]
  exact ⟨entriesOf lit, List.mem_map.2 ⟨lit, hlit, rfl⟩, hkv⟩

/-- Entries of fields without a repeated key are preserved.  For a batch on
which `fieldsTagFormat` returns `nil` and a field with a backtick literal in
which no key occurs twice: `ParseTag` accepts the output literal; its entries
have exactly the keys of the input entries, each once; every input entry with a
key other than `gorm` is an output entry with the same value; and every output
entry has the key of an input entry and, unless the key is `gorm`, its value. -/
theorem align_preserves_entries (batch out : List GoString)
    (h : fieldsTagFormat batch = (out, Run.ret none)) :
    ∀ p ∈ batch.zip out, p.1.take 1 = [BT] → ((entriesOf p.1).map KeyValue.Key).Nodup →
      ∃ kvs, ParseTag p.2 = Run.ret ⟨[BT], kvs, none⟩ ∧
        (kvs.map KeyValue.Key).Perm ((entriesOf p.1).map KeyValue.Key) ∧
        (∀ kv ∈ entriesOf p.1, kv.Key ≠ gormKey →
          ∃ kv2 ∈ kvs, kv2.Key = kv.Key ∧ kv2.Value = kv.Value) ∧
        (∀ kv2 ∈ kvs, ∃ kv ∈ entriesOf p.1, kv.Key = kv2.Key ∧
          (kv2.Key ≠ gormKey → kv2.Value = kv.Value)) := by
  intro p hpz hbt hnd
  obtain ⟨fieldTags, L, hp, hl, hr⟩ := fieldsTagFormat_ok h
  have hft := parsedAs_entries batch fieldTags (parseFields_ok batch fieldTags hp)
  obtain ⟨hkeys, hclean⟩ := layoutOf_spec hl
  have hko : L.orderedKeys = keyOrderOf batch := by rw [hkeys, hft]; rfl
  obtain ⟨j, r, hpr, he, hrf⟩ := rendered_zip L batch 0 out hr p hpz
  obtain ⟨_, hq, hwp⟩ := parseTag_ok hpr he
  have hent : entriesOf p.1 = r.keyValues := by simp only [entriesOf, hpr]
  obtain ⟨items, h1, h2, h3⟩ := renderField_values hclean hwp hrf
  rw [hko, ← hent] at h1
  rw [hq, hbt] at h3
  obtain ⟨kvs, hk1, hk2⟩ := parseTag_items_values BT BT items (fun it hit => (h2 it hit).1)
  rw [← h3] at hk1
  have hlit : p.1 ∈ batch := (List.of_mem_zip (a := p.1) (b := p.2) hpz).1
  have hkeysEq : kvs.map KeyValue.Key = items.map (fun it => it.2.1) := by
    have := congrArg (List.map Prod.fst) hk2
    simpa [List.map_map, Function.comp_def] using this
  have hcorr : ∀ kv2 ∈ kvs, ∃ it ∈ items, it.2.1 = kv2.Key ∧ it.2.2 = kv2.Value := by
    intro kv2 hkv2
    have : (kv2.Key, kv2.Value) ∈ kvs.map (fun kv => (kv.Key, kv.Value)) :=
      List.mem_map.2 ⟨kv2, hkv2, rfl⟩
    rw [hk2, List.mem_map] at this
    obtain ⟨it, hit, heq⟩ := this
    simp only [Prod.mk.injEq] at heq
    exact ⟨it, hit, heq.1, heq.2⟩
  have hcorr2 : ∀ it ∈ items, ∃ kv2 ∈ kvs, kv2.Key = it.2.1 ∧ kv2.Value = it.2.2 := by
    intro it hit
    have : (it.2.1, it.2.2) ∈ items.map (fun it => (it.2.1, it.2.2)) :=
      List.mem_map.2 ⟨it, hit, rfl⟩
    rw [← hk2, List.mem_map] at this
    obtain ⟨kv2, hkv2, heq⟩ := this
    simp only [Prod.mk.injEq] at heq
    exact ⟨kv2, hkv2, heq.1, heq.2⟩
  have hmemKeys : ∀ k, k ∈ items.map (fun it => it.2.1)
      ↔ k ∈ (entriesOf p.1).map KeyValue.Key := by
    intro k
    rw [h1, List.mem_filter]
    simp only [decide_eq_true_eq]
    exact ⟨fun hh => hh.2, fun hh => ⟨keys_subset_keyOrder batch p.1 hlit k hh, hh⟩⟩
  refine ⟨kvs, hk1, ?_, ?_, ?_⟩
  · rw [hkeysEq]
    refine (List.perm_ext_iff_of_nodup ?_ hnd).2 hmemKeys
    rw [h1]
    exact ((collectKeys_spec (batch.map entriesOf)).1).filter _
  · intro kv hkv hne
    have hk : kv.Key ∈ items.map (fun it => it.2.1) :=
      (hmemKeys kv.Key).2 (List.mem_map.2 ⟨kv, hkv, rfl⟩)
    rw [List.mem_map] at hk
    obtain ⟨it, hit, hitk⟩ := hk
    obtain ⟨_, kv0, hkv0, hval⟩ := h2 it hit
    obtain ⟨hm0, hk0⟩ := currentTags_mem hkv0
    rw [← hent] at hm0
    have heq : kv0 = kv := List.inj_on_of_nodup_map hnd hm0 hkv (hk0.trans hitk)
    obtain ⟨kv2, hkv2, e1, e2⟩ := hcorr2 it hit
    refine ⟨kv2, hkv2, e1.trans hitk, ?_⟩
    rw [e2, hval (by rw [hitk]; exact hne), heq]
  · intro kv2 hkv2
    obtain ⟨it, hit, e1, e2⟩ := hcorr kv2 hkv2
    obtain ⟨_, kv0, hkv0, hval⟩ := h2 it hit
    obtain ⟨hm0, hk0⟩ := currentTags_mem hkv0
    rw [← hent] at hm0
    refine ⟨kv0, hm0, hk0.trans e1, ?_⟩
    intro hne
    rw [← e2, hval (by rw [e1]; exact hne)]

/-- The preservation of entries at a batch of two fields, for the field whose keys are
reordered. -/
theorem align_preserves_entries_witness :
    ∃ kvs, ParseTag (str "`b:\"5\" a:\"3\" c:\"4\"`") = Run.ret ⟨[BT], kvs, none⟩ ∧
      (kvs.map KeyValue.Key).Perm ((entriesOf (str "`a:\"3\" c:\"4\" b:\"5\"`")).map KeyValue.Key) ∧
      (∀ kv ∈ entriesOf (str "`a:\"3\" c:\"4\" b:\"5\"`"), kv.Key ≠ gormKey →
        ∃ kv2 ∈ kvs, kv2.Key = kv.Key ∧ kv2.Value = kv.Value) ∧
      (∀ kv2 ∈ kvs, ∃ kv ∈ entriesOf (str "`a:\"3\" c:\"4\" b:\"5\"`"), kv.Key = kv2.Key ∧
        (kv2.Key ≠ gormKey → kv2.Value = kv.Value)) :=
  align_preserves_entries
    [str "`b:\"1\" a:\"2\"`", str "`a:\"3\" c:\"4\" b:\"5\"`"]
    [str "`b:\"1\" a:\"2\"`", str "`b:\"5\" a:\"3\" c:\"4\"`"]
    (by decide) (str "`a:\"3\" c:\"4\" b:\"5\"`", str "`b:\"5\" a:\"3\" c:\"4\"`") (by decide)
    (by decide) (by decide)

/-! ## Offsets of the clauses in an aligned `gorm` value -/

theorem keyMaxLengths_fold (order : List GoString) (fields : List (Option (List GoString))) :
    ∀ g : GoString → Nat,
      fields.foldl
        (fun lens oparts =>
          match oparts with
          | none => lens
          | some parts =>
            List.zipWith
              (fun key cur =>
                match gormTagOf parts key with
                | some value => if cur < value.length then value.length else cur
                | none => cur)
              order lens)
        (order.map g)
        = order.map (fun k => fields.foldl (widthStep k) (g k)) := by
  induction fields with
  | nil => intro g; rfl
  | cons o fields ih =>
    intro g
    simp only [List.foldl_cons]
    cases o with
    | none => exact ih g
    | some parts =>
      simp only
      rw [List.zipWith_map_right, List.zipWith_same]
      exact ih (fun k => widthStep k (g k) (some parts))

theorem keyMaxLengthsOf_eq_map (order : List GoString)
    (fields : List (Option (List GoString))) :
    keyMaxLengthsOf order fields = order.map (fun k => fields.foldl (widthStep k) 0) := by
  unfold keyMaxLengthsOf
  have : List.replicate order.length 0 = order.map (fun _ => 0) := by
    rw [List.map_const']
  rw [this]
  exact keyMaxLengths_fold order fields (fun _ => 0)

theorem widthStep_ge (k : GoString) (cur : Nat) (o : Option (List GoString)) :
    cur ≤ widthStep k cur o := by
  unfold widthStep
  cases o with
  | none => exact Nat.le_refl _
  | some parts =>
    simp only
    cases gormTagOf parts k with
    | none => exact Nat.le_refl _
    | some v =>
      simp only
      split <;> omega

theorem foldl_widthStep_ge (k : GoString) (fields : List (Option (List GoString))) :
    ∀ cur, cur ≤ fields.foldl (widthStep k) cur := by
  induction fields with
  | nil => intro cur; exact Nat.le_refl _
  | cons o fields ih =>
    intro cur
    exact Nat.le_trans (widthStep_ge k cur o) (ih _)

theorem foldl_widthStep_mem (k : GoString) (parts : List GoString) (v : GoString)
    (hv : gormTagOf parts k = some v) (fields : List (Option (List GoString)))
    (h : some parts ∈ fields) : ∀ cur, v.length ≤ fields.foldl (widthStep k) cur := by
  induction fields with
  | nil => simp at h
  | cons o fields ih =>
    intro cur
    rcases List.mem_cons.1 h with rfl | h
    · refine Nat.le_trans ?_ (foldl_widthStep_ge k fields _)
      simp only [widthStep, hv]
      split <;> omega
    · exact ih h _

theorem gormSegment_length (tags : GoString → Option GoString) (key : GoString) (w : Nat)
    (hidx : key ∈ indexRelatedKeys → tags key = none)
    (hw : ∀ v, tags key = some v → v.length ≤ w) :
    (gormSegment tags key w true).length = w + 1 := by
  unfold gormSegment
  cases ht : tags key with
  | none =>
    simp only
    split <;> simp [spaces]
  | some v =>
    have hni : key ∉ indexRelatedKeys := fun hi => by
      rw [hidx hi] at ht
      exact Option.noConfusion ht
    have := hw v ht
    simp only [if_neg hni, if_true]
    split
    · simp [spaces]; omega
    · simp; omega

theorem head_length (tags : GoString → Option GoString) :
    ∀ (pre : List GoString) (lpre : List Nat),
      List.Forall₂ (fun k w => (k ∈ indexRelatedKeys → tags k = none) ∧
        ∀ v, tags k = some v → v.length ≤ w) pre lpre →
      ((List.zipWith (fun k w => gormSegment tags k w true) pre lpre).map
        (fun a => a ++ [SP])).flatten.length = lpre.sum + 2 * pre.length := by
  intro pre lpre h
  induction h with
  | nil => rfl
  | @cons k w pre lpre hkw _ ih =>
    simp only [List.zipWith_cons_cons, List.map_cons, List.flatten_cons, List.length_append,
      List.length_cons, List.length_nil, List.sum_cons, ih,
      gormSegment_length tags k w hkw.1 hkw.2]
    omega

theorem runeCountFuel_ascii : ∀ (n : Nat) (s : GoString), s.length ≤ n →
    (∀ c ∈ s, c < 0x80) → runeCountFuel n s = s.length := by
  intro n
  induction n with
  | zero =>
    intro s hs _
    have : s = [] := List.length_eq_zero.1 (Nat.le_zero.1 hs)
    subst this
    rfl
  | succ n ih =>
    intro s hs hc
    cases s with
    | nil => rfl
    | cons c t =>
      have h1 : c < 0x80 := hc c (List.mem_cons_self _ _)
      have hw : runeWidth (c :: t) = 1 := by simp [runeWidth, h1]
      simp only [runeCountFuel, hw, List.drop_succ_cons, List.drop_zero, List.length_cons]
      rw [ih t (by simpa using hs) (fun x hx => hc x (List.mem_cons_of_mem _ hx))]
      omega

theorem runeCount_ascii (s : GoString) (h : ∀ c ∈ s, c < 0x80) :
    RuneCountInString s = s.length :=
  runeCountFuel_ascii s.length s (Nat.le_refl _) h

theorem dropWhile_keep (c : Nat) (hc : c ≠ SP) (y : GoString) (hy : y.head? = some c) :
    ∀ x : GoString, ∃ t, List.dropWhile isSP (x ++ y) = t ++ y := by
  intro x
  induction x with
  | nil =>
    refine ⟨[], ?_⟩
    cases y with
    | nil => simp at hy
    | cons d y =>
      simp only [List.head?_cons, Option.some.injEq] at hy
      subst hy
      simp [List.dropWhile, isSP, hc]
  | cons a x ih =>
    by_cases ha : isSP a = true
    · obtain ⟨t, ht⟩ := ih
      exact ⟨t, by rw [List.cons_append, List.dropWhile_cons_of_pos ha, ht]⟩
    · exact ⟨a :: x, by rw [List.cons_append, List.dropWhile_cons_of_neg ha]⟩

theorem trimRightSp_keep (a : GoString) (c : Nat) (h : a.getLast? = some c) (hc : c ≠ SP)
    (r : GoString) : ∃ t, trimRightSp (a ++ r) = a ++ t := by
  have hh : a.reverse.head? = some c := by rw [List.head?_reverse]; exact h
  obtain ⟨t, ht⟩ := dropWhile_keep c hc a.reverse hh r.reverse
  refine ⟨t.reverse, ?_⟩
  unfold trimRightSp
  rw [List.reverse_append, ht, List.reverse_append, List.reverse_reverse]

theorem getLast?_trimSpace (s : GoString) : (TrimSpace s).getLast? ≠ some SP := by
  have h := (trimSpace_trimmed s).2
  rw [← List.head?_reverse]
  cases hr : (TrimSpace s).reverse with
  | nil => simp
  | cons c t =>
    rw [hr] at h
    intro hc
    simp only [List.head?_cons, Option.some.injEq] at hc
    subst hc
    simp [spaceRuneWidthRev, SP] at h

theorem gormSegment_ascii (parts : List GoString) (hascii : ∀ c ∈ parts, ∀ b ∈ c, b < 0x80)
    (key : GoString) (w : Nat) (notLast : Bool) :
    ∀ b ∈ gormSegment (gormTagOf parts) key w notLast, b < 0x80 := by
  intro b hb
  rcases mem_gormSegment hb with h | h | ⟨v, hv, hbv⟩
  · rw [h]; decide
  · rw [h]; decide
  · exact hascii v (gormTagOf_mem hv) b hbv

theorem keyMaxLengths_bound (parsed : List (Option (List KeyValue)))
    (enum : List GoString → List GoString) (parts : List GoString)
    (hparts : some parts ∈ (alignGormPartsWith enum parsed).gormFields)
    (pre rest : List GoString) (lpre lrest : List Nat)
    (horder : (alignGormPartsWith enum parsed).globalGormKeyOrder = pre ++ rest)
    (hlens : (alignGormPartsWith enum parsed).keyMaxLengths = lpre ++ lrest)
    (hlen : lpre.length = pre.length) :
    List.Forall₂ (fun k w => ∀ v, gormTagOf parts k = some v → v.length ≤ w) pre lpre := by
  have hk : (alignGormPartsWith enum parsed).keyMaxLengths
      = keyMaxLengthsOf (alignGormPartsWith enum parsed).globalGormKeyOrder
          (alignGormPartsWith enum parsed).gormFields := rfl
  rw [hk, keyMaxLengthsOf_eq_map, horder, List.map_append] at hlens
  have hl : lpre = pre.map
      (fun k => (alignGormPartsWith enum parsed).gormFields.foldl (widthStep k) 0) :=
    (List.append_inj_left hlens (by rw [List.length_map, hlen])).symm
  rw [hl, List.forall₂_map_right_iff, List.forall₂_same]
  intro k _ v hv
  exact foldl_widthStep_mem k parts v hv _ hparts 0

theorem forall₂_mem_left {α β : Type} {R : α → β → Prop} {l₁ : List α} {l₂ : List β}
    (h : List.Forall₂ R l₁ l₂) : List.Forall₂ (fun a b => a ∈ l₁ ∧ R a b) l₁ l₂ := by
  induction h with
  | nil => exact List.Forall₂.nil
  | cons hab _ ih =>
    exact List.Forall₂.cons ⟨List.mem_cons_self _ _, hab⟩
      (ih.imp (fun _ _ h => ⟨List.mem_cons_of_mem _ h.1, h.2⟩))

theorem forall₂_zip_mem {α β : Type} {R : α → β → Prop} {l₁ : List α} {l₂ : List β}
    (h : List.Forall₂ R l₁ l₂) : ∀ p ∈ l₁.zip l₂, R p.1 p.2 := by
  induction h with
  | nil => intro p hp; simp at hp
  | cons hab _ ih =>
    intro p hp
    simp only [List.zip_cons_cons, List.mem_cons] at hp
    rcases hp with rfl | hp
    · exact hab
    · exact ih p hp

theorem mem_zipWith_exists {α β γ : Type} {f : α → β → γ} {l₁ : List α} {l₂ : List β}
    {c : γ} (h : c ∈ List.zipWith f l₁ l₂) : ∃ p : α × β, p ∈ l₁.zip l₂ ∧ f p.1 p.2 = c := by
  induction l₁ generalizing l₂ with
  | nil => simp at h
  | cons a l₁ ih =>
    cases l₂ with
    | nil => simp at h
    | cons b l₂ =>
      simp only [List.zipWith_cons_cons, List.mem_cons] at h
      rcases h with rfl | h
      · exact ⟨(a, b), by simp, rfl⟩
      · obtain ⟨p, hp, hc⟩ := ih h
        exact ⟨p, by simp [hp], hc⟩

theorem joinSp_append_cons_list (A : List GoString) (B : List GoString) (hB : B ≠ []) :
    joinSp (A ++ B) = (A.map (fun a => a ++ [SP])).flatten ++ joinSp B := by
  cases B with
  | nil => exact absurd rfl hB
  | cons s B => exact joinSp_append_cons A s B

/-- C14 (amended). Sub-clause columns of plain sub-keys stay aligned.  For a
field of `gormFields` whose clauses are ASCII and a sub-key `key` the field has,
if no index-like sub-key placed before `key` in the sub-clause order is present
in the field, then every position before `key` contributes its width plus one
characters to the aligned value, the sub-key of the position being present or
absent, and the field's clause for `key` begins after the sum over the positions
before it of the width plus two characters: an offset that depends on the batch
only. -/
theorem plain_columns_aligned (parsed : List (Option (List KeyValue)))
    (enum : List GoString → List GoString) (parts : List GoString)
    (hparts : some parts ∈ (alignGormPartsWith enum parsed).gormFields)
    (hascii : ∀ c ∈ parts, ∀ b ∈ c, b < 0x80)
    (pre post : List GoString) (key : GoString) (lpre lpost : List Nat) (w : Nat)
    (horder : (alignGormPartsWith enum parsed).globalGormKeyOrder = pre ++ key :: post)
    (hlens : (alignGormPartsWith enum parsed).keyMaxLengths = lpre ++ w :: lpost)
    (hlen : lpre.length = pre.length)
    (hpre : ∀ k ∈ pre, k ∈ indexRelatedKeys → gormTagOf parts k = none)
    (value : GoString) (hval : gormTagOf parts key = some value) :
    (∀ kw ∈ pre.zip lpre,
      RuneCountInString (gormSegment (gormTagOf parts) kw.1 kw.2 true) = kw.2 + 1) ∧
    ∃ head tail,
      alignGormValue (alignGormPartsWith enum parsed).globalGormKeyOrder parts
        (alignGormPartsWith enum parsed).keyMaxLengths = head ++ value ++ tail ∧
      RuneCountInString head = lpre.sum + 2 * pre.length := by
  have hb := keyMaxLengths_bound parsed enum parts hparts pre (key :: post) lpre (w :: lpost)
    horder hlens hlen
  have hP : List.Forall₂ (fun k w => (k ∈ indexRelatedKeys → gormTagOf parts k = none) ∧
      ∀ v, gormTagOf parts k = some v → v.length ≤ w) pre lpre := by
    refine (forall₂_mem_left hb).imp ?_
    intro k x hkx
    exact ⟨hpre k hkx.1, hkx.2⟩
  obtain ⟨kvs, kv, _, _, hpk⟩ := gormFields_parts parsed enum parts hparts
  have htrim : parts.map TrimSpace = parts := by
    rw [hpk]; exact map_trimSpace_idem _
  have hne : ¬ parts.length = 0 := by
    intro h0
    have : parts = [] := List.length_eq_zero.1 h0
    subst this
    simp [gormTagOf] at hval
  refine ⟨?_, ?_⟩
  · intro kw hkw
    obtain ⟨hk1, hk2⟩ := forall₂_zip_mem hP kw hkw
    rw [runeCount_ascii _ (gormSegment_ascii parts hascii _ _ _)]
    exact gormSegment_length _ _ _ hk1 hk2
  · have hvmem : value ∈ parts := gormTagOf_mem hval
    have hvne : value ≠ [] := by
      intro h0
      unfold gormTagOf at hval
      have := List.find?_some hval
      simp [h0] at this
    obtain ⟨c, hc⟩ : ∃ c, value.getLast? = some c := by
      cases hl : value.getLast? with
      | none => exact absurd (List.getLast?_eq_none_iff.1 hl) hvne
      | some c => exact ⟨c, rfl⟩
    have hcsp : c ≠ SP := by
      rw [hpk, List.mem_map] at hvmem
      obtain ⟨p0, _, hp0⟩ := hvmem
      intro h
      apply getLast?_trimSpace p0
      rw [hp0, hc, h]
    obtain ⟨sfx, hsfx⟩ : ∃ sfx, joinSp (gormSegments (gormTagOf parts) (key :: post)
        (w :: lpost)) = value ++ sfx := by
      obtain ⟨d, hd⟩ := joinSp_cons (gormSegment (gormTagOf parts) key w (!post.isEmpty))
        (gormSegments (gormTagOf parts) post lpost)
      have hseg : ∃ s2, gormSegment (gormTagOf parts) key w (!post.isEmpty) = value ++ s2 := by
        unfold gormSegment
        rw [hval]
        simp only
        split
        · exact ⟨_, rfl⟩
        · split
          · split
            · exact ⟨[SEMI] ++ spaces (w - value.length), by simp⟩
            · exact ⟨_, rfl⟩
          · exact ⟨[], by simp⟩
      obtain ⟨s2, hs2⟩ := hseg
      refine ⟨s2 ++ spaces d ++ joinSp (gormSegments (gormTagOf parts) post lpost), ?_⟩
      simp only [gormSegments]
      rw [hd, hs2]
      simp only [List.append_assoc]
    unfold alignGormValue
    rw [if_neg hne, htrim, horder, hlens,
      gormSegments_append _ pre lpre (key :: post) (w :: lpost) hlen (by simp),
      joinSp_append_cons_list _ _ (by simp [gormSegments]), hsfx, ← List.append_assoc]
    obtain ⟨t, ht⟩ := trimRightSp_keep
      ((List.map (fun a => a ++ [SP])
        (List.zipWith (fun k w => gormSegment (gormTagOf parts) k w true) pre lpre)).flatten
        ++ value) c (by rw [List.getLast?_append, hc]; rfl) hcsp sfx
    refine ⟨_, t, ht, ?_⟩
    rw [runeCount_ascii, head_length _ pre lpre hP]
    intro b hb
    rw [List.mem_flatten] at hb
    obtain ⟨s, hs, hbs⟩ := hb
    rw [List.mem_map] at hs
    obtain ⟨a, ha, rfl⟩ := hs
    rcases List.mem_append.1 hbs with h | h
    · obtain ⟨kw, _, rfl⟩ := mem_zipWith_exists ha
      exact gormSegment_ascii parts hascii _ _ _ b h
    · rw [List.mem_singleton.1 h]; decide

/-- C14 (amended) at two fields with the clauses `column:id;type:int;comment:x`
and `column:name;comment:y`: in the second field the clause of `comment` begins
after 23 characters, as it does in the first. -/
theorem plain_columns_aligned_witness :
    (∀ kw ∈ [str "column", str "type"].zip [11, 8],
      RuneCountInString
        (gormSegment (gormTagOf [str "column:name", str "comment:y"]) kw.1 kw.2 true)
          = kw.2 + 1) ∧
    ∃ head tail,
      alignGormValue
        (alignGormPartsWith id
          [some [⟨str "gorm", [BT], str "column:id;type:int;comment:x",
              [str "column:id", str "type:int", str "comment:x"]⟩],
           some [⟨str "gorm", [BT], str "column:name;comment:y",
              [str "column:name", str "comment:y"]⟩]]).globalGormKeyOrder
        [str "column:name", str "comment:y"]
        (alignGormPartsWith id
          [some [⟨str "gorm", [BT], str "column:id;type:int;comment:x",
              [str "column:id", str "type:int", str "comment:x"]⟩],
           some [⟨str "gorm", [BT], str "column:name;comment:y",
              [str "column:name", str "comment:y"]⟩]]).keyMaxLengths
        = head ++ str "comment:y" ++ tail ∧
      RuneCountInString head = [11, 8].sum + 2 * [str "column", str "type"].length :=
  plain_columns_aligned
    [some [⟨str "gorm", [BT], str "column:id;type:int;comment:x",
        [str "column:id", str "type:int", str "comment:x"]⟩],
     some [⟨str "gorm", [BT], str "column:name;comment:y",
        [str "column:name", str "comment:y"]⟩]]
    id [str "column:name", str "comment:y"] (by decide) (by decide)
    [str "column", str "type"] [] (str "comment") [11, 8] [] 9 (by decide) (by decide) rfl
    (by decide) (str "comment:y") (by decide)

/-! ## Evaluations at concrete batches (sub-clauses) -/

/-- C15. Two fields whose `column` clauses are `column:` followed by two
three-byte characters (9 characters, 13 bytes) and `column:abc` (10 characters):
the width of the position is 13, the byte length of the first clause, not 10; and
the second field is padded by 3 spaces after `column:abc;`, where the width in
characters minus the clause's character count is 0. -/
theorem subclause_width_counts_bytes :
    alignGormParts
        [str "`gorm:\"column:" ++ [0xE5, 0x90, 0x8D, 0xE5, 0x90, 0x8D] ++ str ";size:1\"`",
         str "`gorm:\"column:abc;size:2\"`"]
      = Run.ret
          ⟨[some [str "column:" ++ [0xE5, 0x90, 0x8D, 0xE5, 0x90, 0x8D], str "size:1"],
            some [str "column:abc", str "size:2"]],
           [13, 6], [str "column", str "size"]⟩ ∧
    RuneCountInString (str "column:" ++ [0xE5, 0x90, 0x8D, 0xE5, 0x90, 0x8D]) = 9 ∧
    RuneCountInString (str "column:abc") = 10 ∧
    alignGormValue [str "column", str "size"] [str "column:abc", str "size:2"] [13, 6]
      = str "column:abc;" ++ spaces 3 ++ str " size:2" ∧
    alignGormValue [str "column", str "size"]
        [str "column:" ++ [0xE5, 0x90, 0x8D, 0xE5, 0x90, 0x8D], str "size:1"] [13, 6]
      = str "column:" ++ [0xE5, 0x90, 0x8D, 0xE5, 0x90, 0x8D] ++ str "; size:1" := by
  decide

/-- C19. The field `gorm:"index:idx_a;index:idx_b"`: the run succeeds and the
output `gorm` value is `index:idx_b;`; the clause `index:idx_a` is gone. -/
theorem repeated_subkey_clause_dropped :
    fieldsTagFormat [str "`gorm:\"index:idx_a;index:idx_b\"`"]
      = ([str "`gorm:\"index:idx_b;\"`"], Run.ret none) ∧
    (splitSemi (str "index:idx_a;index:idx_b")).map TrimSpace
      = [str "index:idx_a", str "index:idx_b"] ∧
    (splitSemi (str "index:idx_b;")).map TrimSpace = [str "index:idx_b", []] := by
  decide

/-- C18. A field with the key `a` twice: the run succeeds, the input has the
entry `a`/`1` and the output literal `a:"2"` has not: `currentTags` keeps the
last entry of a key only. -/
theorem repeated_key_entry_dropped :
    fieldsTagFormat [str "`a:\"1\" a:\"2\"`"] = ([str "`a:\"2\"`"], Run.ret none) ∧
    ParseTag (str "`a:\"1\" a:\"2\"`")
      = Run.ret ⟨[BT], [⟨str "a", [BT], str "1", []⟩, ⟨str "a", [BT], str "2", []⟩], none⟩ ∧
    ParseTag (str "`a:\"2\"`") = Run.ret ⟨[BT], [⟨str "a", [BT], str "2", []⟩], none⟩ := by
  decide

/-- C14 (counterexample). Two fields with an `index` clause of different length
before `comment`: the clause of `comment` begins after 9 characters in the first
aligned value and after 14 in the second; the present `index` clauses contribute
8 and 13 characters, not the width 12 plus one. -/
theorem index_like_breaks_alignment :
    alignGormParts [str "`gorm:\"index:a;comment:x\"`", str "`gorm:\"index:abcdef;comment:y\"`"]
      = Run.ret ⟨[some [str "index:a", str "comment:x"], some [str "index:abcdef", str "comment:y"]],
          [12, 9], [str "index", str "comment"]⟩ ∧
    alignGormValue [str "index", str "comment"] [str "index:a", str "comment:x"] [12, 9]
      = str "index:a; " ++ str "comment:x" ∧
    alignGormValue [str "index", str "comment"] [str "index:abcdef", str "comment:y"] [12, 9]
      = str "index:abcdef; " ++ str "comment:y" ∧
    RuneCountInString (str "index:a; ") = 9 ∧
    RuneCountInString (str "index:abcdef; ") = 14 := by
  decide

/-- C13. The field `gorm:"index:idx_a;index:idx_b"`: its `gorm` value has the
clause `index:idx_a`, whose sub-key `index` is index-like, and the one segment
`alignGormValue` emits for `index` is `index:idx_b;`, not `index:idx_a;`: the
aligned value is `index:idx_b;` and does not contain `index:idx_a;`. -/
theorem index_like_clause_replaced :
    alignGormParts [str "`gorm:\"index:idx_a;index:idx_b\"`"]
      = Run.ret ⟨[some [str "index:idx_a", str "index:idx_b"]], [11], [str "index"]⟩ ∧
    partKey (str "index:idx_a") = str "index" ∧
    str "index" ∈ indexRelatedKeys ∧
    gormSegments (gormTagOf ([str "index:idx_a", str "index:idx_b"].map TrimSpace))
        [str "index"] [11] = [str "index:idx_b;"] ∧
    alignGormValue [str "index"] [str "index:idx_a", str "index:idx_b"] [11]
      = str "index:idx_b;" ∧
    str "index:idx_b;" ≠ str "index:idx_a;" := by
  decide

end Tagfmt
